import Mathlib

/-!
# WasmTools: a shallow embedding of `src/wasm-tools.h`

The reader of relocatable WebAssembly object modules is embedded as pure
functions over a byte buffer.

Modelling conventions
* The buffer (`std::vector<uint8_t>`) is a `List Nat`; a cursor (`size_t`) is a
  `Nat`: the host is taken to be a 64-bit one, where a cursor plus a 32-bit
  length cannot wrap for a buffer that exists.  `uint32_t` values are `Nat`s,
  and every `uint32_t` operation that can wrap carries an explicit `% 2^32`
  (`u32`).
* The source indexes vectors with the unchecked `operator[]`.  An access that
  falls outside the vector is undefined behaviour in C++; the embedding gives
  it the distinguished outcome `Err.oob`, so that it can never be confused with
  a thrown error or with a successful read.  The same outcome is used for a
  `string_view` whose range leaves the buffer.
* `check(cond, msg)` throws `std::runtime_error(msg)`; the embedding returns
  `Err.msg` with the text that `what()` of the exception yields.  `what()` is a
  C string, so the text ends at the first NUL character of `msg`.  The one
  message that can hold a NUL character is that of the final loop of
  `read_linking`, which carries a name read from the buffer: it is cut by
  `what`.  Every other message is a literal, or a literal followed by a decimal
  number, and is its own C string.
* `printf` tracing is not modelled.
* `while` loops run on a budget that is at least the number of bytes left;
  `Err.fuel` marks an exhausted budget and is not an outcome of the program.
-/

namespace WasmTools

/-! ## Outcomes -/

/-- Ways in which a run of the reader does not return normally. -/
inductive Err where
  /-- an unchecked access outside a vector or the buffer -/
  | oob : Err
  /-- the exception thrown by a failed check, with the text of its `what()` -/
  | msg (s : String) : Err
  /-- the loop budget of the embedding ran out -/
  | fuel : Err
  deriving DecidableEq, Repr

deriving instance DecidableEq for Except

/-- Truncation to `uint32_t`. -/
def u32 (n : Nat) : Nat := n % 4294967296

/-- The source's `check`: throws the message when the condition is false. -/
def check (cond : Bool) (msg : String) : Except Err Unit :=
  if cond then .ok () else .error (.msg msg)

/-- The loop `for (uint32_t i = 0; i < count; ++i) body`: the second argument is
the current index, the third the number of iterations still to run. -/
def forLoop {σ : Type} (body : Nat → σ → Except Err σ) : Nat → Nat → σ → Except Err σ
  | _, 0, s => .ok s
  | i, n + 1, s =>
    match body i s with
    | .error e => .error e
    | .ok s' => forLoop body (i + 1) n s'

/-! ## Constants -/

def wasm_sec_custom : Nat := 0
def wasm_sec_type : Nat := 1
def wasm_sec_import : Nat := 2
def wasm_sec_function : Nat := 3
def wasm_sec_table : Nat := 4
def wasm_sec_memory : Nat := 5
def wasm_sec_global : Nat := 6
def wasm_sec_export : Nat := 7
def wasm_sec_start : Nat := 8
def wasm_sec_elem : Nat := 9
def wasm_sec_code : Nat := 10
def wasm_sec_data : Nat := 11
def num_sections : Nat := 12

def external_function : Nat := 0
def external_table : Nat := 1
def external_memory : Nat := 2
def external_global : Nat := 3

def type_i32 : Nat := 0x7f
def type_anyfunc : Nat := 0x70
def type_func : Nat := 0x60

def r_webassembly_memory_addr_leb : Nat := 3
def r_webassembly_memory_addr_sleb : Nat := 4
def r_webassembly_memory_addr_i32 : Nat := 5

def wasm_symbol_info : Nat := 0x2
def wasm_data_size : Nat := 0x3
def wasm_segment_info : Nat := 0x5

def name_function : Nat := 1

/-! ## Primitive codec -/

/-- The expression `binary[pos++]`: the byte under the cursor and the advanced
cursor. -/
def readByte (binary : List Nat) (pos : Nat) : Except Err (Nat × Nat) :=
  match binary[pos]? with
  | some b => .ok (b, pos + 1)
  | none => .error .oob

/-- The loop of `readLeb`, run on the bytes from the cursor on.  A shift count of
32 or more is undefined in C++; the embedding takes the mathematical shift
truncated to 32 bits, which drops the shifted-out payload. -/
def readLebFrom : List Nat → Nat → Nat → Nat → Except Err (Nat × Nat)
  | [], _, _, _ => .error .oob
  | b :: rest, pos, result, shift =>
    let result := result ||| u32 ((b &&& 0x7f) <<< shift)
    if b &&& 0x80 = 0 then .ok (result, pos + 1)
    else readLebFrom rest (pos + 1) result (shift + 7)

/-- The function `readLeb`: decodes an unsigned varint at `pos`; returns the value
and the advanced cursor. -/
def readLeb (binary : List Nat) (pos : Nat) : Except Err (Nat × Nat) :=
  readLebFrom (binary.drop pos) pos 0 0

/-- The function `pushLeb5`: appends the fixed five-byte encoding of `value`. -/
def pushLeb5 (binary : List Nat) (value : Nat) : List Nat :=
  binary ++
    [ ((value >>> 0) &&& 0x7f) ||| 0x80,
      ((value >>> 7) &&& 0x7f) ||| 0x80,
      ((value >>> 14) &&& 0x7f) ||| 0x80,
      ((value >>> 21) &&& 0x7f) ||| 0x80,
      ((value >>> 28) &&& 0x1f) ||| 0 ]

/-- The contents of a `string_view` into the buffer. -/
abbrev Name := List Nat

/-- The bytes of an ASCII string literal. -/
def strBytes (s : String) : Name := s.toList.map Char.toNat

/-- The function `readStr`: a length-prefixed slice of the buffer.  Forming a
`string_view` over a range that leaves the buffer is outside the precondition
of its constructor, hence `Err.oob`. -/
def readStr (binary : List Nat) (pos : Nat) : Except Err (Name × Nat) := do
  let (len, pos) ← readLeb binary pos
  if pos + len ≤ binary.length then
    pure ((binary.drop pos).take len, pos + len)
  else
    throw Err.oob

/-- The function `getInitExpr32`: the constant of an `i32.const c; end`
initialiser. -/
def getInitExpr32 (binary : List Nat) (pos : Nat) : Except Err (Nat × Nat) := do
  let (op, pos) ← readByte binary pos
  check (op == 0x41) "init_expr is not i32.const"
  let (offset, pos) ← readLeb binary pos
  let (fin, pos) ← readByte binary pos
  check (fin == 0x0b) "init_expr missing end"
  pure (offset, pos)

/-! ## Data model -/

structure Section where
  valid : Bool := false
  begin : Nat := 0
  end_ : Nat := 0
  deriving DecidableEq, Repr

structure Import where
  name : Name := []
  kind : Nat := 0
  index : Nat := 0
  deriving DecidableEq, Repr

structure FunctionType where
  argTypes : List Nat := []
  returnTypes : List Nat := []
  deriving DecidableEq, Repr

structure Function where
  type : Nat := 0
  deriving DecidableEq, Repr

structure ResizableLimits where
  valid : Bool := false
  max_present : Bool := false
  initial : Nat := 0
  maximum : Nat := 0
  deriving DecidableEq, Repr

structure Global where
  isStack : Bool := false
  initU32 : Nat := 0
  deriving DecidableEq, Repr

structure Export where
  name : Name := []
  kind : Nat := 0
  index : Nat := 0
  deriving DecidableEq, Repr

structure Element where
  valid : Bool := false
  fIndex : Nat := 0
  deriving DecidableEq, Repr

structure DataSegment where
  offset : Nat
  size : Nat
  dataBegin : Nat
  deriving DecidableEq, Repr

structure Reloc where
  section_id : Nat := 0
  type : Nat := 0
  offset : Nat := 0
  index : Nat := 0
  addend : Nat := 0
  deriving DecidableEq, Repr

structure Symbol where
  flags : Nat := 0
  imports : List Nat := []
  exports : List Nat := []
  inLinking : Bool := false
  deriving DecidableEq, Repr

/-- The module under construction.  `symbols` is the `std::map`, kept as an
association list in ascending key order. -/
structure Module where
  binary : List Nat
  sections : List Section := List.replicate 12 {}
  imports : List Import := []
  tables : List ResizableLimits := []
  memories : List ResizableLimits := []
  numImportedGlobals : Nat := 0
  globals : List Global := []
  functionTypes : List FunctionType := []
  numImportedFunctions : Nat := 0
  functions : List Function := []
  exports : List Export := []
  elements : List Element := []
  dataSegments : List DataSegment := []
  relocs : List Reloc := []
  symbols : List (Name × Symbol) := []
  dataSize : Nat := 0
  deriving DecidableEq, Repr

/-- The order of `std::map<std::string_view, _>` keys: lexicographic on
unsigned bytes, a proper prefix first. -/
def nameLt : Name → Name → Bool
  | [], [] => false
  | [], _ :: _ => true
  | _ :: _, [] => false
  | a :: as, b :: bs => if a < b then true else if b < a then false else nameLt as bs

/-- The access `symbols[name]` followed by a modification of the referenced
entry: the entry is default-constructed first when the key is absent. -/
def symbolsUpdate (f : Symbol → Symbol) (name : Name) :
    List (Name × Symbol) → List (Name × Symbol)
  | [] => [(name, f {})]
  | (k, s) :: rest =>
    if name = k then (k, f s) :: rest
    else if nameLt name k then (name, f {}) :: (k, s) :: rest
    else (k, s) :: symbolsUpdate f name rest

/-- The call `v.resize(n)` on a vector of elements. -/
def resize (v : List Element) (n : Nat) : List Element :=
  v.take n ++ List.replicate (n - v.length) ({} : Element)

/-! ## Standard section readers

Every reader takes the module, the cursor and the declared end of the section,
and returns the updated module and cursor.  The body of each counted loop is a
definition of its own, run by `forLoop`. -/

/-- The function `read_resizable_limits`. -/
def read_resizable_limits (binary : List Nat) (pos : Nat) :
    Except Err (ResizableLimits × Nat) := do
  let (b, pos) ← readByte binary pos
  let max_present := (b &&& 1) != 0
  let (initial, pos) ← readLeb binary pos
  if max_present then
    let (maximum, pos) ← readLeb binary pos
    pure ({ valid := true, max_present := max_present, initial := initial,
            maximum := maximum }, pos)
  else
    pure ({ valid := true, max_present := max_present, initial := initial,
            maximum := 0 }, pos)

/-- One iteration of the loops `types.push_back(module.binary[pos++])`. -/
def pushByte (binary : List Nat) (_j : Nat) (st : List Nat × Nat) :
    Except Err (List Nat × Nat) := do
  let (b, pos) ← readByte binary st.2
  pure (st.1 ++ [b], pos)

/-- The body of the loop of `read_sec_type`: one function type. -/
def read_sec_type_entry (_i : Nat) (st : Module × Nat) : Except Err (Module × Nat) := do
  let (module, pos) := st
  let (form, pos) ← readByte module.binary pos
  check (form == type_func) "invalid form in type"
  let (param_count, pos) ← readLeb module.binary pos
  let (argTypes, pos) ← forLoop (pushByte module.binary) 0 param_count ([], pos)
  let (return_count, pos) ← readLeb module.binary pos
  let (returnTypes, pos) ← forLoop (pushByte module.binary) 0 return_count ([], pos)
  check (returnTypes.length ≤ 1) "multiple return types"
  pure ({ module with
            functionTypes := module.functionTypes ++
              [{ argTypes := argTypes, returnTypes := returnTypes }] }, pos)

/-- The function `read_sec_type`.  The source never compares the cursor with
`sEnd` here. -/
def read_sec_type (module : Module) (pos : Nat) (_sEnd : Nat) :
    Except Err (Module × Nat) := do
  let (count, pos) ← readLeb module.binary pos
  forLoop read_sec_type_entry 0 count (module, pos)

/-- The body of the loop of `read_sec_import`: one import entry. -/
def read_sec_import_entry (_i : Nat) (st : Module × Nat) : Except Err (Module × Nat) := do
  let (module, pos) := st
  let (_moduleName, pos) ← readStr module.binary pos
  let (fieldName, pos) ← readStr module.binary pos
  let (kind, pos) ← readByte module.binary pos
  if kind = external_function then
    let (type, pos) ← readLeb module.binary pos
    check (type < module.functionTypes.length) "function type doesn't exist"
    pure ({ module with
              numImportedFunctions := u32 (module.numImportedFunctions + 1)
              symbols := symbolsUpdate
                (fun s => { s with imports := s.imports ++ [u32 module.imports.length] })
                fieldName module.symbols
              imports := module.imports ++
                [{ name := fieldName, kind := kind, index := u32 module.functions.length }]
              functions := module.functions ++ [{ type := type }] }, pos)
  else if kind = external_table then
    let (et, pos) ← readByte module.binary pos
    check (et == type_anyfunc) "import table is not anyfunc"
    check (module.tables.length == 0) "multiple tables"
    let (limits, pos) ← read_resizable_limits module.binary pos
    pure ({ module with
              symbols := symbolsUpdate
                (fun s => { s with imports := s.imports ++ [u32 module.imports.length] })
                fieldName module.symbols
              imports := module.imports ++
                [{ name := fieldName, kind := kind, index := u32 module.tables.length }]
              tables := module.tables ++ [limits] }, pos)
  else if kind = external_memory then
    check (module.memories.length == 0) "multiple memories"
    let (limits, pos) ← read_resizable_limits module.binary pos
    pure ({ module with
              symbols := symbolsUpdate
                (fun s => { s with imports := s.imports ++ [u32 module.imports.length] })
                fieldName module.symbols
              imports := module.imports ++
                [{ name := fieldName, kind := kind, index := u32 module.memories.length }]
              memories := module.memories ++ [limits] }, pos)
  else if kind = external_global then
    let (vt, pos) ← readByte module.binary pos
    check (vt == type_i32) "imported global is not i32"
    let (_mutability, pos) ← readByte module.binary pos
    pure ({ module with
              numImportedGlobals := u32 (module.numImportedGlobals + 1)
              symbols := symbolsUpdate
                (fun s => { s with imports := s.imports ++ [u32 module.imports.length] })
                fieldName module.symbols
              imports := module.imports ++
                [{ name := fieldName, kind := kind, index := u32 module.globals.length }]
              globals := module.globals ++
                [{ isStack := fieldName == strBytes "__stack_pointer", initU32 := 0 }] }, pos)
  else
    throw (Err.msg "unknown import kind")

/-- The function `read_sec_import`. -/
def read_sec_import (module : Module) (pos : Nat) (sEnd : Nat) :
    Except Err (Module × Nat) := do
  let (count, pos) ← readLeb module.binary pos
  let (module, pos) ← forLoop read_sec_import_entry 0 count (module, pos)
  check (pos == sEnd) "import section malformed"
  pure (module, pos)

/-- The body of the loop of `read_sec_function`. -/
def read_sec_function_entry (_i : Nat) (st : Module × Nat) :
    Except Err (Module × Nat) := do
  let (module, pos) := st
  let (type, pos) ← readLeb module.binary pos
  check (type < module.functionTypes.length) "function type doesn't exist"
  pure ({ module with functions := module.functions ++ [{ type := type }] }, pos)

/-- The function `read_sec_function`. -/
def read_sec_function (module : Module) (pos : Nat) (sEnd : Nat) :
    Except Err (Module × Nat) := do
  let (count, pos) ← readLeb module.binary pos
  let (module, pos) ← forLoop read_sec_function_entry 0 count (module, pos)
  check (pos == sEnd) "function section malformed"
  pure (module, pos)

/-- The function `read_sec_table`. -/
def read_sec_table (module : Module) (pos : Nat) (sEnd : Nat) :
    Except Err (Module × Nat) := do
  let (et, pos) ← readByte module.binary pos
  check (et == type_anyfunc) "import table is not anyfunc"
  check (module.tables.length == 0) "multiple tables"
  let (limits, pos) ← read_resizable_limits module.binary pos
  let module := { module with tables := module.tables ++ [limits] }
  check (pos == sEnd) "table section malformed"
  pure (module, pos)

/-- The function `read_sec_memory`. -/
def read_sec_memory (module : Module) (pos : Nat) (sEnd : Nat) :
    Except Err (Module × Nat) := do
  check (module.memories.length == 0) "multiple memories"
  let (limits, pos) ← read_resizable_limits module.binary pos
  let module := { module with memories := module.memories ++ [limits] }
  check (pos == sEnd) "memory section malformed"
  pure (module, pos)

/-- The body of the loop of `read_sec_global`. -/
def read_sec_global_entry (_i : Nat) (st : Module × Nat) : Except Err (Module × Nat) := do
  let (module, pos) := st
  let (vt, pos) ← readByte module.binary pos
  check (vt == type_i32) "global is not i32"
  let (_mutability, pos) ← readByte module.binary pos
  let (initU32, pos) ← getInitExpr32 module.binary pos
  pure ({ module with
            globals := module.globals ++ [{ isStack := false, initU32 := initU32 }] }, pos)

/-- The function `read_sec_global`. -/
def read_sec_global (module : Module) (pos : Nat) (sEnd : Nat) :
    Except Err (Module × Nat) := do
  let (count, pos) ← readLeb module.binary pos
  let (module, pos) ← forLoop read_sec_global_entry 0 count (module, pos)
  check (pos == sEnd) "global section malformed"
  pure (module, pos)

/-- The body of the loop of `read_sec_export`: one export entry. -/
def read_sec_export_entry (_i : Nat) (st : Module × Nat) : Except Err (Module × Nat) := do
  let (module, pos) := st
  let (name, pos) ← readStr module.binary pos
  let (kind, pos) ← readByte module.binary pos
  let (index, pos) ← readLeb module.binary pos
  if kind = external_function then
    check (index ≥ module.numImportedFunctions && index < module.functions.length)
      "export has invalid function index"
    pure ({ module with
              symbols := symbolsUpdate
                (fun s => { s with exports := s.exports ++ [u32 module.exports.length] })
                name module.symbols
              exports := module.exports ++ [{ name := name, kind := kind, index := index }] },
          pos)
  else if kind = external_global then
    check (index ≥ module.numImportedGlobals && index < module.globals.length)
      "export has invalid global index"
    pure ({ module with
              symbols := symbolsUpdate
                (fun s => { s with exports := s.exports ++ [u32 module.exports.length] })
                name module.symbols
              exports := module.exports ++ [{ name := name, kind := kind, index := index }] },
          pos)
  else
    pure (module, pos)

/-- The function `read_sec_export`. -/
def read_sec_export (module : Module) (pos : Nat) (sEnd : Nat) :
    Except Err (Module × Nat) := do
  let (count, pos) ← readLeb module.binary pos
  let (module, pos) ← forLoop read_sec_export_entry 0 count (module, pos)
  check (pos == sEnd) "export section malformed"
  pure (module, pos)

/-- The function `read_sec_start`. -/
def read_sec_start (_module : Module) (_pos : Nat) (_sEnd : Nat) :
    Except Err (Module × Nat) := do
  throw (Err.msg "start section unsupported")

/-- The body of the inner loop of `read_sec_elem`: one table slot of a segment
with base `offset`.  `eIndex + 1` is a `uint32_t` sum, and the final store is the
unchecked `module.elements[eIndex] = ...`. -/
def read_sec_elem_slot (offset : Nat) (j : Nat) (st : Module × Nat) :
    Except Err (Module × Nat) := do
  let (module, pos) := st
  let eIndex := u32 (offset + j)
  let (fIndex, pos) ← readLeb module.binary pos
  check (fIndex < module.functions.length) "elem has invalid function index"
  let elements :=
    if eIndex ≥ module.elements.length then resize module.elements (u32 (eIndex + 1))
    else module.elements
  if eIndex < elements.length then
    pure ({ module with elements := elements.set eIndex { valid := true, fIndex := fIndex } },
          pos)
  else
    throw Err.oob

/-- The body of the outer loop of `read_sec_elem`: one element segment. -/
def read_sec_elem_segment (_i : Nat) (st : Module × Nat) : Except Err (Module × Nat) := do
  let (module, pos) := st
  let (tableIndex, pos) ← readLeb module.binary pos
  check (tableIndex == 0) "elem table index not 0"
  let (offset, pos) ← getInitExpr32 module.binary pos
  let (num, pos) ← readLeb module.binary pos
  forLoop (read_sec_elem_slot offset) 0 num (module, pos)

/-- The final loop of `read_sec_elem`: throws at the first slot that is not
valid; the second argument is the index of the head of the list. -/
def checkHoles : List Element → Nat → Except Err Unit
  | [], _ => .ok ()
  | e :: rest, i =>
    if !e.valid then .error (.msg ("hole in table at index " ++ toString i))
    else checkHoles rest (i + 1)

/-- The function `read_sec_elem`. -/
def read_sec_elem (module : Module) (pos : Nat) (sEnd : Nat) :
    Except Err (Module × Nat) := do
  let (count, pos) ← readLeb module.binary pos
  let (module, pos) ← forLoop read_sec_elem_segment 0 count (module, pos)
  checkHoles module.elements 0
  check (pos == sEnd) "elem section malformed"
  pure (module, pos)

/-- The function `read_sec_code`: a no-op. -/
def read_sec_code (module : Module) (pos : Nat) (_sEnd : Nat) :
    Except Err (Module × Nat) :=
  pure (module, pos)

/-- The body of the loop of `read_sec_data`: one data segment. -/
def read_sec_data_segment (_i : Nat) (st : Module × Nat) : Except Err (Module × Nat) := do
  let (module, pos) := st
  let (memIndex, pos) ← readLeb module.binary pos
  check (memIndex == 0) "data memory index not 0"
  let (offset, pos) ← getInitExpr32 module.binary pos
  let (size, pos) ← readLeb module.binary pos
  pure ({ module with
            dataSegments := module.dataSegments ++
              [{ offset := offset, size := size, dataBegin := u32 pos }] }, pos + size)

/-- The contiguity loop of `read_sec_data`; the second argument is `lastUsed`, a
`uint32_t`. -/
def checkContiguous : List DataSegment → Nat → Except Err Unit
  | [], _ => .ok ()
  | seg :: rest, lastUsed =>
    if seg.offset = lastUsed then checkContiguous rest (u32 (lastUsed + seg.size))
    else .error (.msg "segments not contiguous")

/-- The function `read_sec_data`. -/
def read_sec_data (module : Module) (pos : Nat) (sEnd : Nat) :
    Except Err (Module × Nat) := do
  let (count, pos) ← readLeb module.binary pos
  let (module, pos) ← forLoop read_sec_data_segment 0 count (module, pos)
  checkContiguous module.dataSegments 0
  check (pos == sEnd) "data section malformed"
  pure (module, pos)

/-! ## Custom section readers -/

/-- The body of the counted loop of `read_sec_name`: one function name. -/
def read_sec_name_entry (_i : Nat) (st : Module × Nat) : Except Err (Module × Nat) := do
  let (module, pos) := st
  let (index, pos) ← readLeb module.binary pos
  let (_name, pos) ← readStr module.binary pos
  check (index < module.functions.length) "invalid function index in name"
  pure (module, pos)

/-- The `while (pos < sEnd)` loop of `read_sec_name`. -/
def read_sec_name_loop (sEnd : Nat) : Nat → Module → Nat → Except Err (Module × Nat)
  | 0, module, pos => if pos < sEnd then .error .fuel else .ok (module, pos)
  | fuel + 1, module, pos =>
    if pos < sEnd then do
      let (type, pos) ← readByte module.binary pos
      let (subLen, pos) ← readLeb module.binary pos
      let subEnd := pos + subLen
      if type = name_function then
        let (count, pos) ← readLeb module.binary pos
        let (module, pos) ← forLoop read_sec_name_entry 0 count (module, pos)
        read_sec_name_loop sEnd fuel module pos
      else
        read_sec_name_loop sEnd fuel module subEnd
    else .ok (module, pos)

/-- The function `read_sec_name`.  No caller in the source reaches it. -/
def read_sec_name (module : Module) (pos : Nat) (sEnd : Nat) :
    Except Err (Module × Nat) := do
  let (module, pos) ← read_sec_name_loop sEnd (sEnd - pos) module pos
  check (pos == sEnd) "name section malformed"
  pure (module, pos)

/-- The body of the loop of `read_reloc`: one relocation entry. -/
def read_reloc_entry (section_id : Nat) (_i : Nat) (st : Module × Nat) :
    Except Err (Module × Nat) := do
  let (module, pos) := st
  let (type, pos) ← readLeb module.binary pos
  let (offset, pos) ← readLeb module.binary pos
  let (index, pos) ← readLeb module.binary pos
  if type = r_webassembly_memory_addr_leb ∨ type = r_webassembly_memory_addr_sleb ∨
      type = r_webassembly_memory_addr_i32 then
    let (addend, pos) ← readLeb module.binary pos
    pure ({ module with
              relocs := module.relocs ++
                [{ section_id := section_id, type := type, offset := offset, index := index,
                   addend := addend }] }, pos)
  else
    pure ({ module with
              relocs := module.relocs ++
                [{ section_id := section_id, type := type, offset := offset, index := index,
                   addend := 0 }] }, pos)

/-- The function `read_reloc`. -/
def read_reloc (module : Module) (_name : Name) (pos : Nat) (sEnd : Nat) :
    Except Err (Module × Nat) := do
  let (section_id, pos) ← readLeb module.binary pos
  check (section_id == wasm_sec_code || section_id == wasm_sec_data)
    "unsupported reloc section id"
  let (count, pos) ← readLeb module.binary pos
  let (module, pos) ← forLoop (read_reloc_entry section_id) 0 count (module, pos)
  check (pos == sEnd) "reloc section malformed"
  pure (module, pos)

/-- The body of the symbol-info loop of `read_linking`. -/
def read_linking_symbol (_i : Nat) (st : Module × Nat) : Except Err (Module × Nat) := do
  let (module, pos) := st
  let (name, pos) ← readStr module.binary pos
  let (flags, pos) ← readLeb module.binary pos
  pure ({ module with
            symbols := symbolsUpdate (fun s => { s with flags := flags, inLinking := true })
              name module.symbols }, pos)

/-- The body of the segment-info loop of `read_linking`. -/
def read_linking_segment (_i : Nat) (st : Module × Nat) : Except Err (Module × Nat) := do
  let (module, pos) := st
  let (_name, pos) ← readStr module.binary pos
  let (_alignment, pos) ← readLeb module.binary pos
  let (_flags, pos) ← readLeb module.binary pos
  pure (module, pos)

/-- The `while (pos < sEnd)` loop of `read_linking`. -/
def read_linking_loop (sEnd : Nat) : Nat → Module → Nat → Except Err (Module × Nat)
  | 0, module, pos => if pos < sEnd then .error .fuel else .ok (module, pos)
  | fuel + 1, module, pos =>
    if pos < sEnd then do
      let (type, pos) ← readByte module.binary pos
      let (_len, pos) ← readLeb module.binary pos
      if type = wasm_symbol_info then
        let (count, pos) ← readLeb module.binary pos
        let (module, pos) ← forLoop read_linking_symbol 0 count (module, pos)
        read_linking_loop sEnd fuel module pos
      else if type = wasm_data_size then
        let (dataSize, pos) ← readLeb module.binary pos
        read_linking_loop sEnd fuel { module with dataSize := dataSize } pos
      else if type = wasm_segment_info then
        let (count, pos) ← readLeb module.binary pos
        let (module, pos) ← forLoop read_linking_segment 0 count (module, pos)
        read_linking_loop sEnd fuel module pos
      else
        throw (Err.msg ("unhandled linking subsection " ++ toString type))
    else .ok (module, pos)

/-- The conversion `std::string{name}`: one character per byte of the name, a
NUL byte included. -/
def nameStr (name : Name) : String := String.mk (name.map Char.ofNat)

/-- The text returned by `what()` of a thrown `std::runtime_error`: a C string,
which ends before the first NUL character of the message the exception was
built from. -/
def what (msg : String) : String := String.mk (msg.data.takeWhile (fun c => c.toNat != 0))

/-- The final loop of `read_linking` over the symbol table, in key order.  The
message is built from the whole name and thrown; what the exception reports is
its C string. -/
def checkExported : List (Name × Symbol) → Except Err Unit
  | [] => .ok ()
  | (name, symbol) :: rest =>
    if !symbol.inLinking && !symbol.exports.isEmpty then
      .error (.msg
        (what ("symbol " ++ nameStr name ++ " is exported, but not in linking section")))
    else checkExported rest

/-- The function `read_linking`. -/
def read_linking (module : Module) (pos : Nat) (sEnd : Nat) :
    Except Err (Module × Nat) := do
  let (module, pos) ← read_linking_loop sEnd (sEnd - pos) module pos
  check (pos == sEnd) "linking section malformed"
  checkExported module.symbols
  pure (module, pos)

/-! ## Top-level driver -/

/-- The dispatch of a standard section, `switch (id)` in `read_module`. -/
def read_standard (id : Nat) (module : Module) (pos : Nat) (sEnd : Nat) :
    Except Err (Module × Nat) :=
  if id = wasm_sec_type then read_sec_type module pos sEnd
  else if id = wasm_sec_import then read_sec_import module pos sEnd
  else if id = wasm_sec_function then read_sec_function module pos sEnd
  else if id = wasm_sec_table then read_sec_table module pos sEnd
  else if id = wasm_sec_memory then read_sec_memory module pos sEnd
  else if id = wasm_sec_global then read_sec_global module pos sEnd
  else if id = wasm_sec_export then read_sec_export module pos sEnd
  else if id = wasm_sec_start then read_sec_start module pos sEnd
  else if id = wasm_sec_elem then read_sec_elem module pos sEnd
  else if id = wasm_sec_code then read_sec_code module pos sEnd
  else if id = wasm_sec_data then read_sec_data module pos sEnd
  else .error (.msg "unknown section id")

/-- The dispatch of a custom section by its name. -/
def read_custom (module : Module) (pos : Nat) (sEnd : Nat) : Except Err (Module × Nat) := do
  let (name, pos) ← readStr module.binary pos
  if (strBytes "reloc.").isPrefixOf name then
    read_reloc module name pos sEnd
  else if name = strBytes "linking" then
    read_linking module pos sEnd
  else
    pure (module, pos)

/-- The body of the `while (pos != end)` loop of `read_module`: one section.  The
cursor returned is the declared end of the section, whatever the handler left. -/
def read_section (module : Module) (pos : Nat) : Except Err (Module × Nat) := do
  let (id, pos) ← readByte module.binary pos
  check (id < num_sections) "invalid section id"
  let (payloadLen, pos) ← readLeb module.binary pos
  let sEnd := pos + payloadLen
  check (sEnd ≤ module.binary.length) "section extends past file end"
  if id ≠ 0 then
    let module := { module with
      sections := module.sections.set id { valid := true, begin := pos, end_ := sEnd } }
    let (module, _) ← read_standard id module pos sEnd
    pure (module, sEnd)
  else
    let (module, _) ← read_custom module pos sEnd
    pure (module, sEnd)

/-- The `while (pos != end)` loop of `read_module`. -/
def read_module_loop : Nat → Module → Nat → Except Err Module
  | 0, module, pos => if pos ≠ module.binary.length then .error .fuel else .ok module
  | fuel + 1, module, pos =>
    if pos ≠ module.binary.length then
      match read_section module pos with
      | .error e => .error e
      | .ok (module, pos) => read_module_loop fuel module pos
    else .ok module

/-- The function `read_module`.  The 32-bit load of the magic number is the
comparison of the first four bytes on a little-endian host. -/
def read_module (bin : List Nat) : Except Err Module := do
  let module : Module := { binary := bin }
  check (module.binary.length ≥ 8 && module.binary.take 4 == [0x00, 0x61, 0x73, 0x6d])
    "not a wasm file"
  read_module_loop module.binary.length module 8

/-! ## Example buffers -/

/-- The eight-byte header: magic number and version 1. -/
def wasmHeader : List Nat := [0x00, 0x61, 0x73, 0x6d, 1, 0, 0, 0]

/-- A type section with the single type `() -> ()`. -/
def typeSection : List Nat := [1, 4, 1, 0x60, 0, 0]

/-- A function section declaring one function of type 0. -/
def functionSection : List Nat := [3, 2, 1, 0]

/-- An export section exporting function 0 under the name `f`. -/
def exportSection : List Nat := [7, 5, 1, 1, 0x66, 0, 0]

/-- An import section importing `m.g` as a function of type 0. -/
def importSection : List Nat := [2, 7, 1, 1, 0x6d, 1, 0x67, 0, 0]

/-- Type, function and export sections, no `linking` section. -/
def exportOnly : List Nat :=
  wasmHeader ++ typeSection ++ functionSection ++ exportSection

/-- A `linking` section with an empty symbol-info list before the export
section. -/
def linkingThenExport : List Nat :=
  wasmHeader ++ typeSection ++ functionSection ++
    [0, 11, 7, 0x6c, 0x69, 0x6e, 0x6b, 0x69, 0x6e, 0x67, 2, 1, 0] ++ exportSection

/-- The export section followed by a `linking` section whose symbol-info list
declares `f`. -/
def exportThenLinking : List Nat :=
  wasmHeader ++ typeSection ++ functionSection ++ exportSection ++
    [0, 14, 7, 0x6c, 0x69, 0x6e, 0x6b, 0x69, 0x6e, 0x67, 2, 3, 1, 1, 0x66, 0]

/-- The export section followed by a `linking` section whose symbol-info list is
empty. -/
def exportThenEmptyLinking : List Nat :=
  wasmHeader ++ typeSection ++ functionSection ++ exportSection ++
    [0, 11, 7, 0x6c, 0x69, 0x6e, 0x6b, 0x69, 0x6e, 0x67, 2, 1, 0]

/-- A type section of declared length 2 whose content is the single byte `0`
(no types), followed by a stray byte. -/
def typeTrailing : List Nat := wasmHeader ++ [1, 2, 0, 0xff]

/-- A function section of declared length 2 whose content is the single byte `0`
(no functions), followed by a stray byte. -/
def functionTrailing : List Nat := wasmHeader ++ [3, 2, 0, 0xff]

/-- A function section before the import section. -/
def functionThenImport : List Nat :=
  wasmHeader ++ typeSection ++ functionSection ++ importSection

/-- The import section before the function section. -/
def importThenFunction : List Nat :=
  wasmHeader ++ typeSection ++ importSection ++ functionSection

/-- A module with two imported and three locally declared functions whose buffer
is a single export entry: name `f`, kind function, the given index. -/
def exportProbe (index : Nat) : Module :=
  { binary := [1, 0x66, 0, index]
    numImportedFunctions := 2
    functions := List.replicate 5 { type := 0 } }

/-- A module with one function whose buffer is the payload of an element section
with two segments: three slots from table index 0, and one slot at the given
table index. -/
def elemProbe (last : Nat) : Module :=
  { binary := [2, 0, 0x41, 0, 0x0b, 3, 0, 0, 0, 0, 0x41, last, 0x0b, 1, 0]
    functions := [{ type := 0 }] }

/-- A module that already has a table and whose buffer is the payload of a table
section with the given element type and limits `0..1`. -/
def tableProbe (elemType : Nat) : Module :=
  { binary := [elemType, 1, 0, 1]
    tables := [{ valid := true, max_present := true, initial := 0, maximum := 1 }] }

/-- Two table sections, the second with element type `0x7f`. -/
def twoTables : List Nat := wasmHeader ++ [4, 3, 0x70, 0, 1] ++ [4, 3, 0x7f, 0, 1]

/-- An imported memory followed by a memory section. -/
def importAndMemory : List Nat :=
  wasmHeader ++ [2, 7, 1, 0, 1, 0x6d, 2, 0, 1] ++ [5, 2, 0, 1]

/-- A memory section alone. -/
def memoryOnly : List Nat := wasmHeader ++ [5, 2, 0, 1]

/-- A custom section named `name` whose function-name subsection names function 5
of a module without functions. -/
def nameSection : List Nat :=
  wasmHeader ++ [0, 10, 4, 0x6e, 0x61, 0x6d, 0x65, 1, 3, 1, 5, 0]

/-- A module whose buffer is the payload of a data section with two segments: ten
bytes at offset 0, then five bytes at the given offset. -/
def dataProbe (second : Nat) : Module :=
  { binary := [2, 0, 0x41, 0, 0x0b, 10] ++ List.replicate 10 0 ++
      [0, 0x41, second, 0x0b, 5] ++ List.replicate 5 0 }

/-- The tail of `wrapData`: a data section with the segments
`(offset 4294967040, size 256)` and `(offset 0, size 0)`. -/
def wrapTail : List Nat :=
  [11, 0x90, 0x02, 2, 0, 0x41, 0x80, 0xfe, 0xff, 0xff, 0x0f, 0x0b, 0x80, 0x02] ++
    List.replicate 256 0 ++ [0, 0x41, 0, 0x0b, 0]

/-- The head of `wrapData`: the header and the start of a data section with the
single segment `(offset 0, size 4294967040)`, up to its payload. -/
def wrapHead : List Nat :=
  wasmHeader ++
    [11, 0x8a, 0xfe, 0xff, 0xff, 0x0f, 1, 0, 0x41, 0, 0x0b, 0x80, 0xfe, 0xff, 0xff, 0x0f]

/-- The size of the first data segment of `wrapData`, 2^32 - 256. -/
def wrapPad : Nat := 4294967040

/-- A buffer of 4294967339 bytes with two data sections: the segment
`(0, 4294967040)` with its payload of zero bytes, then the segments
`(4294967040, 256)` and `(0, 0)`. -/
def wrapData : List Nat :=
  (wrapHead ++ List.replicate wrapPad 0) ++ wrapTail

/-- The module after the first section of `wrapData`. -/
def wrapModule1 : Module :=
  { binary := wrapData
    sections := (List.replicate 12 {}).set 11 ⟨true, 14, 4294967064⟩
    dataSegments := [⟨0, 4294967040, 24⟩] }

/-- The module read from `wrapData`. -/
def wrapModule : Module :=
  { binary := wrapData
    sections := ((List.replicate 12 {}).set 11 ⟨true, 14, 4294967064⟩).set 11
      ⟨true, 4294967067, 4294967339⟩
    dataSegments :=
      [⟨0, 4294967040, 24⟩, ⟨4294967040, 256, 4294967078 % 4294967296⟩,
       ⟨0, 0, 4294967339 % 4294967296⟩] }

/-- A module whose buffer is one type entry with no parameter and the given
return types. -/
def typeEntryProbe (returns : List Nat) : Module :=
  { binary := [0x60, 0, returns.length] ++ returns }

/-- A module without function types whose buffer holds the type index 5. -/
def functionProbe : Module := { binary := [5] }

/-- A module without function types whose buffer is a function import with
empty names and type index 5. -/
def functionImportProbe : Module := { binary := [0, 0, 0, 5] }

/-- A header followed by an empty start section. -/
def startSection : List Nat := wasmHeader ++ [8, 0]

/-- A header, an import section with the global `__stack_pointer`, and a global
section with one global initialised to 7. -/
def stackPointerModule : List Nat :=
  wasmHeader ++
    [2, 21, 1, 0, 15, 0x5f, 0x5f, 0x73, 0x74, 0x61, 0x63, 0x6b, 0x5f, 0x70, 0x6f, 0x69, 0x6e,
      0x74, 0x65, 0x72, 3, 0x7f, 0] ++
    [6, 6, 1, 0x7f, 0, 0x41, 7, 0x0b]

/-- A header, a type section, a function section, and an element section with
one segment of one slot at base offset 0xFFFFFFFF, holding function 0. -/
def elemWrap : List Nat :=
  wasmHeader ++ typeSection ++ functionSection ++
    [9, 11, 1, 0, 0x41, 0xff, 0xff, 0xff, 0xff, 0x0f, 0x0b, 1, 0]

/-- The same with base offset 2: slots 0 and 1 are holes. -/
def elemSparse : List Nat :=
  wasmHeader ++ typeSection ++ functionSection ++
    [9, 7, 1, 0, 0x41, 2, 0x0b, 1, 0]

/-- A module with one function and an empty element array whose buffer holds
the function index 0. -/
def slotProbe : Module := { binary := [0], functions := [{ type := 0 }] }

/-- A header, a type section, a function section, and an export section that
exports function 0 twice under the name "f". -/
def twoExports : List Nat :=
  wasmHeader ++ typeSection ++ functionSection ++ [7, 9, 2, 1, 0x66, 0, 0, 1, 0x66, 0, 0]

/-- The buffer `exportThenLinking` with the version field changed to 2. -/
def versionTwo : List Nat := [0x00, 0x61, 0x73, 0x6d, 2, 0, 0, 0] ++ exportThenLinking.drop 8

/-- The bytes `e` repeated `n` times. -/
def repeatBytes (e : List Nat) : Nat → List Nat
  | 0 => []
  | n + 1 => e ++ repeatBytes e n

/-- The number of entries of one import section of `manyGlobals`. -/
def manyCount : Nat := 536870912

/-- An import section of `manyCount` globals with empty names: id 2, payload
length 5 + 5 * 2^29, count 2^29, and the entries. -/
def globalImportSection : List Nat :=
  [2, 0x85, 0x80, 0x80, 0x80, 0x0a, 0x80, 0x80, 0x80, 0x80, 0x02] ++
    repeatBytes [0, 0, 3, 0x7f, 0] manyCount

/-- An import section with the single global `__stack_pointer`. -/
def stackImportSection : List Nat :=
  [2, 21, 1, 0, 15, 0x5f, 0x5f, 0x73, 0x74, 0x61, 0x63, 0x6b, 0x5f, 0x70, 0x6f, 0x69, 0x6e,
    0x74, 0x65, 0x72, 3, 0x7f, 0]

/-- A header, eight import sections of 2^29 globals each, and an import section
with the global `__stack_pointer`: 2^32 + 1 imported globals. -/
def manyGlobals : List Nat :=
  wasmHeader ++ (repeatBytes globalImportSection 8 ++ stackImportSection)

/-- A module with an empty relocation list whose buffer is the payload of a
relocation section behind its name: target 10, two entries, the first of kind 0
(offset 1, index 2), the second of kind 3 (offset 4, index 5, addend 6). -/
def relocProbe : Module := { binary := [10, 2, 0, 1, 2, 3, 4, 5, 6] }

/-- The same payload with target section 7. -/
def relocTargetProbe : Module := { binary := [7, 2, 0, 1, 2, 3, 4, 5, 6] }

/-- A header and a custom section named `reloc.X` with target 11 and one entry
of kind 4 (offset 1, index 2, addend 3). -/
def relocModule : List Nat :=
  wasmHeader ++ [0, 14, 7, 0x72, 0x65, 0x6c, 0x6f, 0x63, 0x2e, 0x58, 11, 1, 4, 1, 2, 3] ++
    [0, 1, 0]

/-- The name of a custom section whose payload starts at `p`; empty for a
standard section and for a name that cannot be read. -/
def sectionName (binary : List Nat) (id p : Nat) : Name :=
  if id = 0 then
    match readStr binary p with
    | .ok (name, _) => name
    | .error _ => []
  else []

/-- The section headers met by the loop of `read_module` from `pos` on: the id
byte of each section and the name of each custom section.  The framing is that
of `read_section`: id byte, payload length, next section at the declared end. -/
def sectionHeaders (binary : List Nat) : Nat → Nat → List (Nat × Name)
  | 0, _ => []
  | fuel + 1, pos =>
    if pos ≠ binary.length then
      match readByte binary pos with
      | .ok (id, p1) =>
        match readLeb binary p1 with
        | .ok (len, p2) =>
          (id, sectionName binary id p2) :: sectionHeaders binary fuel (p2 + len)
        | .error _ => []
      | .error _ => []
    else []

/-- The section headers of a whole buffer, in file order. -/
def sectionLayout (bin : List Nat) : List (Nat × Name) :=
  sectionHeaders bin bin.length 8

/-- A header of a custom section named `linking`. -/
def isLinking (h : Nat × Name) : Bool :=
  h.1 == 0 && h.2 == strBytes "linking"

/-- Some `linking` section is followed by no export section. -/
def linkingAfterExports : List (Nat × Name) → Bool
  | [] => false
  | h :: rest =>
    (isLinking h && rest.all (fun x => x.1 != wasm_sec_export)) || linkingAfterExports rest

/-- No import section follows a function section. -/
def importsBeforeFunctions : List (Nat × Name) → Bool
  | [] => true
  | h :: rest =>
    if h.1 = wasm_sec_function then rest.all (fun x => x.1 != wasm_sec_import)
    else importsBeforeFunctions rest

/-- Every symbol with an export reference is declared in a linking section. -/
def ExportedInLinking (m : Module) : Prop :=
  ∀ x ∈ m.symbols, x.2.exports ≠ [] → x.2.inLinking = true

instance (m : Module) : Decidable (ExportedInLinking m) := by
  unfold ExportedInLinking; infer_instance

/-- The imports of kind function, in import order. -/
def functionImports (m : Module) : List Import :=
  m.imports.filter (fun i => i.kind == external_function)

/-- The function imports carry the `uint32_t` indices 0, 1, 2, ... in import
order and are counted by `numImportedFunctions`. -/
def ImportsNumbered (m : Module) : Prop :=
  (functionImports m).length ≤ m.functions.length ∧
  m.numImportedFunctions = u32 (functionImports m).length ∧
  (functionImports m).map (fun i => i.index) =
    (List.range (functionImports m).length).map u32

/-- No function has been declared by a function section yet. -/
def NoLocalFunction (m : Module) : Prop :=
  m.functions.length = (functionImports m).length

/-- The sum of the sizes of the first `k` segments. -/
def sizesBefore (segs : List DataSegment) (k : Nat) : Nat :=
  ((segs.take k).map (fun s => s.size)).sum

/-- The segments lie end to end from offset 0: the offset of each segment is the
sum of the sizes of the segments before it. -/
def Contiguous (segs : List DataSegment) : Prop :=
  ∀ k (hk : k < segs.length), (segs.get ⟨k, hk⟩).offset = sizesBefore segs k

instance (segs : List DataSegment) : Decidable (Contiguous segs) := by
  unfold Contiguous; infer_instance

/-- The same with the running sum truncated to `uint32_t`. -/
def Contiguous32 (segs : List DataSegment) : Prop :=
  ∀ k (hk : k < segs.length), (segs.get ⟨k, hk⟩).offset = u32 (sizesBefore segs k)

instance (segs : List DataSegment) : Decidable (Contiguous32 segs) := by
  unfold Contiguous32; infer_instance

/-- The data segments read so far have passed the contiguity loop and their sizes
add up to at most the cursor. -/
def DataInv (m : Module) (pos : Nat) : Prop :=
  sizesBefore m.dataSegments m.dataSegments.length ≤ pos ∧
  checkContiguous m.dataSegments 0 = .ok ()

/-- The number of iterations of the loop of `read_module` that run to their end,
from the cursor `pos` on. -/
def sectionsDone : Nat → Module → Nat → Nat
  | 0, _, _ => 0
  | fuel + 1, module, pos =>
    if pos ≠ module.binary.length then
      match read_section module pos with
      | .error _ => 0
      | .ok (module, pos) => 1 + sectionsDone fuel module pos
    else 0

/-- The lookup `symbols.find(name)`: the symbol stored under a name. -/
def symbolsFind (name : Name) : List (Name × Symbol) → Option Symbol
  | [] => none
  | (k, s) :: rest => if name = k then some s else symbolsFind name rest

/-- The representation invariant of the `std::map`: the keys are in strictly
ascending order. -/
def SymbolsSorted (syms : List (Name × Symbol)) : Prop :=
  syms.Pairwise (fun x y => nameLt x.1 y.1 = true)

/-- The ascending list of the positions, counted from `i`, of the entries of a
list that satisfy `p`. -/
def positionsFrom {α : Type} (p : α → Bool) : Nat → List α → List Nat
  | _, [] => []
  | i, a :: l => if p a then i :: positionsFrom p (i + 1) l else positionsFrom p (i + 1) l

/-- The positions of the exports named `n` in the export list. -/
def exportPositions (m : Module) (n : Name) : List Nat :=
  positionsFrom (fun e : Export => e.name == n) 0 m.exports

/-- The positions of the imports named `n` in the import list. -/
def importPositions (m : Module) (n : Name) : List Nat :=
  positionsFrom (fun i : Import => i.name == n) 0 m.imports

/-- The export-reference list `symbols[n].exports`; empty when the table has no
entry for `n`. -/
def exportRefs (m : Module) (n : Name) : List Nat :=
  ((symbolsFind n m.symbols).getD {}).exports

/-- The import-reference list `symbols[n].imports`; empty when the table has no
entry for `n`. -/
def importRefs (m : Module) (n : Name) : List Nat :=
  ((symbolsFind n m.symbols).getD {}).imports

/-- The reference lists of the symbol table are the position lists of the import
and export lists, as `uint32_t` values, and the table is a sorted map. -/
def RefsAgree (m : Module) : Prop :=
  SymbolsSorted m.symbols ∧
  ∀ n, exportRefs m n = (exportPositions m n).map u32 ∧
    importRefs m n = (importPositions m n).map u32

/-- The globals and the imports of kind global agree: a global import points at
a global with initial value 0 that is the stack pointer exactly when the import
is named `__stack_pointer`, and a global marked as the stack pointer is the
target of such an import. -/
def GlobalsAgree (m : Module) : Prop :=
  (∀ imp ∈ m.imports, imp.kind = external_global →
    ∃ g, m.globals[imp.index]? = some g ∧ g.initU32 = 0 ∧
      (g.isStack = true ↔ imp.name = strBytes "__stack_pointer")) ∧
  (∀ i g, m.globals[i]? = some g → g.isStack = true →
    ∃ imp ∈ m.imports, imp.kind = external_global ∧ imp.index = i ∧
      imp.name = strBytes "__stack_pointer")

/-- The module with its buffer replaced. -/
def withBinary (b : List Nat) (m : Module) : Module := { m with binary := b }

/-- Two buffers of the same length that agree from byte 8 on. -/
def AgreeFrom8 (b1 b2 : List Nat) : Prop :=
  b1.length = b2.length ∧ b1.drop 8 = b2.drop 8

/-- The result of a reader with the buffer of the module replaced. -/
def liftBinary (b : List Nat) (r : Except Err (Module × Nat)) : Except Err (Module × Nat) :=
  match r with
  | .error e => .error e
  | .ok (m, p) => .ok (withBinary b m, p)

/-- A reader is local when, from a cursor behind the header, it treats two
buffers that agree from byte 8 on alike, moves the cursor forward only, and
keeps the buffer. -/
def LocalReader (b1 b2 : List Nat) (f : Module × Nat → Except Err (Module × Nat)) : Prop :=
  ∀ m pos, 8 ≤ pos → m.binary = b1 →
    f (withBinary b2 m, pos) = liftBinary b2 (f (m, pos)) ∧
    ∀ m' pos', f (m, pos) = .ok (m', pos') → pos ≤ pos' ∧ m'.binary = b1

/-- The effect of an import entry of kind global with the given field name. -/
def importGlobalStep (name : Name) (m : Module) : Module :=
  { m with
    numImportedGlobals := u32 (m.numImportedGlobals + 1)
    symbols := symbolsUpdate
      (fun s => { s with imports := s.imports ++ [u32 m.imports.length] }) name m.symbols
    imports := m.imports ++
      [{ name := name, kind := external_global, index := u32 m.globals.length }]
    globals := m.globals ++ [{ isStack := name == strBytes "__stack_pointer", initU32 := 0 }] }

/-- The effect of `n` import entries of kind global with an empty field name. -/
def importGlobals : Nat → Module → Module
  | 0, m => m
  | n + 1, m => importGlobals n (importGlobalStep [] m)

/-- The module holds `n` globals, all imported under the empty name. -/
def EmptyNamed (n : Nat) (m : Module) : Prop :=
  m.globals.length = n ∧ m.imports.length = n ∧
  (0 < n → (m.globals[0]?).map Global.isStack = some false ∧
    (m.imports[0]?).map Import.name = some []) ∧
  SymbolsSorted m.symbols ∧ ∀ x ∈ m.symbols, x.1 = []

/-- The entries of a relocation section with target `section_id` and `count`
entries that starts at `pos`, in the order listed, and the cursor behind the
last entry that can be read. -/
def relocEntries (binary : List Nat) (section_id : Nat) : Nat → Nat → List Reloc × Nat
  | 0, pos => ([], pos)
  | count + 1, pos =>
    match readLeb binary pos with
    | .error _ => ([], pos)
    | .ok (type, p1) =>
      match readLeb binary p1 with
      | .error _ => ([], pos)
      | .ok (offset, p2) =>
        match readLeb binary p2 with
        | .error _ => ([], pos)
        | .ok (index, p3) =>
          if type = r_webassembly_memory_addr_leb ∨ type = r_webassembly_memory_addr_sleb ∨
              type = r_webassembly_memory_addr_i32 then
            match readLeb binary p3 with
            | .error _ => ([], pos)
            | .ok (addend, p4) =>
              ({ section_id := section_id, type := type, offset := offset, index := index,
                 addend := addend } :: (relocEntries binary section_id count p4).1,
                (relocEntries binary section_id count p4).2)
          else
            ({ section_id := section_id, type := type, offset := offset, index := index,
               addend := 0 } :: (relocEntries binary section_id count p3).1,
              (relocEntries binary section_id count p3).2)

/-- Every relocation targets the code or the data section, and carries an addend
only when its kind is one of the three memory-address kinds. -/
def RelocsWellFormed (m : Module) : Prop :=
  ∀ r ∈ m.relocs, (r.section_id = wasm_sec_code ∨ r.section_id = wasm_sec_data) ∧
    (r.addend = 0 ∨ r.type = r_webassembly_memory_addr_leb ∨
      r.type = r_webassembly_memory_addr_sleb ∨ r.type = r_webassembly_memory_addr_i32)

/-- The property `I` of the module survives every elementary update made while a
section with an id in `S` is read. -/
structure Preserves (S : Nat → Prop) (I : Module → Prop) : Prop where
  sections : ∀ (m : Module) (s : List Section), I m → I { m with sections := s }
  typeEntry : S wasm_sec_type → ∀ i m p m' p', I m →
    read_sec_type_entry i (m, p) = .ok (m', p') → I m'
  importEntry : S wasm_sec_import → ∀ i m p m' p', I m →
    read_sec_import_entry i (m, p) = .ok (m', p') → I m'
  functionEntry : S wasm_sec_function → ∀ i m p m' p', I m →
    read_sec_function_entry i (m, p) = .ok (m', p') → I m'
  table : S wasm_sec_table → ∀ (m : Module) (l : ResizableLimits), I m →
    m.tables.length = 0 → I { m with tables := m.tables ++ [l] }
  memory : S wasm_sec_memory → ∀ (m : Module) (l : ResizableLimits), I m →
    m.memories.length = 0 → I { m with memories := m.memories ++ [l] }
  globalEntry : S wasm_sec_global → ∀ i m p m' p', I m →
    read_sec_global_entry i (m, p) = .ok (m', p') → I m'
  exportEntry : S wasm_sec_export → ∀ i m p m' p', I m →
    read_sec_export_entry i (m, p) = .ok (m', p') → I m'
  elemSlot : S wasm_sec_elem → ∀ o j m p m' p', I m →
    read_sec_elem_slot o j (m, p) = .ok (m', p') → I m'
  dataSegment : S wasm_sec_data → ∀ i m p m' p', I m →
    read_sec_data_segment i (m, p) = .ok (m', p') → I m'
  relocEntry : S wasm_sec_custom → ∀ s i m p m' p', I m →
    read_reloc_entry s i (m, p) = .ok (m', p') → I m'
  linkingSymbol : S wasm_sec_custom → ∀ i m p m' p', I m →
    read_linking_symbol i (m, p) = .ok (m', p') → I m'
  dataSize : S wasm_sec_custom → ∀ (m : Module) (d : Nat), I m → I { m with dataSize := d }

/-! # Theorems -/

/-! ## Inversion of the error monad -/

theorem bind_eq_ok {α β : Type} {x : Except Err α} {f : α → Except Err β} {b : β} :
    (x >>= f) = .ok b ↔ ∃ a, x = .ok a ∧ f a = .ok b := by
  cases x <;> simp [bind, Except.bind]

theorem check_eq_ok {c : Bool} {msg : String} {u : Unit} : check c msg = .ok u ↔ c = true := by
  cases c <;> simp [check]

theorem pure_eq_ok {α : Type} {a b : α} : (pure a : Except Err α) = .ok b ↔ a = b := by
  simp [pure, Except.pure]

theorem throw_eq_ok {α : Type} {e : Err} {b : α} :
    (throw e : Except Err α) = .ok b ↔ False := by
  simp [throw, throwThe, MonadExceptOf.throw]

/-- An invariant of the body of a counted loop is an invariant of the loop. -/
theorem forLoop_inv {σ : Type} {body : Nat → σ → Except Err σ} (Inv : σ → Prop)
    (h : ∀ i s s', Inv s → body i s = .ok s' → Inv s') :
    ∀ n i s s', Inv s → forLoop body i n s = .ok s' → Inv s' := by
  intro n
  induction n with
  | zero => intro i s s' hs hl; simp [forLoop] at hl; exact hl ▸ hs
  | succ n ih =>
    intro i s s' hs hl
    simp only [forLoop] at hl
    split at hl
    · cases hl
    · next s1 hb => exact ih _ _ _ (h _ _ _ hs hb) hl

/-! ## Cursor movement of the primitive readers -/

theorem readByte_eq_ok {binary : List Nat} {pos b p : Nat} :
    readByte binary pos = .ok (b, p) ↔ binary[pos]? = some b ∧ p = pos + 1 := by
  unfold readByte
  cases h : binary[pos]? <;> simp [eq_comm]

theorem readLebFrom_pos {l : List Nat} : ∀ {pos result shift v p : Nat},
    readLebFrom l pos result shift = .ok (v, p) → pos < p ∧ p ≤ pos + l.length := by
  induction l with
  | nil => intro pos result shift v p h; simp [readLebFrom] at h
  | cons b rest ih =>
    intro pos result shift v p h
    simp only [readLebFrom] at h
    split at h
    · simp only [Except.ok.injEq, Prod.mk.injEq] at h
      simp only [List.length_cons]; omega
    · have := ih h
      simp only [List.length_cons]; omega

theorem readLeb_pos {binary : List Nat} {pos v p : Nat} (h : readLeb binary pos = .ok (v, p)) :
    pos < p ∧ p ≤ binary.length := by
  have := readLebFrom_pos h
  simp only [List.length_drop] at this
  omega

theorem readStr_eq_ok {binary : List Nat} {pos p : Nat} {name : Name} :
    readStr binary pos = .ok (name, p) ↔
      ∃ len q, readLeb binary pos = .ok (len, q) ∧ q + len ≤ binary.length ∧
        name = (binary.drop q).take len ∧ p = q + len := by
  simp only [readStr, bind_eq_ok, Prod.exists]
  constructor
  · rintro ⟨len, q, h1, h2⟩
    split at h2
    · simp only [pure_eq_ok, Prod.mk.injEq] at h2
      exact ⟨len, q, h1, by assumption, h2.1.symm, h2.2.symm⟩
    · simp [throw_eq_ok] at h2
  · rintro ⟨len, q, h1, h2, rfl, rfl⟩
    exact ⟨len, q, h1, by simp [h2, pure, Except.pure]⟩

theorem readStr_pos {binary : List Nat} {pos p : Nat} {name : Name}
    (h : readStr binary pos = .ok (name, p)) : pos < p ∧ p ≤ binary.length := by
  obtain ⟨len, q, h1, h2, -, rfl⟩ := readStr_eq_ok.1 h
  have := readLeb_pos h1
  omega

theorem getInitExpr32_eq_ok {binary : List Nat} {pos v p : Nat} :
    getInitExpr32 binary pos = .ok (v, p) ↔
      binary[pos]? = some 0x41 ∧ ∃ q, readLeb binary (pos + 1) = .ok (v, q) ∧
        binary[q]? = some 0x0b ∧ p = q + 1 := by
  simp only [getInitExpr32, bind_eq_ok, check_eq_ok, pure_eq_ok, Prod.exists, Prod.mk.injEq,
    readByte_eq_ok, beq_iff_eq]
  constructor
  · rintro ⟨op, p1, ⟨h1, rfl⟩, -, hop, v', p2, h2, fin, p3, ⟨h3, rfl⟩, -, hfin, rfl, rfl⟩
    subst hop hfin
    exact ⟨h1, p2, h2, h3, rfl⟩
  · rintro ⟨h1, q, h2, h3, rfl⟩
    exact ⟨_, _, ⟨h1, rfl⟩, (), rfl, v, q, h2, _, _, ⟨h3, rfl⟩, (), rfl, rfl, rfl⟩

theorem getInitExpr32_pos {binary : List Nat} {pos v p : Nat}
    (h : getInitExpr32 binary pos = .ok (v, p)) : pos < p ∧ p ≤ binary.length := by
  obtain ⟨-, q, h2, h3, rfl⟩ := getInitExpr32_eq_ok.1 h
  have := readLeb_pos h2
  have := (List.getElem?_eq_some_iff.1 h3).1
  omega

theorem read_sec_type_entry_ok {i : Nat} {m m' : Module} {pos pos' : Nat}
    (h : read_sec_type_entry i (m, pos) = .ok (m', pos')) :
    ∃ ft : FunctionType, ft.returnTypes.length ≤ 1 ∧
      m' = { m with functionTypes := m.functionTypes ++ [ft] } := by
  simp only [read_sec_type_entry, bind_eq_ok, check_eq_ok, pure_eq_ok, Prod.exists,
    Prod.mk.injEq, decide_eq_true_eq] at h
  obtain ⟨_, _, _, _, _, _, _, _, args, _, _, _, _, _, rets, _, _, _, hr, hm, _⟩ := h
  exact ⟨⟨args, rets⟩, hr, hm.symm⟩

theorem read_sec_function_entry_ok {i : Nat} {m m' : Module} {pos pos' : Nat}
    (h : read_sec_function_entry i (m, pos) = .ok (m', pos')) :
    ∃ t, t < m.functionTypes.length ∧
      m' = { m with functions := m.functions ++ [{ type := t }] } := by
  simp only [read_sec_function_entry, bind_eq_ok, check_eq_ok, pure_eq_ok, Prod.exists,
    Prod.mk.injEq, decide_eq_true_eq] at h
  obtain ⟨t, _, _, _, ht, hm, _⟩ := h
  exact ⟨t, ht, hm.symm⟩

theorem read_sec_global_entry_ok {i : Nat} {m m' : Module} {pos pos' : Nat}
    (h : read_sec_global_entry i (m, pos) = .ok (m', pos')) :
    ∃ v, m' = { m with globals := m.globals ++ [{ isStack := false, initU32 := v }] } := by
  simp only [read_sec_global_entry, bind_eq_ok, check_eq_ok, pure_eq_ok, Prod.exists,
    Prod.mk.injEq] at h
  obtain ⟨_, _, _, _, _, _, _, _, v, _, _, hm, _⟩ := h
  exact ⟨v, hm.symm⟩

theorem read_sec_export_entry_ok {i : Nat} {m m' : Module} {pos pos' : Nat}
    (h : read_sec_export_entry i (m, pos) = .ok (m', pos')) :
    m' = m ∨ ∃ name kind index,
      m' = { m with
        symbols := symbolsUpdate
          (fun s => { s with exports := s.exports ++ [u32 m.exports.length] }) name m.symbols
        exports := m.exports ++ [{ name := name, kind := kind, index := index }] } := by
  simp only [read_sec_export_entry, bind_eq_ok, Prod.exists] at h
  obtain ⟨name, _, _, kind, _, _, index, _, _, h⟩ := h
  split at h
  · simp only [bind_eq_ok, check_eq_ok, pure_eq_ok, Prod.mk.injEq] at h
    obtain ⟨_, _, hm, _⟩ := h
    exact Or.inr ⟨name, kind, index, hm.symm⟩
  · split at h
    · simp only [bind_eq_ok, check_eq_ok, pure_eq_ok, Prod.mk.injEq] at h
      obtain ⟨_, _, hm, _⟩ := h
      exact Or.inr ⟨name, kind, index, hm.symm⟩
    · simp only [pure_eq_ok, Prod.mk.injEq] at h
      exact Or.inl h.1.symm

theorem read_sec_import_entry_ok {i : Nat} {m m' : Module} {pos pos' : Nat}
    (h : read_sec_import_entry i (m, pos) = .ok (m', pos')) :
    ∃ name kind index,
      let syms := symbolsUpdate
        (fun s => { s with imports := s.imports ++ [u32 m.imports.length] }) name m.symbols
      let imps := m.imports ++ [{ name := name, kind := kind, index := index }]
      (kind = external_function ∧ index = u32 m.functions.length ∧
        ∃ t, t < m.functionTypes.length ∧
          m' = { m with numImportedFunctions := u32 (m.numImportedFunctions + 1)
                        symbols := syms, imports := imps
                        functions := m.functions ++ [{ type := t }] }) ∨
      (kind = external_table ∧ index = u32 m.tables.length ∧ m.tables.length = 0 ∧
        ∃ l, m' = { m with symbols := syms, imports := imps, tables := m.tables ++ [l] }) ∨
      (kind = external_memory ∧ index = u32 m.memories.length ∧ m.memories.length = 0 ∧
        ∃ l, m' = { m with symbols := syms, imports := imps, memories := m.memories ++ [l] }) ∨
      (kind = external_global ∧ index = u32 m.globals.length ∧
        m' = { m with numImportedGlobals := u32 (m.numImportedGlobals + 1)
                      symbols := syms, imports := imps
                      globals := m.globals ++
                        [{ isStack := name == strBytes "__stack_pointer", initU32 := 0 }] }) := by
  simp only [read_sec_import_entry, bind_eq_ok, Prod.exists] at h
  obtain ⟨_, _, _, name, _, _, kind, _, _, h⟩ := h
  refine ⟨name, kind, ?_⟩
  split at h
  · simp only [bind_eq_ok, check_eq_ok, pure_eq_ok, Prod.exists, Prod.mk.injEq,
      decide_eq_true_eq] at h
    obtain ⟨t, _, _, _, ht, hm, _⟩ := h
    exact ⟨_, Or.inl ⟨by assumption, rfl, t, ht, hm.symm⟩⟩
  · split at h
    · simp only [bind_eq_ok, check_eq_ok, pure_eq_ok, Prod.exists, Prod.mk.injEq,
        beq_iff_eq] at h
      obtain ⟨_, _, _, _, _, _, ht, l, _, _, hm, _⟩ := h
      exact ⟨_, Or.inr (Or.inl ⟨by assumption, rfl, ht, l, hm.symm⟩)⟩
    · split at h
      · simp only [bind_eq_ok, check_eq_ok, pure_eq_ok, Prod.exists, Prod.mk.injEq,
          beq_iff_eq] at h
        obtain ⟨_, ht, l, _, _, hm, _⟩ := h
        exact ⟨_, Or.inr (Or.inr (Or.inl ⟨by assumption, rfl, ht, l, hm.symm⟩))⟩
      · split at h
        · simp only [bind_eq_ok, check_eq_ok, pure_eq_ok, Prod.exists, Prod.mk.injEq] at h
          obtain ⟨_, _, _, _, _, _, _, _, hm, _⟩ := h
          exact ⟨_, Or.inr (Or.inr (Or.inr ⟨by assumption, rfl, hm.symm⟩))⟩
        · simp [throw_eq_ok] at h


theorem read_sec_table_ok {m m' : Module} {pos sEnd pos' : Nat}
    (h : read_sec_table m pos sEnd = .ok (m', pos')) :
    m.tables.length = 0 ∧ pos' = sEnd ∧ ∃ l, m' = { m with tables := m.tables ++ [l] } := by
  simp only [read_sec_table, bind_eq_ok, check_eq_ok, pure_eq_ok, Prod.exists,
    Prod.mk.injEq, beq_iff_eq] at h
  obtain ⟨_, _, _, _, _, _, ht, l, p, _, _, hp, hm, hp'⟩ := h
  exact ⟨ht, by omega, l, hm.symm⟩

theorem read_sec_memory_ok {m m' : Module} {pos sEnd pos' : Nat}
    (h : read_sec_memory m pos sEnd = .ok (m', pos')) :
    m.memories.length = 0 ∧ pos' = sEnd ∧
      ∃ l, m' = { m with memories := m.memories ++ [l] } := by
  simp only [read_sec_memory, bind_eq_ok, check_eq_ok, pure_eq_ok, Prod.exists,
    Prod.mk.injEq, beq_iff_eq] at h
  obtain ⟨_, ht, l, p, _, _, hp, hm, hp'⟩ := h
  exact ⟨ht, by omega, l, hm.symm⟩

theorem read_sec_elem_slot_ok {offset j : Nat} {m m' : Module} {pos pos' : Nat}
    (h : read_sec_elem_slot offset j (m, pos) = .ok (m', pos')) :
    ∃ fIndex elements, fIndex < m.functions.length ∧
      elements = (if u32 (offset + j) ≥ m.elements.length
        then resize m.elements (u32 (u32 (offset + j) + 1)) else m.elements) ∧
      u32 (offset + j) < elements.length ∧
      m' = { m with
        elements := elements.set (u32 (offset + j)) { valid := true, fIndex := fIndex } } := by
  simp only [read_sec_elem_slot, bind_eq_ok, check_eq_ok, Prod.exists,
    decide_eq_true_eq] at h
  obtain ⟨fIndex, _, _, _, hf, h⟩ := h
  by_cases hc : u32 (offset + j) < (if u32 (offset + j) ≥ m.elements.length
      then resize m.elements (u32 (u32 (offset + j) + 1)) else m.elements).length
  · rw [if_pos hc] at h
    simp only [pure_eq_ok, Prod.mk.injEq] at h
    exact ⟨fIndex, _, hf, rfl, hc, h.1.symm⟩
  · rw [if_neg hc] at h
    simp [throw_eq_ok] at h

theorem read_sec_data_segment_ok {i : Nat} {m m' : Module} {pos pos' : Nat}
    (h : read_sec_data_segment i (m, pos) = .ok (m', pos')) :
    ∃ offset size p, pos < p ∧ pos' = p + size ∧
      m' = { m with
        dataSegments := m.dataSegments ++
          [{ offset := offset, size := size, dataBegin := u32 p }] } := by
  simp only [read_sec_data_segment, bind_eq_ok, check_eq_ok, pure_eq_ok, Prod.exists,
    Prod.mk.injEq] at h
  obtain ⟨_, p1, h1, _, _, offset, p2, h2, size, p3, h3, hm, hp⟩ := h
  have := readLeb_pos h1
  have := getInitExpr32_pos h2
  have := readLeb_pos h3
  exact ⟨offset, size, p3, by omega, hp.symm, hm.symm⟩

theorem read_reloc_entry_ok {sid i : Nat} {m m' : Module} {pos pos' : Nat}
    (h : read_reloc_entry sid i (m, pos) = .ok (m', pos')) :
    ∃ r : Reloc, r.section_id = sid ∧
      (r.addend = 0 ∨ r.type = r_webassembly_memory_addr_leb ∨
        r.type = r_webassembly_memory_addr_sleb ∨ r.type = r_webassembly_memory_addr_i32) ∧
      m' = { m with relocs := m.relocs ++ [r] } := by
  simp only [read_reloc_entry, bind_eq_ok, Prod.exists] at h
  obtain ⟨type, _, _, offset, _, _, index, _, _, h⟩ := h
  split at h
  · simp only [bind_eq_ok, pure_eq_ok, Prod.exists, Prod.mk.injEq] at h
    obtain ⟨addend, _, _, hm, _⟩ := h
    exact ⟨⟨sid, type, offset, index, addend⟩, rfl, Or.inr (by assumption), hm.symm⟩
  · simp only [pure_eq_ok, Prod.mk.injEq] at h
    exact ⟨⟨sid, type, offset, index, 0⟩, rfl, Or.inl rfl, h.1.symm⟩

theorem read_linking_symbol_ok {i : Nat} {m m' : Module} {pos pos' : Nat}
    (h : read_linking_symbol i (m, pos) = .ok (m', pos')) :
    ∃ name flags, m' = { m with
      symbols := symbolsUpdate (fun s => { s with flags := flags, inLinking := true })
        name m.symbols } := by
  simp only [read_linking_symbol, bind_eq_ok, pure_eq_ok, Prod.exists, Prod.mk.injEq] at h
  obtain ⟨name, _, _, flags, _, _, hm, _⟩ := h
  exact ⟨name, flags, hm.symm⟩

theorem read_linking_segment_ok {i : Nat} {m m' : Module} {pos pos' : Nat}
    (h : read_linking_segment i (m, pos) = .ok (m', pos')) : m' = m := by
  simp only [read_linking_segment, bind_eq_ok, pure_eq_ok, Prod.exists, Prod.mk.injEq] at h
  obtain ⟨_, _, _, _, _, _, _, _, _, hm, _⟩ := h
  exact hm.symm

/-! ## Invariants of the section readers

Each reader preserves every property of the module that the body of its loop
preserves. -/

/-- A counted loop over `(module, cursor)` states preserves a module property
that its body preserves. -/
theorem forLoop_module_inv {body : Nat → Module × Nat → Except Err (Module × Nat)}
    (I : Module → Prop)
    (hI : ∀ i m p m' p', I m → body i (m, p) = .ok (m', p') → I m')
    {n i : Nat} {m m' : Module} {p p' : Nat} (h0 : I m)
    (h : forLoop body i n (m, p) = .ok (m', p')) : I m' :=
  forLoop_inv (fun s => I s.1) (fun i s s' hs hb => hI i s.1 s.2 s'.1 s'.2 hs hb)
    n i (m, p) (m', p') h0 h

theorem read_sec_type_inv (I : Module → Prop)
    (hI : ∀ i m p m' p', I m → read_sec_type_entry i (m, p) = .ok (m', p') → I m')
    {m m' : Module} {pos sEnd pos' : Nat} (h0 : I m)
    (h : read_sec_type m pos sEnd = .ok (m', pos')) : I m' := by
  simp only [read_sec_type, bind_eq_ok, Prod.exists] at h
  obtain ⟨_, _, _, h⟩ := h
  exact forLoop_module_inv I hI h0 h

theorem read_sec_import_inv (I : Module → Prop)
    (hI : ∀ i m p m' p', I m → read_sec_import_entry i (m, p) = .ok (m', p') → I m')
    {m m' : Module} {pos sEnd pos' : Nat} (h0 : I m)
    (h : read_sec_import m pos sEnd = .ok (m', pos')) : I m' := by
  simp only [read_sec_import, bind_eq_ok, check_eq_ok, pure_eq_ok, Prod.exists,
    Prod.mk.injEq] at h
  obtain ⟨_, _, _, m1, _, h, _, _, rfl, _⟩ := h
  exact forLoop_module_inv I hI h0 h

theorem read_sec_function_inv (I : Module → Prop)
    (hI : ∀ i m p m' p', I m → read_sec_function_entry i (m, p) = .ok (m', p') → I m')
    {m m' : Module} {pos sEnd pos' : Nat} (h0 : I m)
    (h : read_sec_function m pos sEnd = .ok (m', pos')) : I m' := by
  simp only [read_sec_function, bind_eq_ok, check_eq_ok, pure_eq_ok, Prod.exists,
    Prod.mk.injEq] at h
  obtain ⟨_, _, _, m1, _, h, _, _, rfl, _⟩ := h
  exact forLoop_module_inv I hI h0 h

theorem read_sec_global_inv (I : Module → Prop)
    (hI : ∀ i m p m' p', I m → read_sec_global_entry i (m, p) = .ok (m', p') → I m')
    {m m' : Module} {pos sEnd pos' : Nat} (h0 : I m)
    (h : read_sec_global m pos sEnd = .ok (m', pos')) : I m' := by
  simp only [read_sec_global, bind_eq_ok, check_eq_ok, pure_eq_ok, Prod.exists,
    Prod.mk.injEq] at h
  obtain ⟨_, _, _, m1, _, h, _, _, rfl, _⟩ := h
  exact forLoop_module_inv I hI h0 h

theorem read_sec_export_inv (I : Module → Prop)
    (hI : ∀ i m p m' p', I m → read_sec_export_entry i (m, p) = .ok (m', p') → I m')
    {m m' : Module} {pos sEnd pos' : Nat} (h0 : I m)
    (h : read_sec_export m pos sEnd = .ok (m', pos')) : I m' := by
  simp only [read_sec_export, bind_eq_ok, check_eq_ok, pure_eq_ok, Prod.exists,
    Prod.mk.injEq] at h
  obtain ⟨_, _, _, m1, _, h, _, _, rfl, _⟩ := h
  exact forLoop_module_inv I hI h0 h

theorem read_sec_elem_segment_inv (I : Module → Prop)
    (hI : ∀ o j m p m' p', I m → read_sec_elem_slot o j (m, p) = .ok (m', p') → I m')
    {i : Nat} {m m' : Module} {pos pos' : Nat} (h0 : I m)
    (h : read_sec_elem_segment i (m, pos) = .ok (m', pos')) : I m' := by
  simp only [read_sec_elem_segment, bind_eq_ok, check_eq_ok, Prod.exists] at h
  obtain ⟨_, _, _, _, _, o, _, _, _, _, _, h⟩ := h
  exact forLoop_module_inv I (hI o) h0 h

theorem read_sec_elem_inv (I : Module → Prop)
    (hI : ∀ o j m p m' p', I m → read_sec_elem_slot o j (m, p) = .ok (m', p') → I m')
    {m m' : Module} {pos sEnd pos' : Nat} (h0 : I m)
    (h : read_sec_elem m pos sEnd = .ok (m', pos')) : I m' := by
  simp only [read_sec_elem, bind_eq_ok, check_eq_ok, pure_eq_ok, Prod.exists,
    Prod.mk.injEq] at h
  obtain ⟨_, _, _, m1, _, h, _, _, _, _, rfl, _⟩ := h
  exact forLoop_module_inv I (fun i m p m' p' hm hb => read_sec_elem_segment_inv I hI hm hb)
    h0 h

theorem read_sec_data_inv (I : Module → Prop)
    (hI : ∀ i m p m' p', I m → read_sec_data_segment i (m, p) = .ok (m', p') → I m')
    {m m' : Module} {pos sEnd pos' : Nat} (h0 : I m)
    (h : read_sec_data m pos sEnd = .ok (m', pos')) : I m' := by
  simp only [read_sec_data, bind_eq_ok, check_eq_ok, pure_eq_ok, Prod.exists,
    Prod.mk.injEq] at h
  obtain ⟨_, _, _, m1, _, h, _, _, _, _, rfl, _⟩ := h
  exact forLoop_module_inv I hI h0 h

theorem read_reloc_inv (I : Module → Prop)
    (hI : ∀ s i m p m' p', I m → read_reloc_entry s i (m, p) = .ok (m', p') → I m')
    {m m' : Module} {name : Name} {pos sEnd pos' : Nat} (h0 : I m)
    (h : read_reloc m name pos sEnd = .ok (m', pos')) : I m' := by
  simp only [read_reloc, bind_eq_ok, check_eq_ok, pure_eq_ok, Prod.exists,
    Prod.mk.injEq] at h
  obtain ⟨s, _, _, _, _, _, _, _, m1, _, h, _, _, rfl, _⟩ := h
  exact forLoop_module_inv I (hI s) h0 h

theorem read_linking_loop_inv (I : Module → Prop)
    (hsym : ∀ i m p m' p', I m → read_linking_symbol i (m, p) = .ok (m', p') → I m')
    (hsize : ∀ m d, I m → I { m with dataSize := d }) (sEnd : Nat) :
    ∀ (fuel : Nat) (m : Module) (pos : Nat) (m' : Module) (pos' : Nat), I m →
      read_linking_loop sEnd fuel m pos = .ok (m', pos') → I m' := by
  intro fuel
  induction fuel with
  | zero =>
    intro m pos m' pos' h0 h
    simp only [read_linking_loop] at h
    split at h
    · cases h
    · simp only [Except.ok.injEq, Prod.mk.injEq] at h
      exact h.1 ▸ h0
  | succ fuel ih =>
    intro m pos m' pos' h0 h
    simp only [read_linking_loop] at h
    split at h
    · simp only [bind_eq_ok, Prod.exists] at h
      obtain ⟨type, _, _, _, _, _, h⟩ := h
      split at h
      · simp only [bind_eq_ok, Prod.exists] at h
        obtain ⟨_, _, _, m1, p1, hl, h⟩ := h
        exact ih _ _ _ _ (forLoop_module_inv I hsym h0 hl) h
      · split at h
        · simp only [bind_eq_ok, Prod.exists] at h
          obtain ⟨d, _, _, h⟩ := h
          exact ih _ _ _ _ (hsize _ d h0) h
        · split at h
          · simp only [bind_eq_ok, Prod.exists] at h
            obtain ⟨_, _, _, m1, p1, hl, h⟩ := h
            have hm1 : I m1 := forLoop_module_inv I
              (fun i m p m' p' hm hb => (read_linking_segment_ok hb) ▸ hm) h0 hl
            exact ih _ _ _ _ hm1 h
          · simp [throw_eq_ok] at h
    · simp only [Except.ok.injEq, Prod.mk.injEq] at h
      exact h.1 ▸ h0

theorem read_linking_inv (I : Module → Prop)
    (hsym : ∀ i m p m' p', I m → read_linking_symbol i (m, p) = .ok (m', p') → I m')
    (hsize : ∀ m d, I m → I { m with dataSize := d })
    {m m' : Module} {pos sEnd pos' : Nat} (h0 : I m)
    (h : read_linking m pos sEnd = .ok (m', pos')) : I m' := by
  simp only [read_linking, bind_eq_ok, check_eq_ok, pure_eq_ok, Prod.exists,
    Prod.mk.injEq] at h
  obtain ⟨m1, _, h, _, _, _, _, rfl, _⟩ := h
  exact read_linking_loop_inv I hsym hsize sEnd _ _ _ _ _ h0 h

theorem read_standard_inv {S : Nat → Prop} {I : Module → Prop} (hP : Preserves S I)
    {id : Nat} {m m' : Module} {pos sEnd pos' : Nat} (hS : S id) (h0 : I m)
    (h : read_standard id m pos sEnd = .ok (m', pos')) : I m' := by
  unfold read_standard at h
  by_cases h1 : id = wasm_sec_type
  · rw [if_pos h1] at h; subst h1
    exact read_sec_type_inv I (hP.typeEntry hS) h0 h
  rw [if_neg h1] at h
  by_cases h2 : id = wasm_sec_import
  · rw [if_pos h2] at h; subst h2
    exact read_sec_import_inv I (hP.importEntry hS) h0 h
  rw [if_neg h2] at h
  by_cases h3 : id = wasm_sec_function
  · rw [if_pos h3] at h; subst h3
    exact read_sec_function_inv I (hP.functionEntry hS) h0 h
  rw [if_neg h3] at h
  by_cases h4 : id = wasm_sec_table
  · rw [if_pos h4] at h; subst h4
    obtain ⟨ht, -, l, rfl⟩ := read_sec_table_ok h
    exact hP.table hS m l h0 ht
  rw [if_neg h4] at h
  by_cases h5 : id = wasm_sec_memory
  · rw [if_pos h5] at h; subst h5
    obtain ⟨ht, -, l, rfl⟩ := read_sec_memory_ok h
    exact hP.memory hS m l h0 ht
  rw [if_neg h5] at h
  by_cases h6 : id = wasm_sec_global
  · rw [if_pos h6] at h; subst h6
    exact read_sec_global_inv I (hP.globalEntry hS) h0 h
  rw [if_neg h6] at h
  by_cases h7 : id = wasm_sec_export
  · rw [if_pos h7] at h; subst h7
    exact read_sec_export_inv I (hP.exportEntry hS) h0 h
  rw [if_neg h7] at h
  by_cases h8 : id = wasm_sec_start
  · rw [if_pos h8] at h
    simp [read_sec_start, throw_eq_ok] at h
  rw [if_neg h8] at h
  by_cases h9 : id = wasm_sec_elem
  · rw [if_pos h9] at h; subst h9
    exact read_sec_elem_inv I (hP.elemSlot hS) h0 h
  rw [if_neg h9] at h
  by_cases h10 : id = wasm_sec_code
  · rw [if_pos h10] at h
    simp only [read_sec_code, pure_eq_ok, Prod.mk.injEq] at h
    exact h.1 ▸ h0
  rw [if_neg h10] at h
  by_cases h11 : id = wasm_sec_data
  · rw [if_pos h11] at h; subst h11
    exact read_sec_data_inv I (hP.dataSegment hS) h0 h
  rw [if_neg h11] at h
  cases h

theorem read_custom_inv {S : Nat → Prop} {I : Module → Prop} (hP : Preserves S I)
    {m m' : Module} {pos sEnd pos' : Nat} (hS : S 0) (h0 : I m)
    (h : read_custom m pos sEnd = .ok (m', pos')) : I m' := by
  simp only [read_custom, bind_eq_ok, Prod.exists] at h
  obtain ⟨name, p, -, h⟩ := h
  split at h
  · exact read_reloc_inv I (hP.relocEntry hS) h0 h
  split at h
  · exact read_linking_inv I (hP.linkingSymbol hS) (hP.dataSize hS) h0 h
  · simp only [pure_eq_ok, Prod.mk.injEq] at h
    exact h.1 ▸ h0

/-- The shape of a successful iteration of the driver loop. -/
theorem read_section_ok {m m' : Module} {pos pos' : Nat}
    (h : read_section m pos = .ok (m', pos')) :
    ∃ id p1 len p2 hp, readByte m.binary pos = .ok (id, p1) ∧ id < num_sections ∧
      readLeb m.binary p1 = .ok (len, p2) ∧ pos' = p2 + len ∧ pos' ≤ m.binary.length ∧
      ((id ≠ 0 ∧ read_standard id
          { m with sections := m.sections.set id { valid := true, begin := p2, end_ := pos' } }
          p2 pos' = .ok (m', hp)) ∨
        (id = 0 ∧ read_custom m p2 pos' = .ok (m', hp))) := by
  simp only [read_section, bind_eq_ok, check_eq_ok, Prod.exists, decide_eq_true_eq] at h
  obtain ⟨id, p1, h1, -, hid, len, p2, h2, -, hle, h⟩ := h
  split at h
  · next hne =>
    simp only [bind_eq_ok, pure_eq_ok, Prod.exists, Prod.mk.injEq] at h
    obtain ⟨m1, hp, h, rfl, rfl⟩ := h
    exact ⟨id, p1, len, p2, hp, h1, hid, h2, rfl, hle, Or.inl ⟨hne, h⟩⟩
  · next he =>
    simp only [bind_eq_ok, pure_eq_ok, Prod.exists, Prod.mk.injEq] at h
    obtain ⟨m1, hp, h, rfl, rfl⟩ := h
    exact ⟨id, p1, len, p2, hp, h1, hid, h2, rfl, hle, Or.inr ⟨by simpa using he, h⟩⟩

theorem read_section_inv {S : Nat → Prop} {I : Module → Prop} (hP : Preserves S I)
    {m m' : Module} {pos pos' : Nat}
    (hS : ∀ id p, readByte m.binary pos = .ok (id, p) → S id) (h0 : I m)
    (h : read_section m pos = .ok (m', pos')) : I m' := by
  obtain ⟨id, p1, len, p2, hp, h1, -, -, -, -, h | h⟩ := read_section_ok h
  · exact read_standard_inv hP (hS id p1 h1) (hP.sections m _ h0) h.2
  · exact read_custom_inv hP (h.1 ▸ hS id p1 h1) h0 h.2

theorem read_section_pos {m m' : Module} {pos pos' : Nat}
    (h : read_section m pos = .ok (m', pos')) : pos + 2 ≤ pos' ∧ pos' ≤ m.binary.length := by
  obtain ⟨id, p1, len, p2, hp, h1, -, h2, rfl, hle, -⟩ := read_section_ok h
  have := (readByte_eq_ok.1 h1).2
  have := readLeb_pos h2
  omega

/-- Obligations stated on the updated module rather than on the loop bodies, for
the readers whose loop body makes a single update. -/
theorem Preserves.of_updates {S : Nat → Prop} {I : Module → Prop}
    (sections : ∀ (m : Module) (s : List Section), I m → I { m with sections := s })
    (functionTypes : S wasm_sec_type → ∀ (m : Module) (ft : FunctionType), I m →
      ft.returnTypes.length ≤ 1 → I { m with functionTypes := m.functionTypes ++ [ft] })
    (importEntry : S wasm_sec_import → ∀ i m p m' p', I m →
      read_sec_import_entry i (m, p) = .ok (m', p') → I m')
    (functions : S wasm_sec_function → ∀ (m : Module) (t : Nat), I m →
      t < m.functionTypes.length → I { m with functions := m.functions ++ [{ type := t }] })
    (table : S wasm_sec_table → ∀ (m : Module) (l : ResizableLimits), I m →
      m.tables.length = 0 → I { m with tables := m.tables ++ [l] })
    (memory : S wasm_sec_memory → ∀ (m : Module) (l : ResizableLimits), I m →
      m.memories.length = 0 → I { m with memories := m.memories ++ [l] })
    (globals : S wasm_sec_global → ∀ (m : Module) (v : Nat), I m →
      I { m with globals := m.globals ++ [{ isStack := false, initU32 := v }] })
    (exportEntry : S wasm_sec_export → ∀ i m p m' p', I m →
      read_sec_export_entry i (m, p) = .ok (m', p') → I m')
    (elements : S wasm_sec_elem → ∀ (m : Module) (els : List Element), I m →
      I { m with elements := els })
    (dataSegments : S wasm_sec_data → ∀ (m : Module) (seg : DataSegment), I m →
      I { m with dataSegments := m.dataSegments ++ [seg] })
    (relocs : S wasm_sec_custom → ∀ (m : Module) (r : Reloc), I m →
      I { m with relocs := m.relocs ++ [r] })
    (linkingSymbol : S wasm_sec_custom → ∀ (m : Module) (name : Name) (flags : Nat), I m →
      I { m with symbols :=
        symbolsUpdate (fun s => { s with flags := flags, inLinking := true }) name m.symbols })
    (dataSize : S wasm_sec_custom → ∀ (m : Module) (d : Nat), I m →
      I { m with dataSize := d }) :
    Preserves S I where
  sections := sections
  typeEntry := fun hS i m p m' p' h0 h => by
    obtain ⟨ft, hr, rfl⟩ := read_sec_type_entry_ok h
    exact functionTypes hS m ft h0 hr
  importEntry := importEntry
  functionEntry := fun hS i m p m' p' h0 h => by
    obtain ⟨t, ht, rfl⟩ := read_sec_function_entry_ok h
    exact functions hS m t h0 ht
  table := table
  memory := memory
  globalEntry := fun hS i m p m' p' h0 h => by
    obtain ⟨v, rfl⟩ := read_sec_global_entry_ok h
    exact globals hS m v h0
  exportEntry := exportEntry
  elemSlot := fun hS o j m p m' p' h0 h => by
    obtain ⟨f, els, -, -, -, rfl⟩ := read_sec_elem_slot_ok h
    exact elements hS m _ h0
  dataSegment := fun hS i m p m' p' h0 h => by
    obtain ⟨o, s, q, -, -, rfl⟩ := read_sec_data_segment_ok h
    exact dataSegments hS m _ h0
  relocEntry := fun hS s i m p m' p' h0 h => by
    obtain ⟨r, -, -, rfl⟩ := read_reloc_entry_ok h
    exact relocs hS m r h0
  linkingSymbol := fun hS i m p m' p' h0 h => by
    obtain ⟨name, flags, rfl⟩ := read_linking_symbol_ok h
    exact linkingSymbol hS m name flags h0
  dataSize := dataSize

/-- No reader changes the buffer. -/
theorem preserves_binary (b : List Nat) :
    Preserves (fun _ => True) (fun m => m.binary = b) := by
  refine Preserves.of_updates (fun _ _ h => h) (fun _ _ _ h _ => h) ?_ (fun _ _ _ h _ => h)
    (fun _ _ _ h _ => h) (fun _ _ _ h _ => h) (fun _ _ _ h => h) ?_ (fun _ _ _ h => h)
    (fun _ _ _ h => h) (fun _ _ _ h => h) (fun _ _ _ _ h => h) (fun _ _ _ h => h)
  · intro _ i m p m' p' h0 h
    obtain ⟨name, kind, index, h⟩ := read_sec_import_entry_ok h
    rcases h with ⟨-, -, t, -, rfl⟩ | ⟨-, -, -, l, rfl⟩ | ⟨-, -, -, l, rfl⟩ | ⟨-, -, rfl⟩ <;>
      exact h0
  · intro _ i m p m' p' h0 h
    rcases read_sec_export_entry_ok h with rfl | ⟨name, kind, index, rfl⟩ <;> exact h0

theorem read_section_binary {m m' : Module} {pos pos' : Nat}
    (h : read_section m pos = .ok (m', pos')) : m'.binary = m.binary :=
  read_section_inv (preserves_binary m.binary) (fun _ _ _ => trivial) rfl h

/-- The loop of the driver preserves a property that every section with an id
in `S` preserves, when every section still to come has its id in `S`. -/
theorem read_module_loop_inv {S : Nat → Prop} {I : Module → Prop} (hP : Preserves S I) :
    ∀ (fuel : Nat) (m : Module) (pos : Nat) (m' : Module), I m →
      (∀ h ∈ sectionHeaders m.binary fuel pos, S h.1) →
      read_module_loop fuel m pos = .ok m' → I m' := by
  intro fuel
  induction fuel with
  | zero =>
    intro m pos m' h0 _ h
    simp only [read_module_loop] at h
    split at h
    · cases h
    · cases h; exact h0
  | succ fuel ih =>
    intro m pos m' h0 hS h
    simp only [read_module_loop] at h
    split at h
    · next hne =>
      split at h
      · cases h
      · next m1 p1 hsec =>
        obtain ⟨id, q1, len, q2, hp, hb, -, hl, rfl, -, -⟩ := read_section_ok hsec
        have hbin := read_section_binary hsec
        simp only [sectionHeaders, if_pos hne, hb, hl] at hS
        have hid : S id := hS _ (List.mem_cons_self _ _)
        have hI1 : I m1 := read_section_inv hP
          (fun id' p' hb' => by rw [hb] at hb'; cases hb'; exact hid) h0 hsec
        refine ih m1 _ m' hI1 ?_ h
        intro x hx
        rw [hbin] at hx
        exact hS x (List.mem_cons_of_mem _ hx)
    · cases h; exact h0

theorem read_module_ok {bin : List Nat} {m : Module} (h : read_module bin = .ok m) :
    8 ≤ bin.length ∧ read_module_loop bin.length { binary := bin } 8 = .ok m := by
  simp only [read_module, bind_eq_ok, check_eq_ok, Bool.and_eq_true, decide_eq_true_eq] at h
  obtain ⟨-, ⟨hlen, -⟩, h⟩ := h
  exact ⟨hlen, h⟩

/-- A property preserved by every section holds of every accepted module. -/
theorem read_module_inv {I : Module → Prop} (hP : Preserves (fun _ => True) I)
    {bin : List Nat} {m : Module} (h0 : I { binary := bin })
    (h : read_module bin = .ok m) : I m :=
  read_module_loop_inv hP _ _ _ _ h0 (fun _ _ => trivial) (read_module_ok h).2

theorem read_module_binary {bin : List Nat} {m : Module} (h : read_module bin = .ok m) :
    m.binary = bin :=
  read_module_inv (preserves_binary bin) rfl h

/-! ## C1: the fixed five-byte encoding round-trips -/

theorem or_shift_eq_add (a p k : Nat) (ha : a < 2 ^ k) : a ||| (p * 2 ^ k) = a + p * 2 ^ k := by
  rw [Nat.or_comm, Nat.mul_comm p, ← Nat.mul_add_lt_is_or ha p, Nat.add_comm]

theorem cont_byte_payload : ∀ a, a < 128 → ((a ||| 0x80) &&& 0x7f) = a := by decide
theorem cont_byte_flag : ∀ a, a < 128 → ((a ||| 0x80) &&& 0x80) ≠ 0 := by decide
theorem last_byte_payload : ∀ a, a < 32 → ((a ||| 0) &&& 0x7f) = a := by decide
theorem last_byte_flag : ∀ a, a < 32 → ((a ||| 0) &&& 0x80) = 0 := by decide

/-- C1. For every 32-bit value `v` and every buffer `b`, `pushLeb5 b v` appends
exactly five bytes and leaves the earlier bytes unchanged, and `readLeb` at the
old length returns exactly `v` with the cursor five bytes further. -/
theorem pushLeb5_readLeb (b : List Nat) (v : Nat) (hv : v < 4294967296) :
    (pushLeb5 b v).length = b.length + 5 ∧ (pushLeb5 b v).take b.length = b ∧
    readLeb (pushLeb5 b v) b.length = .ok (v, b.length + 5) := by
  refine ⟨by simp [pushLeb5], by simp [pushLeb5], ?_⟩
  have e0 : (v >>> 0) &&& 0x7f = v % 128 := by
    simpa using Nat.and_pow_two_sub_one_eq_mod v 7
  have e1 : (v >>> 7) &&& 0x7f = v / 128 % 128 := by
    rw [Nat.shiftRight_eq_div_pow]; exact Nat.and_pow_two_sub_one_eq_mod _ 7
  have e2 : (v >>> 14) &&& 0x7f = v / 16384 % 128 := by
    rw [Nat.shiftRight_eq_div_pow]; exact Nat.and_pow_two_sub_one_eq_mod _ 7
  have e3 : (v >>> 21) &&& 0x7f = v / 2097152 % 128 := by
    rw [Nat.shiftRight_eq_div_pow]; exact Nat.and_pow_two_sub_one_eq_mod _ 7
  have e4 : (v >>> 28) &&& 0x1f = v / 268435456 % 32 := by
    rw [Nat.shiftRight_eq_div_pow]; exact Nat.and_pow_two_sub_one_eq_mod _ 5
  have b0 : v % 128 < 128 := Nat.mod_lt _ (by decide)
  have b1 : v / 128 % 128 < 128 := Nat.mod_lt _ (by decide)
  have b2 : v / 16384 % 128 < 128 := Nat.mod_lt _ (by decide)
  have b3 : v / 2097152 % 128 < 128 := Nat.mod_lt _ (by decide)
  have b4 : v / 268435456 % 32 < 32 := Nat.mod_lt _ (by decide)
  unfold readLeb pushLeb5
  rw [List.drop_left, e0, e1, e2, e3, e4]
  simp only [readLebFrom, cont_byte_payload _ b0, cont_byte_payload _ b1,
    cont_byte_payload _ b2, cont_byte_payload _ b3, last_byte_payload _ b4,
    cont_byte_flag _ b0, cont_byte_flag _ b1, cont_byte_flag _ b2, cont_byte_flag _ b3,
    last_byte_flag _ b4, if_true, if_false, Nat.shiftLeft_eq, u32, Nat.zero_or]
  have s0 : v % 128 * 2 ^ 0 % 4294967296 = v % 128 := by omega
  have s1 : v / 128 % 128 * 2 ^ 7 % 4294967296 = (v / 128 % 128) * 2 ^ 7 := by omega
  have s2 : v / 16384 % 128 * 2 ^ 14 % 4294967296 = (v / 16384 % 128) * 2 ^ 14 := by omega
  have s3 : v / 2097152 % 128 * 2 ^ 21 % 4294967296 = (v / 2097152 % 128) * 2 ^ 21 := by omega
  have s4 : v / 268435456 % 32 * 2 ^ 28 % 4294967296 = (v / 268435456 % 32) * 2 ^ 28 := by omega
  rw [s0, s1, s2, s3, s4]
  rw [or_shift_eq_add _ _ 7 (by omega), or_shift_eq_add _ _ 14 (by omega),
    or_shift_eq_add _ _ 21 (by omega), or_shift_eq_add _ _ 28 (by omega)]
  congr 2
  omega

theorem pushLeb5_readLeb_witness :
    4294967295 < 4294967296 ∧ (pushLeb5 [7, 9] 4294967295).length = 2 + 5 ∧
    (pushLeb5 [7, 9] 4294967295).take 2 = [7, 9] ∧
    readLeb (pushLeb5 [7, 9] 4294967295) 2 = .ok (4294967295, 2 + 5) :=
  ⟨by decide, pushLeb5_readLeb [7, 9] 4294967295 (by decide)⟩

/-! ## C2: `readLeb` is unbounded -/

/-- The loop of `readLeb` never throws. -/
theorem readLebFrom_ne_msg (l : List Nat) : ∀ (pos result shift : Nat) (s : String),
    readLebFrom l pos result shift ≠ .error (.msg s) := by
  induction l with
  | nil => intro pos result shift s h; simp [readLebFrom] at h
  | cons b rest ih =>
    intro pos result shift s h
    simp only [readLebFrom] at h
    split at h
    · cases h
    · exact ih _ _ _ _ h

/-- The loop of `readLeb` skips any number of continuation bytes. -/
theorem readLebFrom_skip (cs : List Nat) (b : Nat) (rest : List Nat)
    (hcs : ∀ c ∈ cs, c &&& 0x80 ≠ 0) (hb : b &&& 0x80 = 0) :
    ∀ (pos result shift : Nat),
      ∃ v, readLebFrom (cs ++ b :: rest) pos result shift = .ok (v, pos + cs.length + 1) := by
  induction cs with
  | nil =>
    intro pos result shift
    refine ⟨result ||| u32 ((b &&& 0x7f) <<< shift), ?_⟩
    simp [readLebFrom, hb]
  | cons c cs ih =>
    intro pos result shift
    have hc : c &&& 0x80 ≠ 0 := hcs c (List.mem_cons_self _ _)
    obtain ⟨v, hv⟩ := ih (fun x hx => hcs x (List.mem_cons_of_mem _ hx)) (pos + 1)
      (result ||| u32 ((c &&& 0x7f) <<< shift)) (shift + 7)
    refine ⟨v, ?_⟩
    rw [List.cons_append, readLebFrom]
    simp only [if_neg hc]
    rw [hv, List.length_cons]
    simp only [Except.ok.injEq, Prod.mk.injEq, true_and]
    omega

/-- The loop of `readLeb` runs off a list of continuation bytes. -/
theorem readLebFrom_all_cont (l : List Nat) (hl : ∀ c ∈ l, c &&& 0x80 ≠ 0) :
    ∀ (pos result shift : Nat), readLebFrom l pos result shift = .error .oob := by
  induction l with
  | nil => intro pos result shift; rfl
  | cons c cs ih =>
    intro pos result shift
    have hc : c &&& 0x80 ≠ 0 := hl c (List.mem_cons_self _ _)
    simp only [readLebFrom, if_neg hc]
    exact ih (fun x hx => hl x (List.mem_cons_of_mem _ hx)) _ _ _

/-- C2 (counterexample). Five continuation bytes followed by a terminating byte
are decoded: `readLeb` returns a value and consumes six bytes; and on a buffer
that ends inside the varint no error is thrown, the read leaves the buffer. -/
theorem readLeb_no_bound_counterexample :
    readLeb [0x80, 0x80, 0x80, 0x80, 0x80, 0x00] 0 = .ok (0, 6) ∧
    readLeb [0x80, 0x80] 0 = .error .oob := by
  decide

/-- C2 (amended). `readLeb` has no length or bounds check and never throws.  It
returns at the first byte with a clear continuation bit, however many
continuation bytes precede it, having consumed all of them and that byte; when
every byte from the cursor to the end of the buffer has its continuation bit
set, the read leaves the buffer. -/
theorem readLeb_unbounded (binary : List Nat) (pos : Nat) :
    (∀ s, readLeb binary pos ≠ .error (.msg s)) ∧
    (∀ cs b rest, binary.drop pos = cs ++ b :: rest → (∀ c ∈ cs, c &&& 0x80 ≠ 0) →
      b &&& 0x80 = 0 → ∃ v, readLeb binary pos = .ok (v, pos + cs.length + 1)) ∧
    ((∀ c ∈ binary.drop pos, c &&& 0x80 ≠ 0) → readLeb binary pos = .error .oob) := by
  refine ⟨fun s => readLebFrom_ne_msg _ _ _ _ s, ?_, ?_⟩
  · intro cs b rest hd hcs hb
    unfold readLeb
    rw [hd]
    exact readLebFrom_skip cs b rest hcs hb pos 0 0
  · intro h
    exact readLebFrom_all_cont _ h _ _ _

theorem readLeb_unbounded_witness :
    (∃ v, readLeb [0x80, 0x80, 0x80, 0x80, 0x80, 0x80, 0x01] 0 = .ok (v, 0 + 6 + 1)) ∧
    readLeb [0x80, 0xff] 0 = .error .oob :=
  ⟨(readLeb_unbounded [0x80, 0x80, 0x80, 0x80, 0x80, 0x80, 0x01] 0).2.1
      [0x80, 0x80, 0x80, 0x80, 0x80, 0x80] 0x01 [] rfl (by decide) (by decide),
   (readLeb_unbounded [0x80, 0xff] 0).2.2 (by decide)⟩

/-! ## C3: exported symbols and the linking section -/

/-- A property of symbols that the update and the default symbol respect holds
of every entry after `symbols[name]` is updated. -/
theorem symbolsUpdate_forall (P : Symbol → Prop) (f : Symbol → Symbol) (name : Name)
    (hf : ∀ s, P s → P (f s)) (h0 : P (f {})) :
    ∀ (syms : List (Name × Symbol)), (∀ x ∈ syms, P x.2) →
      ∀ x ∈ symbolsUpdate f name syms, P x.2 := by
  intro syms
  induction syms with
  | nil =>
    intro _ x hx
    simp only [symbolsUpdate, List.mem_singleton] at hx
    subst hx; exact h0
  | cons y rest ih =>
    intro h x hx
    obtain ⟨k, s⟩ := y
    simp only [symbolsUpdate] at hx
    split at hx
    · rcases List.mem_cons.1 hx with rfl | hx
      · exact hf _ (h (k, s) (List.mem_cons_self _ _))
      · exact h x (List.mem_cons_of_mem _ hx)
    · split at hx
      · rcases List.mem_cons.1 hx with rfl | hx
        · exact h0
        · exact h x hx
      · rcases List.mem_cons.1 hx with rfl | hx
        · exact h _ (List.mem_cons_self _ _)
        · exact ih (fun z hz => h z (List.mem_cons_of_mem _ hz)) x hx

theorem checkExported_ok {syms : List (Name × Symbol)} (h : checkExported syms = .ok ()) :
    ∀ x ∈ syms, x.2.exports ≠ [] → x.2.inLinking = true := by
  induction syms with
  | nil => intro x hx; cases hx
  | cons y rest ih =>
    obtain ⟨k, s⟩ := y
    simp only [checkExported] at h
    split at h
    · cases h
    · next hc =>
      intro x hx hne
      rcases List.mem_cons.1 hx with rfl | hx
      · cases hl : s.inLinking
        · exfalso; apply hc
          simp only [hl, Bool.not_false, Bool.true_and, Bool.not_eq_true', List.isEmpty_eq_false]
          exact hne
        · rfl
      · exact ih h x hx hne

theorem read_linking_exported {m m' : Module} {pos sEnd pos' : Nat}
    (h : read_linking m pos sEnd = .ok (m', pos')) : ExportedInLinking m' := by
  simp only [read_linking, bind_eq_ok, check_eq_ok, pure_eq_ok, Prod.exists,
    Prod.mk.injEq] at h
  obtain ⟨m1, _, _, _, _, _, hc, rfl, _⟩ := h
  exact checkExported_ok hc

/-- Every section other than an export section keeps exported symbols declared. -/
theorem preserves_exportedInLinking :
    Preserves (fun id => id ≠ wasm_sec_export) ExportedInLinking := by
  refine Preserves.of_updates (fun _ _ h => h) (fun _ _ _ h _ => h) ?_ (fun _ _ _ h _ => h)
    (fun _ _ _ h _ => h) (fun _ _ _ h _ => h) (fun _ _ _ h => h) (fun h => absurd rfl h)
    (fun _ _ _ h => h) (fun _ _ _ h => h) (fun _ _ _ h => h) ?_ (fun _ _ _ h => h)
  · intro _ i m p m' p' h0 h
    obtain ⟨name, kind, index, h⟩ := read_sec_import_entry_ok h
    have key : ∀ x ∈ symbolsUpdate
        (fun s => { s with imports := s.imports ++ [u32 m.imports.length] }) name m.symbols,
        x.2.exports ≠ [] → x.2.inLinking = true :=
      symbolsUpdate_forall (fun s => s.exports ≠ [] → s.inLinking = true)
        (fun s => { s with imports := s.imports ++ [u32 m.imports.length] }) name
        (fun s hs => hs) (fun hne => absurd rfl hne) m.symbols h0
    rcases h with ⟨-, -, t, -, rfl⟩ | ⟨-, -, -, l, rfl⟩ | ⟨-, -, -, l, rfl⟩ | ⟨-, -, rfl⟩ <;>
      exact key
  · intro _ m name flags h0
    exact symbolsUpdate_forall (fun s => s.exports ≠ [] → s.inLinking = true) _ name
      (fun s _ _ => rfl) (fun _ => rfl) m.symbols h0

/-- The first header of the layout is the section that `read_section` reads. -/
theorem sectionHeaders_of_read_section {m m' : Module} {pos pos' : Nat} (fuel : Nat)
    (hne : pos ≠ m.binary.length) (h : read_section m pos = .ok (m', pos')) :
    ∃ id p1 len p2, readByte m.binary pos = .ok (id, p1) ∧
      readLeb m.binary p1 = .ok (len, p2) ∧
      sectionHeaders m.binary (fuel + 1) pos =
        (id, sectionName m.binary id p2) :: sectionHeaders m'.binary fuel pos' := by
  obtain ⟨id, p1, len, p2, hp, hb, -, hl, rfl, -, -⟩ := read_section_ok h
  refine ⟨id, p1, len, p2, hb, hl, ?_⟩
  simp only [sectionHeaders, if_pos hne, hb, hl, read_section_binary h]

/-- A successfully read `linking` section leaves every exported symbol declared. -/
theorem read_section_linking {m m' : Module} {pos pos' id p1 len p2 : Nat}
    (h : read_section m pos = .ok (m', pos'))
    (hb : readByte m.binary pos = .ok (id, p1)) (hl : readLeb m.binary p1 = .ok (len, p2))
    (hk : isLinking (id, sectionName m.binary id p2) = true) : ExportedInLinking m' := by
  obtain ⟨id', q1, len', q2, hp, hb', -, hl', rfl, -, hcase⟩ := read_section_ok h
  rw [hb] at hb'; cases hb'
  rw [hl] at hl'; cases hl'
  simp only [isLinking, Bool.and_eq_true, beq_iff_eq] at hk
  obtain ⟨hid, hname⟩ := hk
  subst hid
  rcases hcase with ⟨hne, -⟩ | ⟨-, hc⟩
  · exact absurd rfl hne
  · simp only [read_custom, bind_eq_ok, Prod.exists] at hc
    obtain ⟨name, p, hs, hc⟩ := hc
    simp only [sectionName, if_true, hs] at hname
    subst hname
    rw [if_neg (by decide), if_pos rfl] at hc
    exact read_linking_exported hc

theorem read_module_loop_exported : ∀ (fuel : Nat) (m : Module) (pos : Nat) (m' : Module),
    linkingAfterExports (sectionHeaders m.binary fuel pos) = true →
    read_module_loop fuel m pos = .ok m' → ExportedInLinking m' := by
  intro fuel
  induction fuel with
  | zero => intro m pos m' hl _; simp [sectionHeaders, linkingAfterExports] at hl
  | succ fuel ih =>
    intro m pos m' hl h
    simp only [read_module_loop] at h
    split at h
    · next hne =>
      split at h
      · cases h
      · next m1 p1 hsec =>
        obtain ⟨id, q1, len, q2, hb, hlen, hh⟩ := sectionHeaders_of_read_section fuel hne hsec
        rw [hh] at hl
        simp only [linkingAfterExports, Bool.or_eq_true, Bool.and_eq_true, List.all_eq_true,
          bne_iff_ne, ne_eq] at hl
        rcases hl with ⟨hk, hrest⟩ | hl
        · exact read_module_loop_inv preserves_exportedInLinking fuel m1 p1 m'
            (read_section_linking hsec hb hlen hk) (fun x hx => hrest x hx) h
        · exact ih m1 p1 m' hl h
    · next he =>
      simp only [sectionHeaders, he, if_false, linkingAfterExports] at hl
      simp at hl

/-- C3 (counterexample). A module with a type, a function and an export section
and no `linking` section is accepted with the exported symbol not declared; so
is a module whose `linking` section comes before the export section. -/
theorem exported_in_linking_counterexample :
    (∃ m, read_module exportOnly = .ok m ∧ ¬ ExportedInLinking m) ∧
    (∃ m, read_module linkingThenExport = .ok m ∧ ¬ ExportedInLinking m) :=
  ⟨⟨_, rfl, by decide⟩, ⟨_, rfl, by decide⟩⟩

/-- C3 (amended). For every buffer on which `read_module` succeeds and in which
some `linking` custom section is followed by no export section, every symbol
whose export-reference list is non-empty has `inLinking = true`. -/
theorem exported_in_linking (bin : List Nat) (m : Module) (h : read_module bin = .ok m)
    (hl : linkingAfterExports (sectionLayout bin) = true) : ExportedInLinking m :=
  read_module_loop_exported bin.length { binary := bin } 8 m hl (read_module_ok h).2

theorem exported_in_linking_witness :
    linkingAfterExports (sectionLayout exportThenLinking) = true ∧
    (∃ m, read_module exportThenLinking = .ok m ∧
      m.symbols = [([0x66], { flags := 0, imports := [], exports := [0], inLinking := true })] ∧
      ExportedInLinking m) ∧
    read_module exportThenEmptyLinking =
      .error (.msg "symbol f is exported, but not in linking section") :=
  ⟨by decide,
   ⟨_, rfl, by decide, exported_in_linking exportThenLinking _ rfl (by decide)⟩,
   by decide⟩

/-! ## C5: the function index space -/

theorem functionImports_push_function {m m' : Module} {imp : Import}
    (h : m'.imports = m.imports ++ [imp]) (hk : imp.kind = external_function) :
    functionImports m' = functionImports m ++ [imp] := by
  simp [functionImports, h, List.filter_append, hk]

theorem functionImports_push_other {m m' : Module} {imp : Import}
    (h : m'.imports = m.imports ++ [imp]) (hk : imp.kind ≠ external_function) :
    functionImports m' = functionImports m := by
  simp [functionImports, h, List.filter_append, hk]

theorem u32_succ_u32 (n : Nat) : u32 (u32 n + 1) = u32 (n + 1) := by
  unfold u32; omega

/-- An import entry read before any local function keeps the imports numbered. -/
theorem read_sec_import_entry_numbered {i : Nat} {m m' : Module} {p p' : Nat}
    (h0 : ImportsNumbered m ∧ NoLocalFunction m)
    (h : read_sec_import_entry i (m, p) = .ok (m', p')) :
    ImportsNumbered m' ∧ NoLocalFunction m' := by
  obtain ⟨⟨h1, h2, h3⟩, h4⟩ := h0
  unfold NoLocalFunction at h4
  obtain ⟨name, kind, index, h⟩ := read_sec_import_entry_ok h
  rcases h with ⟨rfl, rfl, t, -, rfl⟩ | ⟨hk, -, -, l, rfl⟩ | ⟨hk, -, -, l, rfl⟩ | ⟨hk, -, rfl⟩
  · unfold ImportsNumbered NoLocalFunction
    rw [functionImports_push_function (m := m) rfl rfl]
    simp only [List.length_append, List.length_singleton, List.map_append, List.map_cons,
      List.map_nil, List.range_succ]
    refine ⟨⟨by omega, ?_, ?_⟩, by omega⟩
    · rw [h2]; exact u32_succ_u32 _
    · rw [h3, h4]
  all_goals
    have hk' : kind ≠ external_function := by rw [hk]; decide
    unfold ImportsNumbered NoLocalFunction
    rw [functionImports_push_other (m := m) rfl hk']
    exact ⟨⟨h1, h2, h3⟩, h4⟩

theorem preserves_numbered_noLocal :
    Preserves (fun id => id ≠ wasm_sec_function)
      (fun m => ImportsNumbered m ∧ NoLocalFunction m) := by
  refine Preserves.of_updates (fun _ _ h => h) (fun _ _ _ h _ => h)
    (fun _ i m p m' p' h0 h => read_sec_import_entry_numbered h0 h) (fun h => absurd rfl h)
    (fun _ _ _ h _ => h) (fun _ _ _ h _ => h) (fun _ _ _ h => h) ?_
    (fun _ _ _ h => h) (fun _ _ _ h => h) (fun _ _ _ h => h) (fun _ _ _ _ h => h)
    (fun _ _ _ h => h)
  intro _ i m p m' p' h0 h
  rcases read_sec_export_entry_ok h with rfl | ⟨name, kind, index, rfl⟩ <;> exact h0

theorem preserves_numbered :
    Preserves (fun id => id ≠ wasm_sec_import) ImportsNumbered := by
  refine Preserves.of_updates (fun _ _ h => h) (fun _ _ _ h _ => h)
    (fun h => absurd rfl h) ?_
    (fun _ _ _ h _ => h) (fun _ _ _ h _ => h) (fun _ _ _ h => h) ?_
    (fun _ _ _ h => h) (fun _ _ _ h => h) (fun _ _ _ h => h) (fun _ _ _ _ h => h)
    (fun _ _ _ h => h)
  · intro _ m t h _
    obtain ⟨h1, h2, h3⟩ := h
    refine ⟨?_, h2, h3⟩
    show (functionImports m).length ≤ (m.functions ++ [_]).length
    rw [List.length_append, List.length_singleton]
    omega
  · intro _ i m p m' p' h0 h
    rcases read_sec_export_entry_ok h with rfl | ⟨name, kind, index, rfl⟩ <;> exact h0

theorem read_module_loop_numbered : ∀ (fuel : Nat) (m : Module) (pos : Nat) (m' : Module),
    ImportsNumbered m → NoLocalFunction m →
    importsBeforeFunctions (sectionHeaders m.binary fuel pos) = true →
    read_module_loop fuel m pos = .ok m' → ImportsNumbered m' := by
  intro fuel
  induction fuel with
  | zero =>
    intro m pos m' hJ _ _ h
    simp only [read_module_loop] at h
    split at h
    · cases h
    · cases h; exact hJ
  | succ fuel ih =>
    intro m pos m' hJ hN hl h
    simp only [read_module_loop] at h
    split at h
    · next hne =>
      split at h
      · cases h
      · next m1 p1 hsec =>
        obtain ⟨id, q1, len, q2, hb, hlen, hh⟩ := sectionHeaders_of_read_section fuel hne hsec
        rw [hh] at hl
        simp only [importsBeforeFunctions] at hl
        have hid : ∀ id' p', readByte m.binary pos = .ok (id', p') → id' = id := by
          intro id' p' hb'; rw [hb] at hb'; cases hb'; rfl
        split at hl
        · next hf =>
          simp only [List.all_eq_true, bne_iff_ne, ne_eq] at hl
          have hJ1 : ImportsNumbered m1 := read_section_inv preserves_numbered
            (fun id' p' hb' => by rw [hid id' p' hb', hf]; decide) hJ hsec
          exact read_module_loop_inv preserves_numbered fuel m1 p1 m' hJ1
            (fun x hx => hl x hx) h
        · next hf =>
          have h1 := read_section_inv preserves_numbered_noLocal
            (fun id' p' hb' => by rw [hid id' p' hb']; exact hf) ⟨hJ, hN⟩ hsec
          exact ih m1 p1 m' h1.1 h1.2 hl h
    · cases h; exact hJ

theorem map_u32_range (n : Nat) (hn : n ≤ 4294967296) :
    (List.range n).map u32 = List.range n := by
  apply List.ext_getElem
  · simp
  · intro k h1 h2
    simp only [List.length_map, List.length_range] at h1
    simp only [List.getElem_map, List.getElem_range, u32]
    omega

/-- C5 (counterexample). With the function section before the import section the
imported function gets index 1 while `numImportedFunctions` is 1. -/
theorem imports_first_counterexample :
    ∃ m, read_module functionThenImport = .ok m ∧
      ∃ i ∈ m.imports, i.kind = external_function ∧ ¬ i.index < m.numImportedFunctions :=
  ⟨_, rfl, by decide⟩

/-- C5 (amended). For every buffer on which `read_module` succeeds, in which
no import section follows a function section, and whose module has fewer than
2^32 functions: each import of kind function has an index below
`numImportedFunctions`, the k-th function import has index k, there are
`numImportedFunctions` of them, and no function at an index at or above
`numImportedFunctions` is an imported one. -/
theorem imports_first (bin : List Nat) (m : Module) (h : read_module bin = .ok m)
    (hl : importsBeforeFunctions (sectionLayout bin) = true)
    (hsize : m.functions.length < 4294967296) :
    (∀ i ∈ functionImports m, i.index < m.numImportedFunctions) ∧
    (∀ k (hk : k < (functionImports m).length), ((functionImports m).get ⟨k, hk⟩).index = k) ∧
    (functionImports m).length = m.numImportedFunctions ∧
    m.numImportedFunctions ≤ m.functions.length ∧
    (∀ j, m.numImportedFunctions ≤ j → ∀ i ∈ functionImports m, i.index ≠ j) := by
  have hJ : ImportsNumbered m :=
    read_module_loop_numbered bin.length { binary := bin } 8 m
      ⟨Nat.zero_le _, rfl, rfl⟩ rfl hl (read_module_ok h).2
  obtain ⟨h1, h2, h3⟩ := hJ
  have hn : u32 (functionImports m).length = (functionImports m).length := by
    unfold u32; omega
  rw [hn] at h2
  rw [map_u32_range _ (by omega)] at h3
  have hk : ∀ k (hk : k < (functionImports m).length),
      ((functionImports m).get ⟨k, hk⟩).index = k := by
    intro k hk
    have := congrArg (fun l => l[k]?) h3
    simp only [List.getElem?_map, List.getElem?_range hk] at this
    rw [List.getElem?_eq_getElem hk] at this
    simpa using this
  have hlt : ∀ i ∈ functionImports m, i.index < m.numImportedFunctions := by
    intro i hi
    obtain ⟨k, hk', rfl⟩ := List.getElem_of_mem hi
    have := hk k hk'
    simp only [List.get_eq_getElem] at this
    omega
  refine ⟨hlt, hk, h2.symm, by omega, ?_⟩
  intro j hj i hi he
  have := hlt i hi
  omega

theorem imports_first_witness :
    importsBeforeFunctions (sectionLayout importThenFunction) = true ∧
    ∃ m, read_module importThenFunction = .ok m ∧ m.functions.length < 4294967296 ∧
      m.numImportedFunctions = 1 ∧ m.functions.length = 2 ∧
      (∀ i ∈ functionImports m, i.index < m.numImportedFunctions) :=
  ⟨by decide, _, rfl, by decide, by decide, by decide,
    (imports_first importThenFunction _ rfl (by decide) (by decide)).1⟩

/-! ## C4: the end-of-section check -/

/-- Every standard reader other than those of the type and code sections returns
only with the cursor at the declared end of the section. -/
theorem read_standard_end {id : Nat} {m m' : Module} {pos sEnd pos' : Nat}
    (h : read_standard id m pos sEnd = .ok (m', pos'))
    (ht : id ≠ wasm_sec_type) (hc : id ≠ wasm_sec_code) : pos' = sEnd := by
  unfold read_standard at h
  rw [if_neg ht] at h
  by_cases h2 : id = wasm_sec_import
  · rw [if_pos h2] at h
    simp only [read_sec_import, bind_eq_ok, check_eq_ok, pure_eq_ok, Prod.exists,
      Prod.mk.injEq, beq_iff_eq] at h
    obtain ⟨_, _, _, _, _, _, _, he, _, he'⟩ := h
    omega
  rw [if_neg h2] at h
  by_cases h3 : id = wasm_sec_function
  · rw [if_pos h3] at h
    simp only [read_sec_function, bind_eq_ok, check_eq_ok, pure_eq_ok, Prod.exists,
      Prod.mk.injEq, beq_iff_eq] at h
    obtain ⟨_, _, _, _, _, _, _, he, _, he'⟩ := h
    omega
  rw [if_neg h3] at h
  by_cases h4 : id = wasm_sec_table
  · rw [if_pos h4] at h
    exact (read_sec_table_ok h).2.1
  rw [if_neg h4] at h
  by_cases h5 : id = wasm_sec_memory
  · rw [if_pos h5] at h
    exact (read_sec_memory_ok h).2.1
  rw [if_neg h5] at h
  by_cases h6 : id = wasm_sec_global
  · rw [if_pos h6] at h
    simp only [read_sec_global, bind_eq_ok, check_eq_ok, pure_eq_ok, Prod.exists,
      Prod.mk.injEq, beq_iff_eq] at h
    obtain ⟨_, _, _, _, _, _, _, he, _, he'⟩ := h
    omega
  rw [if_neg h6] at h
  by_cases h7 : id = wasm_sec_export
  · rw [if_pos h7] at h
    simp only [read_sec_export, bind_eq_ok, check_eq_ok, pure_eq_ok, Prod.exists,
      Prod.mk.injEq, beq_iff_eq] at h
    obtain ⟨_, _, _, _, _, _, _, he, _, he'⟩ := h
    omega
  rw [if_neg h7] at h
  by_cases h8 : id = wasm_sec_start
  · rw [if_pos h8] at h
    simp [read_sec_start, throw_eq_ok] at h
  rw [if_neg h8] at h
  by_cases h9 : id = wasm_sec_elem
  · rw [if_pos h9] at h
    simp only [read_sec_elem, bind_eq_ok, check_eq_ok, pure_eq_ok, Prod.exists,
      Prod.mk.injEq, beq_iff_eq] at h
    obtain ⟨_, _, _, _, _, _, _, _, _, he, _, he'⟩ := h
    omega
  rw [if_neg h9, if_neg hc] at h
  by_cases h11 : id = wasm_sec_data
  · rw [if_pos h11] at h
    simp only [read_sec_data, bind_eq_ok, check_eq_ok, pure_eq_ok, Prod.exists,
      Prod.mk.injEq, beq_iff_eq] at h
    obtain ⟨_, _, _, _, _, _, _, _, _, he, _, he'⟩ := h
    omega
  rw [if_neg h11] at h
  cases h

/-- C4 (failing input). A type section of declared length 2 that holds one byte
of content and one stray byte: `read_sec_type` stops one byte short of the
declared end and `read_module` accepts the buffer, while the same bytes under
the id of a function section are rejected as malformed. -/
theorem type_section_end_not_checked :
    read_sec_type { binary := typeTrailing } 10 12 = .ok ({ binary := typeTrailing }, 11) ∧
    (∃ m, read_module typeTrailing = .ok m ∧ m.functionTypes = [] ∧
      m.sections[1]? = some { valid := true, begin := 10, end_ := 12 }) ∧
    read_module functionTrailing = .error (.msg "function section malformed") :=
  ⟨by decide, ⟨_, rfl, by decide, by decide⟩, by decide⟩

/-! ## C6: export entries -/

/-- C6. For an export entry whose name, kind byte and index can be read: with
kind function it is accepted, appending the export and registering it in the
symbol table, exactly when `numImportedFunctions ≤ index < functions.size()`,
and fails with "export has invalid function index" otherwise; likewise for kind
global against `numImportedGlobals` and `globals.size()`; with any other kind it
is accepted and the module is unchanged. -/
theorem read_sec_export_entry_spec (i : Nat) (m : Module) (pos : Nat) (name : Name)
    (kind index p1 p2 p3 : Nat)
    (hname : readStr m.binary pos = .ok (name, p1))
    (hkind : readByte m.binary p1 = .ok (kind, p2))
    (hindex : readLeb m.binary p2 = .ok (index, p3)) :
    (kind = external_function →
      ((m.numImportedFunctions ≤ index ∧ index < m.functions.length) →
        read_sec_export_entry i (m, pos) = .ok ({ m with
          symbols := symbolsUpdate
            (fun s => { s with exports := s.exports ++ [u32 m.exports.length] })
            name m.symbols
          exports := m.exports ++ [{ name := name, kind := kind, index := index }] }, p3)) ∧
      (¬ (m.numImportedFunctions ≤ index ∧ index < m.functions.length) →
        read_sec_export_entry i (m, pos) =
          .error (.msg "export has invalid function index"))) ∧
    (kind = external_global →
      ((m.numImportedGlobals ≤ index ∧ index < m.globals.length) →
        read_sec_export_entry i (m, pos) = .ok ({ m with
          symbols := symbolsUpdate
            (fun s => { s with exports := s.exports ++ [u32 m.exports.length] })
            name m.symbols
          exports := m.exports ++ [{ name := name, kind := kind, index := index }] }, p3)) ∧
      (¬ (m.numImportedGlobals ≤ index ∧ index < m.globals.length) →
        read_sec_export_entry i (m, pos) =
          .error (.msg "export has invalid global index"))) ∧
    (kind ≠ external_function → kind ≠ external_global →
      read_sec_export_entry i (m, pos) = .ok (m, p3)) := by
  refine ⟨?_, ?_, ?_⟩
  · intro hk
    subst hk
    constructor
    · intro h
      simp [read_sec_export_entry, hname, hkind, hindex, bind, Except.bind, check, h,
        pure, Except.pure]
    · intro h
      have h' : (decide (index ≥ m.numImportedFunctions) &&
          decide (index < m.functions.length)) = false := by
        simpa [Bool.and_eq_false_iff] using h
      simp [read_sec_export_entry, hname, hkind, hindex, bind, Except.bind, check, h']
  · intro hk
    subst hk
    have hne : external_global ≠ external_function := by decide
    constructor
    · intro h
      simp [read_sec_export_entry, hname, hkind, hindex, bind, Except.bind, check, h,
        pure, Except.pure, hne]
    · intro h
      have h' : (decide (index ≥ m.numImportedGlobals) &&
          decide (index < m.globals.length)) = false := by
        simpa [Bool.and_eq_false_iff] using h
      simp [read_sec_export_entry, hname, hkind, hindex, bind, Except.bind, check, h', hne]
  · intro h1 h2
    simp [read_sec_export_entry, hname, hkind, hindex, bind, Except.bind, h1, h2,
      pure, Except.pure]

theorem read_sec_export_entry_spec_witness :
    read_sec_export_entry 0 (exportProbe 1, 0) =
      .error (.msg "export has invalid function index") ∧
    read_sec_export_entry 0 (exportProbe 2, 0) = .ok ({ exportProbe 2 with
      symbols := [([0x66], { exports := [0] })]
      exports := [{ name := [0x66], kind := 0, index := 2 }] }, 4) ∧
    read_sec_export_entry 0 (exportProbe 5, 0) =
      .error (.msg "export has invalid function index") :=
  ⟨((read_sec_export_entry_spec 0 (exportProbe 1) 0 [0x66] 0 1 2 3 4 rfl rfl rfl).1 rfl).2
      (by decide),
   ((read_sec_export_entry_spec 0 (exportProbe 2) 0 [0x66] 0 2 2 3 4 rfl rfl rfl).1 rfl).1
      (by decide),
   ((read_sec_export_entry_spec 0 (exportProbe 5) 0 [0x66] 0 5 2 3 4 rfl rfl rfl).1 rfl).2
      (by decide)⟩

/-! ## C8: holes in the element table -/

theorem checkHoles_ok {l : List Element} : ∀ {i : Nat}, checkHoles l i = .ok () →
    ∀ e ∈ l, e.valid = true := by
  induction l with
  | nil => intro i _ e he; cases he
  | cons x rest ih =>
    intro i h e he
    simp only [checkHoles] at h
    split at h
    · cases h
    · next hx =>
      rcases List.mem_cons.1 he with rfl | he
      · simpa using hx
      · exact ih h e he

theorem checkHoles_first {l : List Element} : ∀ {i n : Nat} (hn : n < l.length),
    (l.get ⟨n, hn⟩).valid = false →
    (∀ k (hk : k < n), (l.get ⟨k, Nat.lt_trans hk hn⟩).valid = true) →
    checkHoles l i = .error (.msg ("hole in table at index " ++ toString (i + n))) := by
  induction l with
  | nil => intro i n hn; cases hn
  | cons x rest ih =>
    intro i n hn hv hbefore
    cases n with
    | zero =>
      simp only [List.get_eq_getElem, List.getElem_cons_zero] at hv
      simp [checkHoles, hv]
    | succ n =>
      have hx : x.valid = true := by
        have := hbefore 0 (Nat.succ_pos _)
        simpa using this
      simp only [checkHoles, hx, Bool.not_true, Bool.false_eq_true, if_false]
      have hn' : n < rest.length := by simpa using hn
      have := ih (i := i + 1) hn' (by simpa using hv)
        (fun k hk => by
          have := hbefore (k + 1) (Nat.succ_lt_succ hk)
          simpa using this)
      rw [show i + 1 + n = i + (n + 1) by omega] at this
      exact this

/-- C8. If `read_sec_elem` returns successfully, every slot of `module.elements`
is valid; and if, after all segments are read, slot `n` is the first slot that
is not valid, it fails with "hole in table at index n". -/
theorem read_sec_elem_holes (m : Module) (pos sEnd : Nat) :
    (∀ m' pos', read_sec_elem m pos sEnd = .ok (m', pos') →
      ∀ e ∈ m'.elements, e.valid = true) ∧
    (∀ count p0 m1 p1 n (hn : n < m1.elements.length),
      readLeb m.binary pos = .ok (count, p0) →
      forLoop read_sec_elem_segment 0 count (m, p0) = .ok (m1, p1) →
      (m1.elements.get ⟨n, hn⟩).valid = false →
      (∀ k (hk : k < n), (m1.elements.get ⟨k, Nat.lt_trans hk hn⟩).valid = true) →
      read_sec_elem m pos sEnd =
        .error (.msg ("hole in table at index " ++ toString n))) := by
  constructor
  · intro m' pos' h
    simp only [read_sec_elem, bind_eq_ok, check_eq_ok, pure_eq_ok, Prod.exists,
      Prod.mk.injEq] at h
    obtain ⟨_, _, _, m1, _, _, _, hc, _, _, rfl, _⟩ := h
    exact checkHoles_ok hc
  · intro count p0 m1 p1 n hn hcount hloop hv hbefore
    have := checkHoles_first (i := 0) hn hv hbefore
    simp only [Nat.zero_add] at this
    simp [read_sec_elem, hcount, hloop, this, bind, Except.bind]

theorem read_sec_elem_holes_witness :
    read_sec_elem (elemProbe 4) 0 15 = .error (.msg "hole in table at index 3") ∧
    (∀ m' pos', read_sec_elem (elemProbe 3) 0 15 = .ok (m', pos') →
      ∀ e ∈ m'.elements, e.valid = true) ∧
    (∃ m', read_sec_elem (elemProbe 3) 0 15 = .ok (m', 15) ∧ m'.elements.length = 4) :=
  ⟨(read_sec_elem_holes (elemProbe 4) 0 15).2 2 1
      { elemProbe 4 with elements :=
          [⟨true, 0⟩, ⟨true, 0⟩, ⟨true, 0⟩, ⟨false, 0⟩, ⟨true, 0⟩] } 15 3
      (by decide) (by decide) (by decide) (by decide) (by decide),
   (read_sec_elem_holes (elemProbe 3) 0 15).1,
   ⟨_, rfl, by decide⟩⟩

/-! ## C9: at most one table and one memory -/

theorem preserves_single_table_memory :
    Preserves (fun _ => True) (fun m => m.tables.length ≤ 1 ∧ m.memories.length ≤ 1) := by
  refine Preserves.of_updates (fun _ _ h => h) (fun _ _ _ h _ => h) ?_ (fun _ _ _ h _ => h)
    ?_ ?_ (fun _ _ _ h => h) ?_ (fun _ _ _ h => h) (fun _ _ _ h => h) (fun _ _ _ h => h)
    (fun _ _ _ _ h => h) (fun _ _ _ h => h)
  · intro _ i m p m' p' h0 h
    obtain ⟨name, kind, index, h⟩ := read_sec_import_entry_ok h
    rcases h with ⟨-, -, t, -, rfl⟩ | ⟨-, -, ht, l, rfl⟩ | ⟨-, -, ht, l, rfl⟩ | ⟨-, -, rfl⟩
    · exact h0
    · exact ⟨by simp [ht], h0.2⟩
    · exact ⟨h0.1, by simp [ht]⟩
    · exact h0
  · intro _ m l h0 ht
    exact ⟨by simp [ht], h0.2⟩
  · intro _ m l h0 ht
    exact ⟨h0.1, by simp [ht]⟩
  · intro _ i m p m' p' h0 h
    rcases read_sec_export_entry_ok h with rfl | ⟨name, kind, index, rfl⟩ <;> exact h0

theorem bind_eq_error {α β : Type} {x : Except Err α} {f : α → Except Err β} {e : Err} :
    (x >>= f) = .error e ↔ x = .error e ∨ ∃ a, x = .ok a ∧ f a = .error e := by
  cases x <;> simp [bind, Except.bind]

theorem check_eq_error {c : Bool} {msg : String} {e : Err} :
    check c msg = .error e ↔ c = false ∧ e = .msg msg := by
  cases c <;> simp [check, eq_comm]

theorem pure_eq_error {α : Type} {a : α} {e : Err} :
    (pure a : Except Err α) = .error e ↔ False := by
  simp [pure, Except.pure]

theorem readByte_ne_msg (binary : List Nat) (pos : Nat) (s : String) :
    readByte binary pos ≠ .error (.msg s) := by
  unfold readByte; split <;> simp

theorem readLeb_ne_msg (binary : List Nat) (pos : Nat) (s : String) :
    readLeb binary pos ≠ .error (.msg s) :=
  readLebFrom_ne_msg _ _ _ _ s

theorem read_resizable_limits_ne_msg (binary : List Nat) (pos : Nat) (s : String) :
    read_resizable_limits binary pos ≠ .error (.msg s) := by
  intro h
  simp only [read_resizable_limits, bind_eq_error, Prod.exists] at h
  rcases h with h | ⟨b, p1, -, h | ⟨ini, p2, -, h⟩⟩
  · exact readByte_ne_msg _ _ _ h
  · exact readLeb_ne_msg _ _ _ h
  · split at h
    · simp only [bind_eq_error, pure_eq_error, Prod.exists] at h
      rcases h with h | ⟨_, _, _, h⟩
      · exact readLeb_ne_msg _ _ _ h
      · exact h
    · exact pure_eq_error.1 h

/-- C9 (counterexample). A table section met when a table already exists, with
an element type other than anyfunc, fails with "import table is not anyfunc",
not with "multiple tables". -/
theorem multiple_tables_counterexample :
    read_sec_table (tableProbe 0x7f) 0 4 = .error (.msg "import table is not anyfunc") ∧
    read_module twoTables = .error (.msg "import table is not anyfunc") := by
  decide

/-- C9 (amended). Every accepted module has at most one table and at most one
memory.  A memory section, or a memory import whose names and kind byte can be
read, met when a memory already exists fails with "multiple memories".  A table
section or table import met when a table already exists fails with "multiple
tables" provided its element-type byte is anyfunc; that byte is checked first.
When no memory (table) exists yet, a memory (table) section does not fail with
"multiple memories" ("multiple tables"). -/
theorem single_table_memory :
    (∀ bin m, read_module bin = .ok m → m.tables.length ≤ 1 ∧ m.memories.length ≤ 1) ∧
    (∀ m pos sEnd, m.memories ≠ [] →
      read_sec_memory m pos sEnd = .error (.msg "multiple memories")) ∧
    (∀ i m pos moduleName fieldName p1 p2 p3, m.memories ≠ [] →
      readStr m.binary pos = .ok (moduleName, p1) →
      readStr m.binary p1 = .ok (fieldName, p2) →
      readByte m.binary p2 = .ok (external_memory, p3) →
      read_sec_import_entry i (m, pos) = .error (.msg "multiple memories")) ∧
    (∀ m pos sEnd, m.tables ≠ [] → m.binary[pos]? = some type_anyfunc →
      read_sec_table m pos sEnd = .error (.msg "multiple tables")) ∧
    (∀ i m pos moduleName fieldName p1 p2 p3, m.tables ≠ [] →
      readStr m.binary pos = .ok (moduleName, p1) →
      readStr m.binary p1 = .ok (fieldName, p2) →
      readByte m.binary p2 = .ok (external_table, p3) →
      m.binary[p3]? = some type_anyfunc →
      read_sec_import_entry i (m, pos) = .error (.msg "multiple tables")) ∧
    (∀ m pos sEnd, m.memories = [] →
      read_sec_memory m pos sEnd ≠ .error (.msg "multiple memories")) ∧
    (∀ m pos sEnd, m.tables = [] →
      read_sec_table m pos sEnd ≠ .error (.msg "multiple tables")) := by
  refine ⟨?_, ?_, ?_, ?_, ?_, ?_, ?_⟩
  · intro bin m h
    exact read_module_inv preserves_single_table_memory ⟨Nat.zero_le _, Nat.zero_le _⟩ h
  · intro m pos sEnd hm
    have : (m.memories.length == 0) = false := by
      cases hl : m.memories with
      | nil => exact absurd hl hm
      | cons a b => rfl
    simp [read_sec_memory, check, this, bind, Except.bind]
  · intro i m pos moduleName fieldName p1 p2 p3 hm h1 h2 h3
    have : (m.memories.length == 0) = false := by
      cases hl : m.memories with
      | nil => exact absurd hl hm
      | cons a b => rfl
    simp [read_sec_import_entry, h1, h2, h3, check, this, bind, Except.bind,
      external_memory, external_function, external_table]
  · intro m pos sEnd hm hb
    have : (m.tables.length == 0) = false := by
      cases hl : m.tables with
      | nil => exact absurd hl hm
      | cons a b => rfl
    have hb' : readByte m.binary pos = .ok (type_anyfunc, pos + 1) := by simp [readByte, hb]
    simp [read_sec_table, hb', check, this, bind, Except.bind]
  · intro i m pos moduleName fieldName p1 p2 p3 hm h1 h2 h3 hb
    have : (m.tables.length == 0) = false := by
      cases hl : m.tables with
      | nil => exact absurd hl hm
      | cons a b => rfl
    have hb' : readByte m.binary p3 = .ok (type_anyfunc, p3 + 1) := by simp [readByte, hb]
    simp [read_sec_import_entry, h1, h2, h3, hb', check, this, bind, Except.bind,
      external_function, external_table]
  · intro m pos sEnd hm h
    simp only [read_sec_memory, bind_eq_error, check_eq_error, pure_eq_error, Prod.exists,
      Err.msg.injEq] at h
    rcases h with ⟨h, -⟩ | ⟨_, _, h | ⟨l, p, _, h | ⟨_, _, h⟩⟩⟩
    · simp [hm] at h
    · exact read_resizable_limits_ne_msg _ _ _ h
    · exact absurd h.2 (by decide)
    · exact h
  · intro m pos sEnd hm h
    simp only [read_sec_table, bind_eq_error, check_eq_error, pure_eq_error, Prod.exists,
      Err.msg.injEq] at h
    rcases h with h | ⟨_, _, _, h | ⟨_, _, h | ⟨_, _, h | ⟨l, p, _, h | ⟨_, _, h⟩⟩⟩⟩⟩
    · exact readByte_ne_msg _ _ _ h
    · exact absurd h.2 (by decide)
    · simp [hm] at h
    · exact read_resizable_limits_ne_msg _ _ _ h
    · exact absurd h.2 (by decide)
    · exact h

theorem single_table_memory_witness :
    read_module importAndMemory = .error (.msg "multiple memories") ∧
    (∃ m, read_module memoryOnly = .ok m ∧ m.memories.length ≤ 1) ∧
    read_sec_table (tableProbe 0x70) 0 4 = .error (.msg "multiple tables") :=
  ⟨by decide,
   ⟨_, rfl, (single_table_memory.1 memoryOnly _ rfl).2⟩,
   single_table_memory.2.2.2.1 (tableProbe 0x70) 0 4 (by decide) (by decide)⟩

/-! ## C10: unrecognised custom sections are skipped -/

/-- C10. For a custom section (id 0) that fits in the buffer and whose name can
be read, when the name neither starts with `reloc.` nor equals `linking`, the
driver returns the module unchanged and the cursor at the declared end of the
section, whatever the payload bytes are. -/
theorem read_section_skips_custom (m : Module) (pos p1 len p2 p3 : Nat) (name : Name)
    (hid : readByte m.binary pos = .ok (0, p1))
    (hlen : readLeb m.binary p1 = .ok (len, p2))
    (hend : p2 + len ≤ m.binary.length)
    (hname : readStr m.binary p2 = .ok (name, p3))
    (hreloc : (strBytes "reloc.").isPrefixOf name = false)
    (hlinking : name ≠ strBytes "linking") :
    read_section m pos = .ok (m, p2 + len) := by
  have hc : read_custom m p2 (p2 + len) = .ok (m, p3) := by
    simp [read_custom, hname, hreloc, hlinking, bind, Except.bind, pure, Except.pure]
  simp [read_section, hid, hlen, hend, hc, check, num_sections, bind, Except.bind, pure,
    Except.pure]

theorem read_section_skips_custom_witness :
    read_section { binary := nameSection } 8 = .ok ({ binary := nameSection }, 10 + 10) ∧
    read_module nameSection = .ok { binary := nameSection } ∧
    read_sec_name { binary := nameSection } 15 20 =
      .error (.msg "invalid function index in name") :=
  ⟨read_section_skips_custom { binary := nameSection } 8 9 10 10 15 (strBytes "name")
      (by decide) (by decide) (by decide) (by decide) (by decide) (by decide),
   by decide, by decide⟩

/-! ## C7: contiguous data segments -/

theorem u32_add_u32 (a b : Nat) : u32 (u32 a + b) = u32 (a + b) := by
  unfold u32; omega

theorem sizesBefore_cons_succ (seg : DataSegment) (rest : List DataSegment) (k : Nat) :
    sizesBefore (seg :: rest) (k + 1) = seg.size + sizesBefore rest k := by
  simp [sizesBefore]

theorem sizesBefore_zero (segs : List DataSegment) : sizesBefore segs 0 = 0 := by
  simp [sizesBefore]

/-- The contiguity loop succeeds exactly when every offset is the running
`uint32_t` sum. -/
theorem checkContiguous_ok_iff (segs : List DataSegment) : ∀ (start : Nat),
    u32 start = start →
    (checkContiguous segs start = .ok () ↔
      ∀ k (hk : k < segs.length),
        (segs.get ⟨k, hk⟩).offset = u32 (start + sizesBefore segs k)) := by
  induction segs with
  | nil => intro start _; simp [checkContiguous]
  | cons seg rest ih =>
    intro start hs
    simp only [checkContiguous]
    constructor
    · intro h
      split at h
      · next ho =>
        have ih' := (ih (u32 (start + seg.size)) (by unfold u32; omega)).1 h
        intro k hk
        cases k with
        | zero => simp [sizesBefore_zero, hs, ho]
        | succ k =>
          have := ih' k (by simpa using hk)
          simp only [List.get_eq_getElem, List.getElem_cons_succ, sizesBefore_cons_succ] at *
          rw [this, u32_add_u32, Nat.add_assoc]
      · cases h
    · intro h
      have h0 := h 0 (by simp)
      simp only [List.get_eq_getElem, List.getElem_cons_zero, sizesBefore_zero, Nat.add_zero,
        hs] at h0
      rw [if_pos h0]
      apply (ih (u32 (start + seg.size)) (by unfold u32; omega)).2
      intro k hk
      have := h (k + 1) (by simpa using hk)
      simp only [List.get_eq_getElem, List.getElem_cons_succ, sizesBefore_cons_succ] at *
      rw [this, u32_add_u32, Nat.add_assoc]

theorem checkContiguous_error (segs : List DataSegment) : ∀ (start : Nat),
    checkContiguous segs start = .ok () ∨
      checkContiguous segs start = .error (.msg "segments not contiguous") := by
  induction segs with
  | nil => intro start; exact Or.inl rfl
  | cons seg rest ih =>
    intro start
    simp only [checkContiguous]
    split
    · exact ih _
    · exact Or.inr rfl

theorem sizesBefore_le_total (segs : List DataSegment) (k : Nat) :
    sizesBefore segs k ≤ sizesBefore segs segs.length := by
  induction segs generalizing k with
  | nil => simp [sizesBefore]
  | cons seg rest ih =>
    cases k with
    | zero => simp [sizesBefore_zero]
    | succ k =>
      simp only [List.length_cons, sizesBefore_cons_succ]
      have := ih k
      omega

theorem sizesBefore_append_singleton (segs : List DataSegment) (seg : DataSegment) :
    sizesBefore (segs ++ [seg]) (segs ++ [seg]).length =
      sizesBefore segs segs.length + seg.size := by
  simp [sizesBefore]

/-- No section other than a data section changes the data segments. -/
theorem preserves_dataSegments (ds : List DataSegment) :
    Preserves (fun id => id ≠ wasm_sec_data) (fun m => m.dataSegments = ds) := by
  refine Preserves.of_updates (fun _ _ h => h) (fun _ _ _ h _ => h) ?_ (fun _ _ _ h _ => h)
    (fun _ _ _ h _ => h) (fun _ _ _ h _ => h) (fun _ _ _ h => h) ?_ (fun _ _ _ h => h)
    (fun h => absurd rfl h) (fun _ _ _ h => h) (fun _ _ _ _ h => h) (fun _ _ _ h => h)
  · intro _ i m p m' p' h0 h
    obtain ⟨name, kind, index, h⟩ := read_sec_import_entry_ok h
    rcases h with ⟨-, -, t, -, rfl⟩ | ⟨-, -, -, l, rfl⟩ | ⟨-, -, -, l, rfl⟩ | ⟨-, -, rfl⟩ <;>
      exact h0
  · intro _ i m p m' p' h0 h
    rcases read_sec_export_entry_ok h with rfl | ⟨name, kind, index, rfl⟩ <;> exact h0

theorem read_sec_data_inv_pos {m m' : Module} {pos sEnd pos' : Nat}
    (h0 : sizesBefore m.dataSegments m.dataSegments.length ≤ pos)
    (h : read_sec_data m pos sEnd = .ok (m', pos')) : DataInv m' pos' := by
  simp only [read_sec_data, bind_eq_ok, check_eq_ok, pure_eq_ok, Prod.exists,
    Prod.mk.injEq] at h
  obtain ⟨count, q0, hc, m1, q1, hloop, _, hcheck, _, _, rfl, rfl⟩ := h
  have hq0 := readLeb_pos hc
  have key : sizesBefore m1.dataSegments m1.dataSegments.length ≤ q1 :=
    forLoop_inv (fun s => sizesBefore s.1.dataSegments s.1.dataSegments.length ≤ s.2)
      (fun i s s' hs hb => by
        have hb' : read_sec_data_segment i (s.1, s.2) = .ok (s'.1, s'.2) := hb
        obtain ⟨o, sz, p, hp, hp', hm⟩ := read_sec_data_segment_ok hb'
        show sizesBefore s'.1.dataSegments s'.1.dataSegments.length ≤ s'.2
        have hs' : sizesBefore s.1.dataSegments s.1.dataSegments.length ≤ s.2 := hs
        rw [hm, hp']
        simp only
        rw [sizesBefore_append_singleton]
        simp only
        omega)
      count 0 (m, q0) (m1, q1) (by simp only; omega) hloop
  exact ⟨key, hcheck⟩

theorem read_section_dataInv {m m' : Module} {pos pos' : Nat} (h0 : DataInv m pos)
    (h : read_section m pos = .ok (m', pos')) : DataInv m' pos' := by
  have hpos := (read_section_pos h).1
  obtain ⟨id, p1, len, p2, hp, hb, -, hl, rfl, -, hcase⟩ := read_section_ok h
  have hp1 := (readByte_eq_ok.1 hb).2
  have hp2 := readLeb_pos hl
  by_cases hid : id = wasm_sec_data
  · subst hid
    rcases hcase with ⟨-, hs⟩ | ⟨h0', -⟩
    · have hd : read_sec_data _ p2 (p2 + len) = .ok (m', hp) := hs
      have hinv := read_sec_data_inv_pos (by have := h0.1; simp only; omega) hd
      have hend : hp = p2 + len := by
        simp only [read_sec_data, bind_eq_ok, check_eq_ok, pure_eq_ok, Prod.exists,
          Prod.mk.injEq, beq_iff_eq] at hd
        obtain ⟨_, _, _, _, _, _, _, _, _, he, _, he'⟩ := hd
        omega
      rw [hend] at hinv
      exact hinv
    · exact absurd h0' (by decide)
  · have hds : m'.dataSegments = m.dataSegments := by
      rcases hcase with ⟨-, hs⟩ | ⟨h0', hc⟩
      · exact read_standard_inv (preserves_dataSegments m.dataSegments) hid
          (m := { m with sections := m.sections.set id ⟨true, p2, p2 + len⟩ }) rfl hs
      · exact read_custom_inv (preserves_dataSegments m.dataSegments) (by decide) rfl hc
    unfold DataInv
    rw [hds]
    exact ⟨by have := h0.1; omega, h0.2⟩

/-- An invariant of the module and the cursor that every section preserves holds
at the end of the buffer for every module the loop returns. -/
theorem read_module_loop_inv_pos (K : Module → Nat → Prop)
    (hK : ∀ m pos m' pos', K m pos → read_section m pos = .ok (m', pos') → K m' pos') :
    ∀ (fuel : Nat) (m : Module) (pos : Nat) (m' : Module), K m pos →
      read_module_loop fuel m pos = .ok m' → K m' m'.binary.length := by
  intro fuel
  induction fuel with
  | zero =>
    intro m pos m' h0 h
    simp only [read_module_loop] at h
    split at h
    · cases h
    · next he =>
      cases h
      have : pos = m.binary.length := by simpa using he
      exact this ▸ h0
  | succ fuel ih =>
    intro m pos m' h0 h
    simp only [read_module_loop] at h
    split at h
    · split at h
      · cases h
      · next m1 p1 hsec => exact ih m1 p1 m' (hK _ _ _ _ h0 hsec) h
    · next he =>
      cases h
      have : pos = m.binary.length := by simpa using he
      exact this ▸ h0

theorem read_module_dataInv {bin : List Nat} {m : Module} (h : read_module bin = .ok m) :
    DataInv m bin.length := by
  have := read_module_loop_inv_pos DataInv (fun _ _ _ _ => read_section_dataInv)
    bin.length { binary := bin } 8 m ⟨by simp [sizesBefore], rfl⟩ (read_module_ok h).2
  rwa [read_module_binary h] at this

/-- In every accepted module the data segments are contiguous from 0 in
`uint32_t` arithmetic, and exactly so when the buffer is shorter than 2^32 bytes;
segments that fail the `uint32_t` contiguity make `read_sec_data` fail with
"segments not contiguous". -/
theorem data_segments_contiguous :
    (∀ bin m, read_module bin = .ok m →
      Contiguous32 m.dataSegments ∧
      (bin.length < 4294967296 → Contiguous m.dataSegments)) ∧
    (∀ m pos sEnd count p0 m1 p1, readLeb m.binary pos = .ok (count, p0) →
      forLoop read_sec_data_segment 0 count (m, p0) = .ok (m1, p1) →
      ¬ Contiguous32 m1.dataSegments →
      read_sec_data m pos sEnd = .error (.msg "segments not contiguous")) := by
  constructor
  · intro bin m h
    obtain ⟨hsum, hcheck⟩ := read_module_dataInv h
    have h32 : Contiguous32 m.dataSegments := by
      have := (checkContiguous_ok_iff m.dataSegments 0 rfl).1 hcheck
      intro k hk
      simpa using this k hk
    refine ⟨h32, ?_⟩
    intro hlen k hk
    have := h32 k hk
    have hle := sizesBefore_le_total m.dataSegments k
    rw [this]
    unfold u32
    omega
  · intro m pos sEnd count p0 m1 p1 hc hloop hn
    have hne : checkContiguous m1.dataSegments 0 ≠ .ok () := by
      intro hok
      apply hn
      have := (checkContiguous_ok_iff m1.dataSegments 0 rfl).1 hok
      intro k hk
      simpa using this k hk
    rcases checkContiguous_error m1.dataSegments 0 with hok | herr
    · exact absurd hok hne
    · simp [read_sec_data, hc, hloop, herr, bind, Except.bind]

theorem data_segments_contiguous_witness :
    read_sec_data (dataProbe 20) 0 26 = .error (.msg "segments not contiguous") ∧
    (∃ m, read_sec_data (dataProbe 10) 0 26 = .ok (m, 26) ∧ Contiguous m.dataSegments) :=
  ⟨data_segments_contiguous.2 (dataProbe 20) 0 26 2 1
      { dataProbe 20 with dataSegments := [⟨0, 10, 6⟩, ⟨20, 5, 21⟩] } 26
      (by decide) (by decide) (by decide),
   ⟨{ dataProbe 10 with dataSegments := [⟨0, 10, 6⟩, ⟨10, 5, 21⟩] }, by decide, by decide⟩⟩

/-! ### Evaluation on a buffer longer than 2^32 bytes -/

theorem readByte_append_left {P T : List Nat} {k b p : Nat}
    (h : readByte P k = .ok (b, p)) : readByte (P ++ T) k = .ok (b, p) := by
  obtain ⟨h1, rfl⟩ := readByte_eq_ok.1 h
  have hk := (List.getElem?_eq_some_iff.1 h1).1
  exact readByte_eq_ok.2 ⟨by rw [List.getElem?_append_left hk]; exact h1, rfl⟩

theorem readByte_append_right {P R : List Nat} {k b p : Nat}
    (h : readByte R k = .ok (b, p)) :
    readByte (P ++ R) (P.length + k) = .ok (b, P.length + p) := by
  obtain ⟨h1, rfl⟩ := readByte_eq_ok.1 h
  refine readByte_eq_ok.2 ⟨?_, by omega⟩
  rw [List.getElem?_append_right (by omega)]
  simpa using h1

theorem readLebFrom_append {l T : List Nat} : ∀ {pos result shift : Nat} {x : Nat × Nat},
    readLebFrom l pos result shift = .ok x →
    readLebFrom (l ++ T) pos result shift = .ok x := by
  induction l with
  | nil => intro pos result shift x h; simp [readLebFrom] at h
  | cons b rest ih =>
    intro pos result shift x h
    rw [List.cons_append, readLebFrom]
    rw [readLebFrom] at h
    split at h
    · next hb => simp only [if_pos hb]; exact h
    · next hb => simp only [if_neg hb]; exact ih h

theorem readLebFrom_shift {l : List Nat} (d : Nat) : ∀ {pos result shift v p : Nat},
    readLebFrom l pos result shift = .ok (v, p) →
    readLebFrom l (d + pos) result shift = .ok (v, d + p) := by
  induction l with
  | nil => intro pos result shift v p h; simp [readLebFrom] at h
  | cons b rest ih =>
    intro pos result shift v p h
    rw [readLebFrom] at h ⊢
    split at h
    · next hb =>
      simp only [if_pos hb]
      simp only [Except.ok.injEq, Prod.mk.injEq] at h ⊢
      omega
    · next hb => simp only [if_neg hb]; exact ih h

theorem readLeb_append_left {P T : List Nat} {k : Nat} {x : Nat × Nat}
    (h : readLeb P k = .ok x) : readLeb (P ++ T) k = .ok x := by
  unfold readLeb at h ⊢
  by_cases hk : k ≤ P.length
  · rw [List.drop_append_of_le_length hk]
    exact readLebFrom_append h
  · rw [List.drop_eq_nil_of_le (by omega)] at h
    simp [readLebFrom] at h

theorem readLeb_append_right {P R : List Nat} {k v p : Nat}
    (h : readLeb R k = .ok (v, p)) :
    readLeb (P ++ R) (P.length + k) = .ok (v, P.length + p) := by
  unfold readLeb at h ⊢
  rw [List.drop_append]
  exact readLebFrom_shift P.length h

theorem getInitExpr32_append_left {P T : List Nat} {k v p : Nat}
    (h : getInitExpr32 P k = .ok (v, p)) : getInitExpr32 (P ++ T) k = .ok (v, p) := by
  obtain ⟨h1, q, h2, h3, rfl⟩ := getInitExpr32_eq_ok.1 h
  refine getInitExpr32_eq_ok.2 ⟨?_, q, readLeb_append_left h2, ?_, rfl⟩
  · rw [List.getElem?_append_left (List.getElem?_eq_some_iff.1 h1).1]; exact h1
  · rw [List.getElem?_append_left (List.getElem?_eq_some_iff.1 h3).1]; exact h3

theorem getInitExpr32_append_right {P R : List Nat} {k v p : Nat}
    (h : getInitExpr32 R k = .ok (v, p)) :
    getInitExpr32 (P ++ R) (P.length + k) = .ok (v, P.length + p) := by
  obtain ⟨h1, q, h2, h3, rfl⟩ := getInitExpr32_eq_ok.1 h
  refine getInitExpr32_eq_ok.2 ⟨?_, P.length + q, ?_, ?_, by omega⟩
  · rw [List.getElem?_append_right (by omega)]; simpa using h1
  · have := readLeb_append_right (P := P) h2
    rwa [Nat.add_assoc]
  · rw [List.getElem?_append_right (by omega)]; simpa using h3

theorem read_module_loop_step {fuel : Nat} {m m' : Module} {pos pos' : Nat}
    (hne : pos ≠ m.binary.length) (h : read_section m pos = .ok (m', pos')) :
    read_module_loop (fuel + 1) m pos = read_module_loop fuel m' pos' := by
  simp only [read_module_loop, if_pos hne, h]

theorem read_module_loop_done (fuel : Nat) (m : Module) :
    read_module_loop fuel m m.binary.length = .ok m := by
  cases fuel <;> simp [read_module_loop]

theorem wrapData_prefix_length :
    (wrapHead ++ List.replicate wrapPad 0).length = 4294967064 := by
  rw [List.length_append, List.length_replicate]; rfl

theorem wrapData_length : wrapData.length = 4294967339 := by
  unfold wrapData
  rw [List.length_append, wrapData_prefix_length]
  simp only [wrapTail, List.length_append, List.length_replicate, List.length_cons,
    List.length_nil]

theorem wrapData_eq : wrapData = wrapHead ++ (List.replicate wrapPad 0 ++ wrapTail) := by
  unfold wrapData; rw [List.append_assoc]

theorem wrapData_magic : wrapData.take 4 = [0x00, 0x61, 0x73, 0x6d] := by
  rw [wrapData_eq]; rfl

theorem wrapData_head_reads :
    readByte wrapData 8 = .ok (11, 9) ∧
    readLeb wrapData 9 = .ok (4294967050, 14) ∧
    readLeb wrapData 14 = .ok (1, 15) ∧
    readLeb wrapData 15 = .ok (0, 16) ∧
    getInitExpr32 wrapData 16 = .ok (0, 19) ∧
    readLeb wrapData 19 = .ok (4294967040, 24) := by
  rw [wrapData_eq]
  exact ⟨readByte_append_left (by decide), readLeb_append_left (by decide),
    readLeb_append_left (by decide), readLeb_append_left (by decide),
    getInitExpr32_append_left (by decide), readLeb_append_left (by decide)⟩

set_option maxRecDepth 100000 in
theorem wrapData_tail_reads :
    readByte wrapData 4294967064 = .ok (11, 4294967065) ∧
    readLeb wrapData 4294967065 = .ok (272, 4294967067) ∧
    readLeb wrapData 4294967067 = .ok (2, 4294967068) ∧
    readLeb wrapData 4294967068 = .ok (0, 4294967069) ∧
    getInitExpr32 wrapData 4294967069 = .ok (4294967040, 4294967076) ∧
    readLeb wrapData 4294967076 = .ok (256, 4294967078) ∧
    readLeb wrapData 4294967334 = .ok (0, 4294967335) ∧
    getInitExpr32 wrapData 4294967335 = .ok (0, 4294967338) ∧
    readLeb wrapData 4294967338 = .ok (0, 4294967339) := by
  have b1 := readByte_append_right (P := wrapHead ++ List.replicate wrapPad 0)
    (R := wrapTail) (k := 0) (b := 11) (p := 1) (by decide)
  have b2 := readLeb_append_right (P := wrapHead ++ List.replicate wrapPad 0)
    (R := wrapTail) (k := 1) (v := 272) (p := 3) (by decide)
  have b3 := readLeb_append_right (P := wrapHead ++ List.replicate wrapPad 0)
    (R := wrapTail) (k := 3) (v := 2) (p := 4) (by decide)
  have b4 := readLeb_append_right (P := wrapHead ++ List.replicate wrapPad 0)
    (R := wrapTail) (k := 4) (v := 0) (p := 5) (by decide)
  have b5 := getInitExpr32_append_right (P := wrapHead ++ List.replicate wrapPad 0)
    (R := wrapTail) (k := 5) (v := 4294967040) (p := 12) (by decide)
  have b6 := readLeb_append_right (P := wrapHead ++ List.replicate wrapPad 0)
    (R := wrapTail) (k := 12) (v := 256) (p := 14) (by decide)
  have b7 := readLeb_append_right (P := wrapHead ++ List.replicate wrapPad 0)
    (R := wrapTail) (k := 270) (v := 0) (p := 271) (by decide)
  have b8 := getInitExpr32_append_right (P := wrapHead ++ List.replicate wrapPad 0)
    (R := wrapTail) (k := 271) (v := 0) (p := 274) (by decide)
  have b9 := readLeb_append_right (P := wrapHead ++ List.replicate wrapPad 0)
    (R := wrapTail) (k := 274) (v := 0) (p := 275) (by decide)
  rw [wrapData_prefix_length] at b1 b2 b3 b4 b5 b6 b7 b8 b9
  exact ⟨b1, b2, b3, b4, b5, b6, b7, b8, b9⟩

theorem forLoop_succ_ok {σ : Type} {body : Nat → σ → Except Err σ} {i n : Nat} {s s' : σ}
    (h : body i s = .ok s') : forLoop body i (n + 1) s = forLoop body (i + 1) n s' := by
  simp only [forLoop, h]

theorem read_sec_data_segment_eval (i : Nat) (m : Module) (pos p1 offset p2 size p3 : Nat)
    (h1 : readLeb m.binary pos = .ok (0, p1))
    (h2 : getInitExpr32 m.binary p1 = .ok (offset, p2))
    (h3 : readLeb m.binary p2 = .ok (size, p3)) :
    read_sec_data_segment i (m, pos) =
      .ok ({ m with dataSegments := m.dataSegments ++
              [{ offset := offset, size := size, dataBegin := u32 p3 }] }, p3 + size) := by
  simp [read_sec_data_segment, h1, h2, h3, bind, Except.bind, check, pure, Except.pure]

theorem read_sec_data_eval (m r : Module) (pos sEnd count p0 : Nat)
    (h1 : readLeb m.binary pos = .ok (count, p0))
    (h2 : forLoop read_sec_data_segment 0 count (m, p0) = .ok (r, sEnd))
    (h3 : checkContiguous r.dataSegments 0 = .ok ()) :
    read_sec_data m pos sEnd = .ok (r, sEnd) := by
  simp [read_sec_data, h1, h2, h3, bind, Except.bind, check, pure, Except.pure]

theorem read_section_data_eval (m r : Module) (pos p1 len p2 : Nat)
    (h1 : readByte m.binary pos = .ok (wasm_sec_data, p1))
    (h2 : readLeb m.binary p1 = .ok (len, p2))
    (h3 : p2 + len ≤ m.binary.length)
    (h4 : read_sec_data
      { m with sections := m.sections.set wasm_sec_data ⟨true, p2, p2 + len⟩ }
      p2 (p2 + len) = .ok (r, p2 + len)) :
    read_section m pos = .ok (r, p2 + len) := by
  have h5 : read_standard wasm_sec_data
      { m with sections := m.sections.set wasm_sec_data ⟨true, p2, p2 + len⟩ }
      p2 (p2 + len) = .ok (r, p2 + len) := h4
  have h6 : decide (wasm_sec_data < num_sections) = true := by decide
  have h7 : wasm_sec_data ≠ 0 := by decide
  simp [read_section, h1, h2, h3, h5, h6, h7, bind, Except.bind, check, pure, Except.pure]

theorem wrapData_section1 :
    read_section { binary := wrapData } 8 = .ok (wrapModule1, 4294967064) := by
  obtain ⟨a1, a2, a3, a4, a5, a6⟩ := wrapData_head_reads
  refine read_section_data_eval { binary := wrapData } wrapModule1 8 9 4294967050 14 a1 a2
    (by rw [wrapData_length]; decide) ?_
  refine read_sec_data_eval
    { binary := wrapData, sections := (List.replicate 12 {}).set 11 ⟨true, 14, 4294967064⟩ }
    wrapModule1 14 4294967064 1 15 a3 ?_ ?_
  · rw [forLoop_succ_ok (read_sec_data_segment_eval 0
      { binary := wrapData
        sections := (List.replicate 12 {}).set 11 ⟨true, 14, 4294967064⟩ }
      15 16 0 19 4294967040 24 a4 a5 a6)]
    rfl
  · show checkContiguous [⟨0, 4294967040, 24⟩] 0 = .ok ()
    decide

theorem wrapData_section2 :
    read_section wrapModule1 4294967064 = .ok (wrapModule, 4294967339) := by
  obtain ⟨b1, b2, b3, b4, b5, b6, b7, b8, b9⟩ := wrapData_tail_reads
  refine read_section_data_eval wrapModule1 wrapModule 4294967064 4294967065 272 4294967067
    b1 b2 (by rw [show wrapModule1.binary = wrapData from rfl, wrapData_length]) ?_
  refine read_sec_data_eval
    { wrapModule1 with sections := wrapModule1.sections.set 11 ⟨true, 4294967067, 4294967339⟩ }
    wrapModule 4294967067 4294967339 2 4294967068 b3 ?_ ?_
  · rw [forLoop_succ_ok (read_sec_data_segment_eval 0
      { wrapModule1 with
        sections := wrapModule1.sections.set 11 ⟨true, 4294967067, 4294967339⟩ }
      4294967068 4294967069 4294967040 4294967076 256 4294967078 b4 b5 b6)]
    rw [forLoop_succ_ok (read_sec_data_segment_eval 1
      { wrapModule1 with
        sections := wrapModule1.sections.set 11 ⟨true, 4294967067, 4294967339⟩
        dataSegments := wrapModule1.dataSegments ++
          [⟨4294967040, 256, u32 4294967078⟩] }
      4294967334 4294967335 0 4294967338 0 4294967339 b7 b8 b9)]
    rfl
  · show checkContiguous [⟨0, 4294967040, 24⟩, ⟨4294967040, 256, 4294967078 % 4294967296⟩,
        ⟨0, 0, 4294967339 % 4294967296⟩] 0 = .ok ()
    decide

theorem read_module_eval (bin : List Nat) (h1 : 8 ≤ bin.length)
    (h2 : bin.take 4 = [0x00, 0x61, 0x73, 0x6d]) :
    read_module bin = read_module_loop bin.length { binary := bin } 8 := by
  simp [read_module, h1, h2, check, bind, Except.bind]

/-- The buffer `wrapData` is accepted. -/
theorem read_module_wrapData : read_module wrapData = .ok wrapModule := by
  have h0 : (8 : Nat) ≠ ({ binary := wrapData } : Module).binary.length := by
    rw [show ({ binary := wrapData } : Module).binary = wrapData from rfl, wrapData_length]
    decide
  have h1 : (4294967064 : Nat) ≠ wrapModule1.binary.length := by
    rw [show wrapModule1.binary = wrapData from rfl, wrapData_length]
    decide
  have h2 : read_module_loop 4294967337 wrapModule 4294967339 = .ok wrapModule := by
    have := read_module_loop_done 4294967337 wrapModule
    rwa [show wrapModule.binary = wrapData from rfl, wrapData_length] at this
  have hloop : read_module_loop (4294967337 + 1 + 1) { binary := wrapData } 8 =
      .ok wrapModule := by
    rw [read_module_loop_step h0 wrapData_section1, read_module_loop_step h1 wrapData_section2]
    exact h2
  rw [read_module_eval wrapData (by rw [wrapData_length]; decide) wrapData_magic,
    wrapData_length]
  exact hloop

/-- C7 (failing input). The buffer `wrapData` of 4294967339 bytes is accepted
with the data segments `(0, 4294967040)`, `(4294967040, 256)`, `(0, 0)`: the
running sum wraps to 0 after the second segment, so the third segment has
offset 0 while the sizes before it add up to 2^32. -/
theorem data_segments_wrap :
    read_module wrapData = .ok wrapModule ∧
    wrapModule.dataSegments.map (fun s => (s.offset, s.size)) =
      [(0, 4294967040), (4294967040, 256), (0, 0)] ∧
    ¬ Contiguous wrapModule.dataSegments :=
  ⟨read_module_wrapData, by decide, by decide⟩

/-! ## The loop budget is never exhausted -/

theorem bind_eq_fuel {α β : Type} {x : Except Err α} {f : α → Except Err β} :
    (x >>= f) = .error .fuel ↔ x = .error .fuel ∨ ∃ a, x = .ok a ∧ f a = .error .fuel :=
  bind_eq_error

theorem check_ne_fuel (c : Bool) (msg : String) : check c msg ≠ .error .fuel := by
  cases c <;> simp [check]

theorem readByte_ne_fuel (binary : List Nat) (pos : Nat) :
    readByte binary pos ≠ .error .fuel := by
  unfold readByte; split <;> simp

theorem readLebFrom_ne_fuel (l : List Nat) : ∀ (pos result shift : Nat),
    readLebFrom l pos result shift ≠ .error .fuel := by
  induction l with
  | nil => intro pos result shift h; simp [readLebFrom] at h
  | cons b rest ih =>
    intro pos result shift h
    simp only [readLebFrom] at h
    split at h
    · cases h
    · exact ih _ _ _ h

theorem readLeb_ne_fuel (binary : List Nat) (pos : Nat) :
    readLeb binary pos ≠ .error .fuel :=
  readLebFrom_ne_fuel _ _ _ _

theorem readStr_ne_fuel (binary : List Nat) (pos : Nat) :
    readStr binary pos ≠ .error .fuel := by
  intro h
  simp only [readStr, bind_eq_fuel, Prod.exists] at h
  rcases h with h | ⟨_, _, _, h⟩
  · exact readLeb_ne_fuel _ _ h
  · split at h <;> simp [pure, Except.pure, throw, throwThe, MonadExceptOf.throw] at h

theorem getInitExpr32_ne_fuel (binary : List Nat) (pos : Nat) :
    getInitExpr32 binary pos ≠ .error .fuel := by
  intro h
  simp only [getInitExpr32, bind_eq_fuel, Prod.exists, pure_eq_error] at h
  simp [readByte_ne_fuel, readLeb_ne_fuel, check_ne_fuel] at h

theorem read_resizable_limits_ne_fuel (binary : List Nat) (pos : Nat) :
    read_resizable_limits binary pos ≠ .error .fuel := by
  intro h
  simp only [read_resizable_limits, bind_eq_fuel, Prod.exists] at h
  rcases h with h | ⟨b, p1, -, h | ⟨ini, p2, -, h⟩⟩
  · exact readByte_ne_fuel _ _ h
  · exact readLeb_ne_fuel _ _ h
  · split at h
    · simp only [bind_eq_fuel, pure_eq_error, Prod.exists] at h
      rcases h with h | ⟨_, _, _, h⟩
      · exact readLeb_ne_fuel _ _ h
      · exact h
    · exact pure_eq_error.1 h

theorem forLoop_ne_fuel {σ : Type} {body : Nat → σ → Except Err σ}
    (h : ∀ i s, body i s ≠ .error .fuel) :
    ∀ n i s, forLoop body i n s ≠ .error .fuel := by
  intro n
  induction n with
  | zero => intro i s hl; simp [forLoop] at hl
  | succ n ih =>
    intro i s hl
    simp only [forLoop] at hl
    split at hl
    · next e hb =>
      simp only [Except.error.injEq] at hl
      exact h i s (hl ▸ hb)
    · exact ih _ _ hl

theorem pushByte_ne_fuel (binary : List Nat) (j : Nat) (st : List Nat × Nat) :
    pushByte binary j st ≠ .error .fuel := by
  intro h
  simp only [pushByte, bind_eq_fuel, Prod.exists, pure_eq_error] at h
  simp [readByte_ne_fuel] at h

theorem read_sec_type_entry_ne_fuel (i : Nat) (st : Module × Nat) :
    read_sec_type_entry i st ≠ .error .fuel := by
  intro h
  simp only [read_sec_type_entry, bind_eq_fuel, Prod.exists, pure_eq_error] at h
  simp [readByte_ne_fuel, readLeb_ne_fuel, check_ne_fuel,
    forLoop_ne_fuel (pushByte_ne_fuel _)] at h

theorem read_sec_type_ne_fuel (m : Module) (pos sEnd : Nat) :
    read_sec_type m pos sEnd ≠ .error .fuel := by
  intro h
  simp only [read_sec_type, bind_eq_fuel, Prod.exists] at h
  simp [readLeb_ne_fuel, forLoop_ne_fuel read_sec_type_entry_ne_fuel] at h

theorem read_sec_import_entry_ne_fuel (i : Nat) (st : Module × Nat) :
    read_sec_import_entry i st ≠ .error .fuel := by
  intro h
  simp only [read_sec_import_entry, bind_eq_fuel, Prod.exists] at h
  simp only [readStr_ne_fuel, readByte_ne_fuel, false_or] at h
  obtain ⟨_, _, _, _, _, _, _, _, _, h⟩ := h
  split at h
  · simp only [bind_eq_fuel, Prod.exists, pure_eq_error] at h
    simp [readLeb_ne_fuel, check_ne_fuel] at h
  split at h
  · simp only [bind_eq_fuel, Prod.exists, pure_eq_error] at h
    simp [readByte_ne_fuel, check_ne_fuel, read_resizable_limits_ne_fuel] at h
  split at h
  · simp only [bind_eq_fuel, Prod.exists, pure_eq_error] at h
    simp [check_ne_fuel, read_resizable_limits_ne_fuel] at h
  split at h
  · simp only [bind_eq_fuel, Prod.exists, pure_eq_error] at h
    simp [readByte_ne_fuel, check_ne_fuel] at h
  · simp [throw, throwThe, MonadExceptOf.throw] at h

theorem read_sec_import_ne_fuel (m : Module) (pos sEnd : Nat) :
    read_sec_import m pos sEnd ≠ .error .fuel := by
  intro h
  simp only [read_sec_import, bind_eq_fuel, Prod.exists, pure_eq_error] at h
  simp [readLeb_ne_fuel, check_ne_fuel, forLoop_ne_fuel read_sec_import_entry_ne_fuel] at h

theorem read_sec_function_entry_ne_fuel (i : Nat) (st : Module × Nat) :
    read_sec_function_entry i st ≠ .error .fuel := by
  intro h
  simp only [read_sec_function_entry, bind_eq_fuel, Prod.exists, pure_eq_error] at h
  simp [readLeb_ne_fuel, check_ne_fuel] at h

theorem read_sec_function_ne_fuel (m : Module) (pos sEnd : Nat) :
    read_sec_function m pos sEnd ≠ .error .fuel := by
  intro h
  simp only [read_sec_function, bind_eq_fuel, Prod.exists, pure_eq_error] at h
  simp [readLeb_ne_fuel, check_ne_fuel, forLoop_ne_fuel read_sec_function_entry_ne_fuel] at h

theorem read_sec_table_ne_fuel (m : Module) (pos sEnd : Nat) :
    read_sec_table m pos sEnd ≠ .error .fuel := by
  intro h
  simp only [read_sec_table, bind_eq_fuel, Prod.exists, pure_eq_error] at h
  simp [readByte_ne_fuel, check_ne_fuel, read_resizable_limits_ne_fuel] at h

theorem read_sec_memory_ne_fuel (m : Module) (pos sEnd : Nat) :
    read_sec_memory m pos sEnd ≠ .error .fuel := by
  intro h
  simp only [read_sec_memory, bind_eq_fuel, Prod.exists, pure_eq_error] at h
  simp [check_ne_fuel, read_resizable_limits_ne_fuel] at h

theorem read_sec_global_entry_ne_fuel (i : Nat) (st : Module × Nat) :
    read_sec_global_entry i st ≠ .error .fuel := by
  intro h
  simp only [read_sec_global_entry, bind_eq_fuel, Prod.exists, pure_eq_error] at h
  simp [readByte_ne_fuel, check_ne_fuel, getInitExpr32_ne_fuel] at h

theorem read_sec_global_ne_fuel (m : Module) (pos sEnd : Nat) :
    read_sec_global m pos sEnd ≠ .error .fuel := by
  intro h
  simp only [read_sec_global, bind_eq_fuel, Prod.exists, pure_eq_error] at h
  simp [readLeb_ne_fuel, check_ne_fuel, forLoop_ne_fuel read_sec_global_entry_ne_fuel] at h

theorem read_sec_export_entry_ne_fuel (i : Nat) (st : Module × Nat) :
    read_sec_export_entry i st ≠ .error .fuel := by
  intro h
  simp only [read_sec_export_entry, bind_eq_fuel, Prod.exists] at h
  simp only [readStr_ne_fuel, readByte_ne_fuel, readLeb_ne_fuel, false_or] at h
  obtain ⟨_, _, _, _, _, _, _, _, _, h⟩ := h
  split at h
  · simp only [bind_eq_fuel, pure_eq_error] at h
    simp [check_ne_fuel] at h
  split at h
  · simp only [bind_eq_fuel, pure_eq_error] at h
    simp [check_ne_fuel] at h
  · simp [pure_eq_error] at h

theorem read_sec_export_ne_fuel (m : Module) (pos sEnd : Nat) :
    read_sec_export m pos sEnd ≠ .error .fuel := by
  intro h
  simp only [read_sec_export, bind_eq_fuel, Prod.exists, pure_eq_error] at h
  simp [readLeb_ne_fuel, check_ne_fuel, forLoop_ne_fuel read_sec_export_entry_ne_fuel] at h

theorem read_sec_elem_slot_ne_fuel (o j : Nat) (st : Module × Nat) :
    read_sec_elem_slot o j st ≠ .error .fuel := by
  intro h
  simp only [read_sec_elem_slot, bind_eq_fuel, Prod.exists] at h
  simp only [readLeb_ne_fuel, check_ne_fuel, false_or] at h
  obtain ⟨_, _, _, _, _, h⟩ := h
  revert h
  generalize (if u32 (o + j) ≥ st.1.elements.length
    then resize st.1.elements (u32 (u32 (o + j) + 1)) else st.1.elements) = els
  intro h
  split at h
  · simp [pure_eq_error] at h
  · simp [throw, throwThe, MonadExceptOf.throw] at h

theorem read_sec_elem_segment_ne_fuel (i : Nat) (st : Module × Nat) :
    read_sec_elem_segment i st ≠ .error .fuel := by
  intro h
  simp only [read_sec_elem_segment, bind_eq_fuel, Prod.exists] at h
  simp [readLeb_ne_fuel, check_ne_fuel, getInitExpr32_ne_fuel,
    forLoop_ne_fuel (read_sec_elem_slot_ne_fuel _)] at h

theorem checkHoles_ne_fuel (l : List Element) : ∀ i, checkHoles l i ≠ .error .fuel := by
  induction l with
  | nil => intro i h; cases h
  | cons e rest ih =>
    intro i h
    simp only [checkHoles] at h
    split at h
    · cases h
    · exact ih _ h

theorem read_sec_elem_ne_fuel (m : Module) (pos sEnd : Nat) :
    read_sec_elem m pos sEnd ≠ .error .fuel := by
  intro h
  simp only [read_sec_elem, bind_eq_fuel, Prod.exists, pure_eq_error] at h
  simp [readLeb_ne_fuel, check_ne_fuel, checkHoles_ne_fuel,
    forLoop_ne_fuel read_sec_elem_segment_ne_fuel] at h

theorem read_sec_data_segment_ne_fuel (i : Nat) (st : Module × Nat) :
    read_sec_data_segment i st ≠ .error .fuel := by
  intro h
  simp only [read_sec_data_segment, bind_eq_fuel, Prod.exists, pure_eq_error] at h
  simp [readLeb_ne_fuel, check_ne_fuel, getInitExpr32_ne_fuel] at h

theorem checkContiguous_ne_fuel (l : List DataSegment) :
    ∀ s, checkContiguous l s ≠ .error .fuel := by
  intro s h
  rcases checkContiguous_error l s with h1 | h1 <;> rw [h1] at h <;> cases h

theorem read_sec_data_ne_fuel (m : Module) (pos sEnd : Nat) :
    read_sec_data m pos sEnd ≠ .error .fuel := by
  intro h
  simp only [read_sec_data, bind_eq_fuel, Prod.exists, pure_eq_error] at h
  simp [readLeb_ne_fuel, check_ne_fuel, checkContiguous_ne_fuel,
    forLoop_ne_fuel read_sec_data_segment_ne_fuel] at h

theorem read_standard_ne_fuel (id : Nat) (m : Module) (pos sEnd : Nat) :
    read_standard id m pos sEnd ≠ .error .fuel := by
  unfold read_standard
  by_cases h1 : id = wasm_sec_type
  · rw [if_pos h1]; exact read_sec_type_ne_fuel _ _ _
  rw [if_neg h1]
  by_cases h2 : id = wasm_sec_import
  · rw [if_pos h2]; exact read_sec_import_ne_fuel _ _ _
  rw [if_neg h2]
  by_cases h3 : id = wasm_sec_function
  · rw [if_pos h3]; exact read_sec_function_ne_fuel _ _ _
  rw [if_neg h3]
  by_cases h4 : id = wasm_sec_table
  · rw [if_pos h4]; exact read_sec_table_ne_fuel _ _ _
  rw [if_neg h4]
  by_cases h5 : id = wasm_sec_memory
  · rw [if_pos h5]; exact read_sec_memory_ne_fuel _ _ _
  rw [if_neg h5]
  by_cases h6 : id = wasm_sec_global
  · rw [if_pos h6]; exact read_sec_global_ne_fuel _ _ _
  rw [if_neg h6]
  by_cases h7 : id = wasm_sec_export
  · rw [if_pos h7]; exact read_sec_export_ne_fuel _ _ _
  rw [if_neg h7]
  by_cases h8 : id = wasm_sec_start
  · rw [if_pos h8]; simp [read_sec_start, throw, throwThe, MonadExceptOf.throw]
  rw [if_neg h8]
  by_cases h9 : id = wasm_sec_elem
  · rw [if_pos h9]; exact read_sec_elem_ne_fuel _ _ _
  rw [if_neg h9]
  by_cases h10 : id = wasm_sec_code
  · rw [if_pos h10]; simp [read_sec_code, pure, Except.pure]
  rw [if_neg h10]
  by_cases h11 : id = wasm_sec_data
  · rw [if_pos h11]; exact read_sec_data_ne_fuel _ _ _
  rw [if_neg h11]
  simp

theorem read_reloc_entry_ne_fuel (sid i : Nat) (st : Module × Nat) :
    read_reloc_entry sid i st ≠ .error .fuel := by
  intro h
  simp only [read_reloc_entry, bind_eq_fuel, Prod.exists] at h
  simp only [readLeb_ne_fuel, false_or] at h
  obtain ⟨_, _, _, _, _, _, _, _, _, h⟩ := h
  split at h
  · simp only [bind_eq_fuel, Prod.exists, pure_eq_error] at h
    simp [readLeb_ne_fuel] at h
  · simp [pure_eq_error] at h

theorem read_reloc_ne_fuel (m : Module) (name : Name) (pos sEnd : Nat) :
    read_reloc m name pos sEnd ≠ .error .fuel := by
  intro h
  simp only [read_reloc, bind_eq_fuel, Prod.exists, pure_eq_error] at h
  simp [readLeb_ne_fuel, check_ne_fuel, forLoop_ne_fuel (read_reloc_entry_ne_fuel _)] at h

theorem read_linking_symbol_ne_fuel (i : Nat) (st : Module × Nat) :
    read_linking_symbol i st ≠ .error .fuel := by
  intro h
  simp only [read_linking_symbol, bind_eq_fuel, Prod.exists, pure_eq_error] at h
  simp [readLeb_ne_fuel, readStr_ne_fuel] at h

theorem read_linking_segment_ne_fuel (i : Nat) (st : Module × Nat) :
    read_linking_segment i st ≠ .error .fuel := by
  intro h
  simp only [read_linking_segment, bind_eq_fuel, Prod.exists, pure_eq_error] at h
  simp [readLeb_ne_fuel, readStr_ne_fuel] at h

/-- A counted loop whose body does not move the cursor backwards does not move
it backwards. -/
theorem forLoop_pos_le {body : Nat → Module × Nat → Except Err (Module × Nat)}
    (hb : ∀ i m p m' p', body i (m, p) = .ok (m', p') → p ≤ p')
    {n i : Nat} {m m' : Module} {p p' : Nat}
    (h : forLoop body i n (m, p) = .ok (m', p')) : p ≤ p' :=
  forLoop_inv (fun s => p ≤ s.2)
    (fun i s s' hs hbody => Nat.le_trans hs (hb i s.1 s.2 s'.1 s'.2 hbody))
    n i (m, p) (m', p') (Nat.le_refl _) h

theorem read_linking_symbol_pos {i : Nat} {m m' : Module} {p p' : Nat}
    (h : read_linking_symbol i (m, p) = .ok (m', p')) : p ≤ p' := by
  simp only [read_linking_symbol, bind_eq_ok, pure_eq_ok, Prod.exists, Prod.mk.injEq] at h
  obtain ⟨_, q1, h1, _, q2, h2, _, rfl⟩ := h
  have := readStr_pos h1
  have := readLeb_pos h2
  omega

theorem read_linking_segment_pos {i : Nat} {m m' : Module} {p p' : Nat}
    (h : read_linking_segment i (m, p) = .ok (m', p')) : p ≤ p' := by
  simp only [read_linking_segment, bind_eq_ok, pure_eq_ok, Prod.exists, Prod.mk.injEq] at h
  obtain ⟨_, q1, h1, _, q2, h2, _, q3, h3, _, rfl⟩ := h
  have := readStr_pos h1
  have := readLeb_pos h2
  have := readLeb_pos h3
  omega

/-- The budget `sEnd - pos` is enough for the loop of `read_linking`. -/
theorem read_linking_loop_ne_fuel (sEnd : Nat) : ∀ (fuel : Nat) (m : Module) (pos : Nat),
    sEnd - pos ≤ fuel → read_linking_loop sEnd fuel m pos ≠ .error .fuel := by
  intro fuel
  induction fuel with
  | zero =>
    intro m pos hf h
    simp only [read_linking_loop] at h
    split at h
    · omega
    · cases h
  | succ fuel ih =>
    intro m pos hf h
    simp only [read_linking_loop] at h
    split at h
    · simp only [bind_eq_fuel, Prod.exists] at h
      rcases h with h | ⟨type, p1, h1, h | ⟨len, p2, h2, h⟩⟩
      · exact readByte_ne_fuel _ _ h
      · exact readLeb_ne_fuel _ _ h
      · have hp1 := (readByte_eq_ok.1 h1).2
        have hp2 := readLeb_pos h2
        split at h
        · simp only [bind_eq_fuel, Prod.exists] at h
          rcases h with h | ⟨count, p3, h3, h | ⟨m1, p4, h4, h⟩⟩
          · exact readLeb_ne_fuel _ _ h
          · exact forLoop_ne_fuel read_linking_symbol_ne_fuel _ _ _ h
          · have := readLeb_pos h3
            have := forLoop_pos_le (fun i m p m' p' hb => read_linking_symbol_pos hb) h4
            exact ih m1 p4 (by omega) h
        split at h
        · simp only [bind_eq_fuel, Prod.exists] at h
          rcases h with h | ⟨d, p3, h3, h⟩
          · exact readLeb_ne_fuel _ _ h
          · have := readLeb_pos h3
            exact ih _ p3 (by omega) h
        split at h
        · simp only [bind_eq_fuel, Prod.exists] at h
          rcases h with h | ⟨count, p3, h3, h | ⟨m1, p4, h4, h⟩⟩
          · exact readLeb_ne_fuel _ _ h
          · exact forLoop_ne_fuel read_linking_segment_ne_fuel _ _ _ h
          · have := readLeb_pos h3
            have := forLoop_pos_le (fun i m p m' p' hb => read_linking_segment_pos hb) h4
            exact ih m1 p4 (by omega) h
        · simp [throw, throwThe, MonadExceptOf.throw] at h
    · cases h

theorem checkExported_ne_fuel (l : List (Name × Symbol)) :
    checkExported l ≠ .error .fuel := by
  induction l with
  | nil => intro h; cases h
  | cons x rest ih =>
    intro h
    obtain ⟨k, s⟩ := x
    simp only [checkExported] at h
    split at h
    · cases h
    · exact ih h

theorem read_linking_ne_fuel (m : Module) (pos sEnd : Nat) :
    read_linking m pos sEnd ≠ .error .fuel := by
  intro h
  simp only [read_linking, bind_eq_fuel, Prod.exists, pure_eq_error] at h
  simp [check_ne_fuel, checkExported_ne_fuel,
    read_linking_loop_ne_fuel sEnd (sEnd - pos) m pos (Nat.le_refl _)] at h

theorem read_custom_ne_fuel (m : Module) (pos sEnd : Nat) :
    read_custom m pos sEnd ≠ .error .fuel := by
  intro h
  simp only [read_custom, bind_eq_fuel, Prod.exists] at h
  rcases h with h | ⟨name, p, -, h⟩
  · exact readStr_ne_fuel _ _ h
  · split at h
    · exact read_reloc_ne_fuel _ _ _ _ h
    split at h
    · exact read_linking_ne_fuel _ _ _ h
    · exact pure_eq_error.1 h

theorem read_section_ne_fuel (m : Module) (pos : Nat) :
    read_section m pos ≠ .error .fuel := by
  intro h
  simp only [read_section, bind_eq_fuel, Prod.exists] at h
  simp only [readByte_ne_fuel, readLeb_ne_fuel, check_ne_fuel, false_or] at h
  obtain ⟨_, _, _, _, _, _, _, _, _, h⟩ := h
  split at h
  · simp only [bind_eq_fuel, pure_eq_error, Prod.exists] at h
    simp [read_standard_ne_fuel] at h
  · simp only [bind_eq_fuel, pure_eq_error, Prod.exists] at h
    simp [read_custom_ne_fuel] at h

/-- The budget of the driver loop is enough whenever it covers the bytes left. -/
theorem read_module_loop_ne_fuel : ∀ (fuel : Nat) (m : Module) (pos : Nat),
    pos ≤ m.binary.length → m.binary.length - pos ≤ fuel →
    read_module_loop fuel m pos ≠ .error .fuel := by
  intro fuel
  induction fuel with
  | zero =>
    intro m pos hle hf h
    simp only [read_module_loop] at h
    split at h
    · next hne => omega
    · cases h
  | succ fuel ih =>
    intro m pos hle hf h
    simp only [read_module_loop] at h
    split at h
    · split at h
      · next e hsec =>
        simp only [Except.error.injEq] at h
        exact read_section_ne_fuel m pos (h ▸ hsec)
      · next m1 p1 hsec =>
        have hp := read_section_pos hsec
        have hb := read_section_binary hsec
        exact ih m1 p1 (by rw [hb]; exact hp.2) (by rw [hb]; omega) h
    · cases h

/-- The embedding of `read_module` never runs out of budget: every outcome is an
outcome of the program. -/
theorem read_module_ne_fuel (bin : List Nat) : read_module bin ≠ .error .fuel := by
  intro h
  simp only [read_module, bind_eq_fuel] at h
  rcases h with h | ⟨_, hc, h⟩
  · exact check_ne_fuel _ _ h
  · have hlen : 8 ≤ bin.length := by
      simp only [check_eq_ok, Bool.and_eq_true, decide_eq_true_eq] at hc
      exact hc.1
    exact read_module_loop_ne_fuel bin.length { binary := bin } 8 hlen (by simp) h

/-! ## C11: a header without sections -/

/-- C11. A buffer of exactly eight bytes that starts with the magic number is
accepted, whatever its version bytes, and the module returned is empty: no
section slot is valid, every list and the symbol table are empty, and the three
counters are 0. -/
theorem read_module_header_only (bin : List Nat) (hlen : bin.length = 8)
    (hmagic : bin.take 4 = [0x00, 0x61, 0x73, 0x6d]) :
    read_module bin = .ok
      { binary := bin,
        sections := List.replicate 12 { valid := false, begin := 0, end_ := 0 },
        imports := [], tables := [], memories := [], numImportedGlobals := 0, globals := [],
        functionTypes := [], numImportedFunctions := 0, functions := [], exports := [],
        elements := [], dataSegments := [], relocs := [], symbols := [], dataSize := 0 } := by
  rw [read_module_eval bin (by omega) hmagic, hlen]
  have := read_module_loop_done 8 { binary := bin }
  simp only [hlen] at this
  exact this

theorem read_module_header_only_witness :
    read_module [0x00, 0x61, 0x73, 0x6d, 0xde, 0xad, 0xbe, 0xef] = .ok
      { binary := [0x00, 0x61, 0x73, 0x6d, 0xde, 0xad, 0xbe, 0xef],
        sections := List.replicate 12 { valid := false, begin := 0, end_ := 0 },
        imports := [], tables := [], memories := [], numImportedGlobals := 0, globals := [],
        functionTypes := [], numImportedFunctions := 0, functions := [], exports := [],
        elements := [], dataSegments := [], relocs := [], symbols := [], dataSize := 0 } :=
  read_module_header_only [0x00, 0x61, 0x73, 0x6d, 0xde, 0xad, 0xbe, 0xef] (by decide) (by decide)

/-! ## C13: at most one return type -/

/-- A failing counted loop fails in the body of one iteration, after the
iterations before it succeeded. -/
theorem forLoop_eq_error {σ : Type} {body : Nat → σ → Except Err σ} {e : Err} :
    ∀ (n i : Nat) (s : σ), forLoop body i n s = .error e ↔
      ∃ k s', k < n ∧ forLoop body i k s = .ok s' ∧ body (i + k) s' = .error e := by
  intro n
  induction n with
  | zero => intro i s; simp [forLoop]
  | succ n ih =>
    intro i s
    constructor
    · intro h
      simp only [forLoop] at h
      split at h
      · next e' hb =>
        cases h
        exact ⟨0, s, Nat.succ_pos _, rfl, hb⟩
      · next s1 hb =>
        obtain ⟨k, s', hk, hl, he⟩ := (ih (i + 1) s1).1 h
        refine ⟨k + 1, s', by omega, ?_, ?_⟩
        · simp only [forLoop, hb]; exact hl
        · rw [show i + (k + 1) = i + 1 + k by omega]; exact he
    · rintro ⟨k, s', hk, hl, he⟩
      cases k with
      | zero =>
        simp only [forLoop, Except.ok.injEq] at hl
        subst hl
        simp only [forLoop]
        rw [Nat.add_zero] at he
        rw [he]
      | succ k =>
        simp only [forLoop] at hl ⊢
        split at hl
        · cases hl
        · next s1 hb =>
          exact (ih (i + 1) s1).2 ⟨k, s', by omega, hl, by
            rw [show i + 1 + k = i + (k + 1) by omega]; exact he⟩

theorem pushByte_length {binary : List Nat} : ∀ (n i : Nat) (acc : List Nat) (p : Nat)
    (l : List Nat) (p' : Nat), forLoop (pushByte binary) i n (acc, p) = .ok (l, p') →
    l.length = acc.length + n := by
  intro n
  induction n with
  | zero =>
    intro i acc p l p' h
    simp only [forLoop, Except.ok.injEq, Prod.mk.injEq] at h
    simp [← h.1]
  | succ n ih =>
    intro i acc p l p' h
    simp only [forLoop] at h
    split at h
    · cases h
    · next s1 hb =>
      simp only [pushByte, bind_eq_ok, pure_eq_ok, Prod.exists] at hb
      obtain ⟨b, q, -, rfl⟩ := hb
      have := ih _ _ _ _ _ h
      simp at this
      omega

theorem pushByte_loop_ne_msg (binary : List Nat) (s : String) (n i : Nat) (st : List Nat × Nat) :
    forLoop (pushByte binary) i n st ≠ .error (.msg s) := by
  intro h
  obtain ⟨k, s', -, -, he⟩ := (forLoop_eq_error n i st).1 h
  simp only [pushByte, bind_eq_error, pure_eq_error, Prod.exists] at he
  rcases he with he | ⟨_, _, _, he⟩
  · exact readByte_ne_msg _ _ _ he
  · exact he

theorem read_sec_type_entry_multiple {i : Nat} {m : Module} {pos : Nat} :
    read_sec_type_entry i (m, pos) = .error (.msg "multiple return types") ↔
      ∃ p1 pc p2 args p3 rc p4 rets p5,
        readByte m.binary pos = .ok (type_func, p1) ∧ readLeb m.binary p1 = .ok (pc, p2) ∧
        forLoop (pushByte m.binary) 0 pc ([], p2) = .ok (args, p3) ∧
        readLeb m.binary p3 = .ok (rc, p4) ∧
        forLoop (pushByte m.binary) 0 rc ([], p4) = .ok (rets, p5) ∧ 2 ≤ rc := by
  constructor
  · intro h
    simp only [read_sec_type_entry, bind_eq_error, check_eq_error, pure_eq_error, Prod.exists,
      Err.msg.injEq] at h
    rcases h with h | ⟨form, p1, h1, h | ⟨_, hf, h | ⟨pc, p2, h2, h | ⟨args, p3, h3,
      h | ⟨rc, p4, h4, h | ⟨rets, p5, h5, h | ⟨_, _, h⟩⟩⟩⟩⟩⟩⟩
    · exact absurd h (readByte_ne_msg _ _ _)
    · exact absurd h.2 (by decide)
    · exact absurd h (readLeb_ne_msg _ _ _)
    · exact absurd h (pushByte_loop_ne_msg _ _ _ _ _)
    · exact absurd h (readLeb_ne_msg _ _ _)
    · exact absurd h (pushByte_loop_ne_msg _ _ _ _ _)
    · have hfe : form = type_func := by
        simpa [check_eq_ok] using hf
      subst hfe
      have hl := pushByte_length _ _ _ _ _ _ h5
      simp only [decide_eq_false_iff_not, List.length_nil, Nat.zero_add] at h hl
      exact ⟨p1, pc, p2, args, p3, rc, p4, rets, p5, h1, h2, h3, h4, h5, by omega⟩
    · exact h.elim
  · rintro ⟨p1, pc, p2, args, p3, rc, p4, rets, p5, h1, h2, h3, h4, h5, hrc⟩
    have hl := pushByte_length _ _ _ _ _ _ h5
    simp only [List.length_nil, Nat.zero_add] at hl
    have : decide (rets.length ≤ 1) = false := by simp; omega
    simp [read_sec_type_entry, h1, h2, h3, h4, h5, check, this, bind, Except.bind]

theorem read_sec_type_entry_single {i : Nat} {m : Module} {pos p1 pc p2 p3 rc p4 p5 : Nat}
    {args rets : List Nat}
    (h1 : readByte m.binary pos = .ok (type_func, p1)) (h2 : readLeb m.binary p1 = .ok (pc, p2))
    (h3 : forLoop (pushByte m.binary) 0 pc ([], p2) = .ok (args, p3))
    (h4 : readLeb m.binary p3 = .ok (rc, p4))
    (h5 : forLoop (pushByte m.binary) 0 rc ([], p4) = .ok (rets, p5)) (hrc : rc ≤ 1) :
    read_sec_type_entry i (m, pos) = .ok
      ({ m with functionTypes := m.functionTypes ++
          [{ argTypes := args, returnTypes := rets }] }, p5) := by
  have hl := pushByte_length _ _ _ _ _ _ h5
  simp only [List.length_nil, Nat.zero_add] at hl
  have : decide (rets.length ≤ 1) = true := by simp; omega
  simp [read_sec_type_entry, h1, h2, h3, h4, h5, check, this, bind, Except.bind, pure,
    Except.pure]

theorem read_sec_type_multiple {m : Module} {pos sEnd : Nat} :
    read_sec_type m pos sEnd = .error (.msg "multiple return types") ↔
      ∃ count p0 k mk pk, readLeb m.binary pos = .ok (count, p0) ∧ k < count ∧
        forLoop read_sec_type_entry 0 k (m, p0) = .ok (mk, pk) ∧
        read_sec_type_entry k (mk, pk) = .error (.msg "multiple return types") := by
  simp only [read_sec_type, bind_eq_error, Prod.exists]
  constructor
  · rintro (h | ⟨count, p0, h0, h⟩)
    · exact absurd h (readLeb_ne_msg _ _ _)
    · obtain ⟨k, ⟨mk, pk⟩, hk, hl, he⟩ := (forLoop_eq_error _ _ _).1 h
      rw [Nat.zero_add] at he
      exact ⟨count, p0, k, mk, pk, h0, hk, hl, he⟩
  · rintro ⟨count, p0, k, mk, pk, h0, hk, hl, he⟩
    exact Or.inr ⟨count, p0, h0, (forLoop_eq_error _ _ _).2 ⟨k, (mk, pk), hk, hl, by
      rw [Nat.zero_add]; exact he⟩⟩

theorem preserves_single_return :
    Preserves (fun _ => True) (fun m => ∀ ft ∈ m.functionTypes, ft.returnTypes.length ≤ 1) := by
  refine Preserves.of_updates (fun _ _ h => h) ?_ ?_ (fun _ _ _ h _ => h)
    (fun _ _ _ h _ => h) (fun _ _ _ h _ => h) (fun _ _ _ h => h) ?_ (fun _ _ _ h => h)
    (fun _ _ _ h => h) (fun _ _ _ h => h) (fun _ _ _ _ h => h) (fun _ _ _ h => h)
  · intro _ m ft h0 hr x hx
    rcases List.mem_append.1 hx with hx | hx
    · exact h0 x hx
    · rw [List.mem_singleton.1 hx]; exact hr
  · intro _ i m p m' p' h0 h
    obtain ⟨name, kind, index, h⟩ := read_sec_import_entry_ok h
    rcases h with ⟨-, -, t, -, rfl⟩ | ⟨-, -, -, l, rfl⟩ | ⟨-, -, -, l, rfl⟩ | ⟨-, -, rfl⟩ <;>
      exact h0
  · intro _ i m p m' p' h0 h
    rcases read_sec_export_entry_ok h with rfl | ⟨name, kind, index, rfl⟩ <;> exact h0

/-- C13. Every function type of an accepted module has at most one return type.
A type entry whose form byte, parameter list and return list can be read fails
with "multiple return types" when its declared return count is 2 or more, and
is appended to the type list when the count is 0 or 1; `read_sec_type_entry`
fails with that message only on such an entry with a count of 2 or more, and
`read_sec_type` fails with it exactly when one of its entries does. -/
theorem single_return_type :
    (∀ bin m, read_module bin = .ok m →
      ∀ ft ∈ m.functionTypes, ft.returnTypes.length ≤ 1) ∧
    (∀ i m pos p1 pc p2 args p3 rc p4 rets p5,
      readByte m.binary pos = .ok (type_func, p1) → readLeb m.binary p1 = .ok (pc, p2) →
      forLoop (pushByte m.binary) 0 pc ([], p2) = .ok (args, p3) →
      readLeb m.binary p3 = .ok (rc, p4) →
      forLoop (pushByte m.binary) 0 rc ([], p4) = .ok (rets, p5) →
      (2 ≤ rc → read_sec_type_entry i (m, pos) = .error (.msg "multiple return types")) ∧
      (rc ≤ 1 → read_sec_type_entry i (m, pos) = .ok
        ({ m with functionTypes := m.functionTypes ++
            [{ argTypes := args, returnTypes := rets }] }, p5))) ∧
    (∀ i m pos, read_sec_type_entry i (m, pos) = .error (.msg "multiple return types") →
      ∃ p1 pc p2 args p3 rc p4 rets p5,
        readByte m.binary pos = .ok (type_func, p1) ∧ readLeb m.binary p1 = .ok (pc, p2) ∧
        forLoop (pushByte m.binary) 0 pc ([], p2) = .ok (args, p3) ∧
        readLeb m.binary p3 = .ok (rc, p4) ∧
        forLoop (pushByte m.binary) 0 rc ([], p4) = .ok (rets, p5) ∧ 2 ≤ rc) ∧
    (∀ m pos sEnd, read_sec_type m pos sEnd = .error (.msg "multiple return types") ↔
      ∃ count p0 k mk pk, readLeb m.binary pos = .ok (count, p0) ∧ k < count ∧
        forLoop read_sec_type_entry 0 k (m, p0) = .ok (mk, pk) ∧
        read_sec_type_entry k (mk, pk) = .error (.msg "multiple return types")) := by
  refine ⟨?_, ?_, ?_, ?_⟩
  · intro bin m h
    exact read_module_inv preserves_single_return (fun ft hft => by cases hft) h
  · intro i m pos p1 pc p2 args p3 rc p4 rets p5 h1 h2 h3 h4 h5
    exact ⟨fun hrc => read_sec_type_entry_multiple.2
        ⟨p1, pc, p2, args, p3, rc, p4, rets, p5, h1, h2, h3, h4, h5, hrc⟩,
      fun hrc => read_sec_type_entry_single h1 h2 h3 h4 h5 hrc⟩
  · intro i m pos h
    exact read_sec_type_entry_multiple.1 h
  · intro m pos sEnd
    exact read_sec_type_multiple

theorem single_return_type_witness :
    (∃ m, read_module (wasmHeader ++ typeSection) = .ok m ∧
      ∀ ft ∈ m.functionTypes, ft.returnTypes.length ≤ 1) ∧
    read_sec_type_entry 0 (typeEntryProbe [0x7f, 0x7f], 0) =
      .error (.msg "multiple return types") ∧
    read_sec_type_entry 0 (typeEntryProbe [0x7f], 0) = .ok
      ({ typeEntryProbe [0x7f] with
          functionTypes := [{ argTypes := [], returnTypes := [0x7f] }] }, 4) :=
  ⟨⟨_, rfl, single_return_type.1 (wasmHeader ++ typeSection) _ rfl⟩,
   (single_return_type.2.1 0 (typeEntryProbe [0x7f, 0x7f]) 0 1 0 2 [] 2 2 3 [0x7f, 0x7f] 5
      (by decide) (by decide) (by decide) (by decide) (by decide)).1 (by decide),
   (single_return_type.2.1 0 (typeEntryProbe [0x7f]) 0 1 0 2 [] 2 1 3 [0x7f] 4
      (by decide) (by decide) (by decide) (by decide) (by decide)).2 (by decide)⟩

/-! ## C14: the start section -/

/-- No section handler touches the table of section ranges. -/
theorem read_standard_sections {id : Nat} {m m' : Module} {pos sEnd pos' : Nat}
    (h : read_standard id m pos sEnd = .ok (m', pos')) : m'.sections = m.sections := by
  unfold read_standard at h
  by_cases h1 : id = wasm_sec_type
  · rw [if_pos h1] at h
    refine read_sec_type_inv (fun x => x.sections = m.sections) ?_ rfl h
    intro i a p a' p' h0 hb
    obtain ⟨ft, -, rfl⟩ := read_sec_type_entry_ok hb
    exact h0
  rw [if_neg h1] at h
  by_cases h2 : id = wasm_sec_import
  · rw [if_pos h2] at h
    refine read_sec_import_inv (fun x => x.sections = m.sections) ?_ rfl h
    intro i a p a' p' h0 hb
    obtain ⟨name, kind, index, hb⟩ := read_sec_import_entry_ok hb
    rcases hb with ⟨-, -, t, -, rfl⟩ | ⟨-, -, -, l, rfl⟩ | ⟨-, -, -, l, rfl⟩ | ⟨-, -, rfl⟩ <;>
      exact h0
  rw [if_neg h2] at h
  by_cases h3 : id = wasm_sec_function
  · rw [if_pos h3] at h
    refine read_sec_function_inv (fun x => x.sections = m.sections) ?_ rfl h
    intro i a p a' p' h0 hb
    obtain ⟨t, -, rfl⟩ := read_sec_function_entry_ok hb
    exact h0
  rw [if_neg h3] at h
  by_cases h4 : id = wasm_sec_table
  · rw [if_pos h4] at h
    obtain ⟨-, -, l, rfl⟩ := read_sec_table_ok h
    rfl
  rw [if_neg h4] at h
  by_cases h5 : id = wasm_sec_memory
  · rw [if_pos h5] at h
    obtain ⟨-, -, l, rfl⟩ := read_sec_memory_ok h
    rfl
  rw [if_neg h5] at h
  by_cases h6 : id = wasm_sec_global
  · rw [if_pos h6] at h
    refine read_sec_global_inv (fun x => x.sections = m.sections) ?_ rfl h
    intro i a p a' p' h0 hb
    obtain ⟨v, rfl⟩ := read_sec_global_entry_ok hb
    exact h0
  rw [if_neg h6] at h
  by_cases h7 : id = wasm_sec_export
  · rw [if_pos h7] at h
    refine read_sec_export_inv (fun x => x.sections = m.sections) ?_ rfl h
    intro i a p a' p' h0 hb
    rcases read_sec_export_entry_ok hb with rfl | ⟨name, kind, index, rfl⟩ <;> exact h0
  rw [if_neg h7] at h
  by_cases h8 : id = wasm_sec_start
  · rw [if_pos h8] at h
    simp [read_sec_start, throw_eq_ok] at h
  rw [if_neg h8] at h
  by_cases h9 : id = wasm_sec_elem
  · rw [if_pos h9] at h
    refine read_sec_elem_inv (fun x => x.sections = m.sections) ?_ rfl h
    intro o j a p a' p' h0 hb
    obtain ⟨f, els, -, -, -, rfl⟩ := read_sec_elem_slot_ok hb
    exact h0
  rw [if_neg h9] at h
  by_cases h10 : id = wasm_sec_code
  · rw [if_pos h10] at h
    simp only [read_sec_code, pure_eq_ok, Prod.mk.injEq] at h
    rw [← h.1]
  rw [if_neg h10] at h
  by_cases h11 : id = wasm_sec_data
  · rw [if_pos h11] at h
    refine read_sec_data_inv (fun x => x.sections = m.sections) ?_ rfl h
    intro i a p a' p' h0 hb
    obtain ⟨o, s, q, -, -, rfl⟩ := read_sec_data_segment_ok hb
    exact h0
  rw [if_neg h11] at h
  cases h

theorem read_custom_sections {m m' : Module} {pos sEnd pos' : Nat}
    (h : read_custom m pos sEnd = .ok (m', pos')) : m'.sections = m.sections := by
  simp only [read_custom, bind_eq_ok, Prod.exists] at h
  obtain ⟨name, p, -, h⟩ := h
  split at h
  · refine read_reloc_inv (fun x => x.sections = m.sections) ?_ rfl h
    intro s i a p a' p' h0 hb
    obtain ⟨r, -, -, rfl⟩ := read_reloc_entry_ok hb
    exact h0
  split at h
  · refine read_linking_inv (fun x => x.sections = m.sections) ?_ (fun _ _ h => h) rfl h
    intro i a p a' p' h0 hb
    obtain ⟨name, flags, rfl⟩ := read_linking_symbol_ok hb
    exact h0
  · simp only [pure_eq_ok, Prod.mk.injEq] at h
    rw [← h.1]

/-- The effect of a successful iteration of the driver loop on the table of
section ranges: the slot of a standard section is overwritten with the range of
its payload, and nothing else changes. -/
theorem read_section_sections {m m' : Module} {pos pos' : Nat}
    (h : read_section m pos = .ok (m', pos')) :
    ∃ id p1 len p2, readByte m.binary pos = .ok (id, p1) ∧ id < num_sections ∧
      id ≠ wasm_sec_start ∧
      readLeb m.binary p1 = .ok (len, p2) ∧ pos' = p2 + len ∧ pos' ≤ m.binary.length ∧
      m'.sections = (if id ≠ 0
        then m.sections.set id { valid := true, begin := p2, end_ := pos' }
        else m.sections) := by
  obtain ⟨id, p1, len, p2, hp, h1, hid, h2, h3, hle, h | h⟩ := read_section_ok h
  · refine ⟨id, p1, len, p2, h1, hid, ?_, h2, h3, hle, ?_⟩
    · rintro rfl
      have h' := h.2
      simp [read_standard, read_sec_start, throw_eq_ok, wasm_sec_start, wasm_sec_type,
        wasm_sec_import, wasm_sec_function, wasm_sec_table, wasm_sec_memory,
        wasm_sec_global, wasm_sec_export] at h'
    · rw [if_pos h.1, read_standard_sections h.2]
  · refine ⟨id, p1, len, p2, h1, hid, ?_, h2, h3, hle, ?_⟩
    · rw [h.1]; decide
    · rw [if_neg (by simp [h.1]), read_custom_sections h.2]

theorem read_section_start {m : Module} {pos p1 len p2 : Nat}
    (h1 : readByte m.binary pos = .ok (wasm_sec_start, p1))
    (h2 : readLeb m.binary p1 = .ok (len, p2)) (hle : p2 + len ≤ m.binary.length) :
    read_section m pos = .error (.msg "start section unsupported") := by
  simp [read_section, h1, h2, hle, check, bind, Except.bind, read_standard, read_sec_start,
    wasm_sec_start, num_sections, wasm_sec_type,
        wasm_sec_import, wasm_sec_function, wasm_sec_table, wasm_sec_memory,
        wasm_sec_global, wasm_sec_export]

/-- C14. `read_sec_start` fails with "start section unsupported" for every module,
cursor and section end; so does the driver on every section with id 8 whose
frame lies inside the buffer; and in every accepted module the section slot of
id 8 exists and is not valid. -/
theorem start_section_unsupported :
    (∀ m pos sEnd, read_sec_start m pos sEnd = .error (.msg "start section unsupported")) ∧
    (∀ m pos p1 len p2, readByte m.binary pos = .ok (wasm_sec_start, p1) →
      readLeb m.binary p1 = .ok (len, p2) → p2 + len ≤ m.binary.length →
      read_section m pos = .error (.msg "start section unsupported")) ∧
    (∀ bin m, read_module bin = .ok m →
      ∃ s, m.sections[wasm_sec_start]? = some s ∧ s.valid = false) := by
  refine ⟨fun _ _ _ => rfl, fun m pos p1 len p2 => read_section_start, ?_⟩
  intro bin m h
  have key := read_module_loop_inv_pos
    (fun x _ => ∃ s, x.sections[wasm_sec_start]? = some s ∧ s.valid = false) ?_
    bin.length { binary := bin } 8 m ⟨{}, rfl, rfl⟩ (read_module_ok h).2
  · exact key
  · intro a pos a' pos' ⟨s, hs, hv⟩ hsec
    obtain ⟨id, p1, len, p2, -, -, hid, -, -, -, hsecs⟩ := read_section_sections hsec
    refine ⟨s, ?_, hv⟩
    rw [hsecs]
    split
    · rw [List.getElem?_set_ne hid]; exact hs
    · exact hs

theorem start_section_unsupported_witness :
    read_section { binary := startSection } 8 =
      .error (.msg "start section unsupported") ∧
    ∃ m, read_module exportThenLinking = .ok m ∧
      ∃ s, m.sections[wasm_sec_start]? = some s ∧ s.valid = false :=
  ⟨start_section_unsupported.2.1 { binary := startSection } 8 9 0 10 (by decide) (by decide)
     (by decide),
   _, rfl, start_section_unsupported.2.2 exportThenLinking _ rfl⟩

/-! ## C18: type and function indices stay in range -/

theorem resize_valid {v : List Element} {n : Nat} {P : Element → Prop}
    (hv : ∀ e ∈ v, e.valid = true → P e) : ∀ e ∈ resize v n, e.valid = true → P e := by
  intro e he hval
  unfold resize at he
  rcases List.mem_append.1 he with he | he
  · exact hv e (List.mem_of_mem_take he) hval
  · rw [List.eq_of_mem_replicate he] at hval
    cases hval

theorem preserves_indices :
    Preserves (fun _ => True) (fun m =>
      (∀ f ∈ m.functions, f.type < m.functionTypes.length) ∧
      (∀ e ∈ m.elements, e.valid = true → e.fIndex < m.functions.length)) where
  sections := fun _ _ h => h
  typeEntry := fun _ i m p m' p' h0 h => by
    obtain ⟨ft, -, rfl⟩ := read_sec_type_entry_ok h
    refine ⟨fun f hf => ?_, h0.2⟩
    have := h0.1 f hf
    simp only [List.length_append, List.length_singleton]
    omega
  importEntry := fun _ i m p m' p' h0 h => by
    obtain ⟨name, kind, index, h⟩ := read_sec_import_entry_ok h
    rcases h with ⟨-, -, t, ht, rfl⟩ | ⟨-, -, -, l, rfl⟩ | ⟨-, -, -, l, rfl⟩ | ⟨-, -, rfl⟩
    · refine ⟨fun f hf => ?_, fun e he hv => ?_⟩
      · rcases List.mem_append.1 hf with hf | hf
        · exact h0.1 f hf
        · rw [List.mem_singleton.1 hf]; exact ht
      · have := h0.2 e he hv
        simp only [List.length_append, List.length_singleton]
        omega
    · exact h0
    · exact h0
    · exact h0
  functionEntry := fun _ i m p m' p' h0 h => by
    obtain ⟨t, ht, rfl⟩ := read_sec_function_entry_ok h
    refine ⟨fun f hf => ?_, fun e he hv => ?_⟩
    · rcases List.mem_append.1 hf with hf | hf
      · exact h0.1 f hf
      · rw [List.mem_singleton.1 hf]; exact ht
    · have := h0.2 e he hv
      simp only [List.length_append, List.length_singleton]
      omega
  table := fun _ _ _ h _ => h
  memory := fun _ _ _ h _ => h
  globalEntry := fun _ i m p m' p' h0 h => by
    obtain ⟨v, rfl⟩ := read_sec_global_entry_ok h
    exact h0
  exportEntry := fun _ i m p m' p' h0 h => by
    rcases read_sec_export_entry_ok h with rfl | ⟨name, kind, index, rfl⟩ <;> exact h0
  elemSlot := fun _ o j m p m' p' h0 h => by
    obtain ⟨f, els, hf, hels, -, rfl⟩ := read_sec_elem_slot_ok h
    refine ⟨h0.1, fun e he hv => ?_⟩
    rcases List.mem_or_eq_of_mem_set he with he | he
    · have hall : ∀ e ∈ els, e.valid = true → e.fIndex < m.functions.length := by
        rw [hels]
        split
        · exact resize_valid h0.2
        · exact h0.2
      exact hall e he hv
    · rw [he]; exact hf
  dataSegment := fun _ i m p m' p' h0 h => by
    obtain ⟨o, s, q, -, -, rfl⟩ := read_sec_data_segment_ok h
    exact h0
  relocEntry := fun _ s i m p m' p' h0 h => by
    obtain ⟨r, -, -, rfl⟩ := read_reloc_entry_ok h
    exact h0
  linkingSymbol := fun _ i m p m' p' h0 h => by
    obtain ⟨name, flags, rfl⟩ := read_linking_symbol_ok h
    exact h0
  dataSize := fun _ _ _ h => h

/-- C18. In every accepted module each function has a type index below the number
of function types, and each valid element slot holds a function index below the
number of functions.  A function-section entry, and a function import whose
names and kind byte can be read, fails with "function type doesn't exist" when
its type index is not below the number of types read so far. -/
theorem indices_in_range :
    (∀ bin m, read_module bin = .ok m →
      (∀ f ∈ m.functions, f.type < m.functionTypes.length) ∧
      (∀ e ∈ m.elements, e.valid = true → e.fIndex < m.functions.length)) ∧
    (∀ i m pos t p, readLeb m.binary pos = .ok (t, p) → m.functionTypes.length ≤ t →
      read_sec_function_entry i (m, pos) = .error (.msg "function type doesn't exist")) ∧
    (∀ i m pos moduleName fieldName p1 p2 p3 t p4,
      readStr m.binary pos = .ok (moduleName, p1) →
      readStr m.binary p1 = .ok (fieldName, p2) →
      readByte m.binary p2 = .ok (external_function, p3) →
      readLeb m.binary p3 = .ok (t, p4) → m.functionTypes.length ≤ t →
      read_sec_import_entry i (m, pos) = .error (.msg "function type doesn't exist")) := by
  refine ⟨?_, ?_, ?_⟩
  · intro bin m h
    exact read_module_inv preserves_indices
      ⟨fun f hf => (by cases hf), fun e he _ => (by cases he)⟩ h
  · intro i m pos t p h1 ht
    have : decide (t < m.functionTypes.length) = false := by simp; omega
    simp [read_sec_function_entry, h1, check, this, bind, Except.bind]
  · intro i m pos moduleName fieldName p1 p2 p3 t p4 h1 h2 h3 h4 ht
    have : decide (t < m.functionTypes.length) = false := by simp; omega
    simp [read_sec_import_entry, h1, h2, h3, h4, check, this, bind, Except.bind,
      external_function]

theorem indices_in_range_witness :
    (∃ m, read_module exportThenLinking = .ok m ∧
      (∀ f ∈ m.functions, f.type < m.functionTypes.length) ∧
      (∀ e ∈ m.elements, e.valid = true → e.fIndex < m.functions.length)) ∧
    read_sec_function_entry 0 (functionProbe, 0) =
      .error (.msg "function type doesn't exist") ∧
    read_sec_import_entry 0 (functionImportProbe, 0) =
      .error (.msg "function type doesn't exist") :=
  ⟨⟨_, rfl, indices_in_range.1 exportThenLinking _ rfl⟩,
   indices_in_range.2.1 0 functionProbe 0 5 1 (by decide) (by decide),
   indices_in_range.2.2 0 functionImportProbe 0 [] [] 1 2 3 5 4 (by decide) (by decide)
     (by decide) (by decide) (by decide)⟩

/-! ## C20: progress of the section loop -/

theorem sectionsDone_le : ∀ (fuel : Nat) (m : Module) (pos : Nat), pos ≤ m.binary.length →
    sectionsDone fuel m pos ≤ (m.binary.length - pos) / 2 := by
  intro fuel
  induction fuel with
  | zero => intro m pos _; simp [sectionsDone]
  | succ fuel ih =>
    intro m pos hle
    simp only [sectionsDone]
    split
    · split
      · exact Nat.zero_le _
      · next m1 p1 hsec =>
        have hp := read_section_pos hsec
        have hb := read_section_binary hsec
        have := ih m1 p1 (by rw [hb]; exact hp.2)
        rw [hb] at this
        omega
    · exact Nat.zero_le _

theorem read_module_loop_budget : ∀ (fuel : Nat) (m : Module) (pos : Nat),
    pos ≤ m.binary.length → (m.binary.length - pos) / 2 < fuel →
    read_module_loop fuel m pos ≠ .error .fuel := by
  intro fuel
  induction fuel with
  | zero => intro m pos _ hf; omega
  | succ fuel ih =>
    intro m pos hle hf h
    simp only [read_module_loop] at h
    split at h
    · split at h
      · next e hsec =>
        simp only [Except.error.injEq] at h
        exact read_section_ne_fuel m pos (h ▸ hsec)
      · next m1 p1 hsec =>
        have hp := read_section_pos hsec
        have hb := read_section_binary hsec
        exact ih m1 p1 (by rw [hb]; exact hp.2) (by rw [hb]; omega) h
    · cases h

theorem read_module_loop_fuel : ∀ (fuel fuel' : Nat) (m : Module) (pos : Nat),
    pos ≤ m.binary.length → (m.binary.length - pos) / 2 < fuel →
    (m.binary.length - pos) / 2 < fuel' →
    read_module_loop fuel m pos = read_module_loop fuel' m pos := by
  intro fuel
  induction fuel with
  | zero => intro fuel' m pos _ hf; omega
  | succ fuel ih =>
    intro fuel' m pos hle hf hf'
    cases fuel' with
    | zero => omega
    | succ fuel' =>
      simp only [read_module_loop]
      split
      · split
        · rfl
        · next m1 p1 hsec =>
          have hp := read_section_pos hsec
          have hb := read_section_binary hsec
          exact ih fuel' m1 p1 (by rw [hb]; exact hp.2) (by rw [hb]; omega)
            (by rw [hb]; omega)
      · rfl

theorem read_section_ranges {m m' : Module} {pos pos' : Nat} (hpos : 8 ≤ pos)
    (h0 : ∀ s ∈ m.sections, s.valid = true →
      8 < s.begin ∧ s.begin ≤ s.end_ ∧ s.end_ ≤ m.binary.length)
    (h : read_section m pos = .ok (m', pos')) :
    8 ≤ pos' ∧ ∀ s ∈ m'.sections, s.valid = true →
      8 < s.begin ∧ s.begin ≤ s.end_ ∧ s.end_ ≤ m'.binary.length := by
  have hp := read_section_pos h
  have hb := read_section_binary h
  obtain ⟨id, p1, len, p2, h1, -, -, h2, h3, hle, hsecs⟩ := read_section_sections h
  refine ⟨by omega, ?_⟩
  rw [hsecs, hb]
  split
  · intro s hs hv
    rcases List.mem_or_eq_of_mem_set hs with hs | hs
    · exact h0 s hs hv
    · have := (readByte_eq_ok.1 h1).2
      have := readLeb_pos h2
      subst hs
      exact ⟨by show 8 < p2; omega, by show p2 ≤ pos'; omega, hle⟩
  · exact h0

/-- C20. An iteration of the section loop that does not fail leaves the cursor at
the declared end of the section, which is strictly beyond the cursor at the
start of the iteration and at most the length of the buffer, whatever cursor
the handler returned.  From a cursor inside the buffer at most
`(length - pos) / 2` iterations run to their end; a budget of one more iteration
is never exhausted, and the outcome does not depend on the budget beyond it.
Every valid section slot of an accepted module has
`8 < begin ≤ end ≤ length`. -/
theorem section_loop_progress :
    (∀ m pos m' pos', read_section m pos = .ok (m', pos') →
      pos < pos' ∧ pos' ≤ m.binary.length ∧
      ∃ id p1 len p2, readByte m.binary pos = .ok (id, p1) ∧
        readLeb m.binary p1 = .ok (len, p2) ∧ pos' = p2 + len) ∧
    (∀ fuel m pos, pos ≤ m.binary.length →
      sectionsDone fuel m pos ≤ (m.binary.length - pos) / 2) ∧
    (∀ bin, 8 ≤ bin.length →
      sectionsDone bin.length { binary := bin } 8 ≤ (bin.length - 8) / 2) ∧
    (∀ fuel m pos, pos ≤ m.binary.length → (m.binary.length - pos) / 2 < fuel →
      read_module_loop fuel m pos ≠ .error .fuel ∧
      read_module_loop fuel m pos =
        read_module_loop ((m.binary.length - pos) / 2 + 1) m pos) ∧
    (∀ bin m, read_module bin = .ok m → ∀ s ∈ m.sections, s.valid = true →
      8 < s.begin ∧ s.begin ≤ s.end_ ∧ s.end_ ≤ bin.length) := by
  refine ⟨?_, sectionsDone_le, ?_, ?_, ?_⟩
  · intro m pos m' pos' h
    have hp := read_section_pos h
    obtain ⟨id, p1, len, p2, _, h1, -, h2, h3, -, -⟩ := read_section_ok h
    exact ⟨by omega, hp.2, id, p1, len, p2, h1, h2, h3⟩
  · intro bin h
    exact sectionsDone_le _ _ _ h
  · intro fuel m pos hle hf
    exact ⟨read_module_loop_budget fuel m pos hle hf,
      read_module_loop_fuel fuel _ m pos hle hf (Nat.lt_succ_self _)⟩
  · intro bin m h
    have hbin := read_module_binary h
    have key := read_module_loop_inv_pos
      (fun x p => 8 ≤ p ∧ ∀ s ∈ x.sections, s.valid = true →
        8 < s.begin ∧ s.begin ≤ s.end_ ∧ s.end_ ≤ x.binary.length)
      (fun a pos a' pos' hK hsec => read_section_ranges hK.1 hK.2 hsec)
      bin.length { binary := bin } 8 m ⟨Nat.le_refl _, ?_⟩ (read_module_ok h).2
    · intro s hs hv
      have := key.2 s hs hv
      rw [hbin] at this
      exact this
    · intro s hs hv
      rw [List.eq_of_mem_replicate hs] at hv
      cases hv

theorem section_loop_progress_witness :
    (∃ m' pos', read_section { binary := exportThenLinking } 8 = .ok (m', pos') ∧
      8 < pos' ∧ pos' ≤ exportThenLinking.length) ∧
    sectionsDone exportThenLinking.length { binary := exportThenLinking } 8 ≤
      (exportThenLinking.length - 8) / 2 ∧
    read_module_loop ((exportThenLinking.length - 8) / 2 + 1)
      { binary := exportThenLinking } 8 ≠ .error .fuel ∧
    (∃ m, read_module exportThenLinking = .ok m ∧ ∀ s ∈ m.sections, s.valid = true →
      8 < s.begin ∧ s.begin ≤ s.end_ ∧ s.end_ ≤ exportThenLinking.length) :=
  ⟨⟨_, _, rfl,
     (section_loop_progress.1 { binary := exportThenLinking } 8 _ _ rfl).1,
     (section_loop_progress.1 { binary := exportThenLinking } 8 _ _ rfl).2.1⟩,
   section_loop_progress.2.2.1 exportThenLinking (by decide),
   (section_loop_progress.2.2.2.1 _ { binary := exportThenLinking } 8 (by decide)
     (by decide)).1,
   ⟨_, rfl, section_loop_progress.2.2.2.2 exportThenLinking _ rfl⟩⟩

/-! ## The symbol table as a sorted map -/

theorem nameLt_irrefl : ∀ a : Name, nameLt a a = false
  | [] => rfl
  | a :: as => by simp [nameLt, nameLt_irrefl as]

theorem nameLt_trans : ∀ {a b c : Name}, nameLt a b = true → nameLt b c = true →
    nameLt a c = true
  | [], [], _, h, _ => by simp [nameLt] at h
  | [], _ :: _, [], _, h => by simp [nameLt] at h
  | [], _ :: _, _ :: _, _, _ => rfl
  | _ :: _, [], _, h, _ => by simp [nameLt] at h
  | _ :: _, _ :: _, [], _, h => by simp [nameLt] at h
  | a :: as, b :: bs, c :: cs, h1, h2 => by
    simp only [nameLt] at h1 h2 ⊢
    by_cases hab : a < b
    · by_cases hbc : b < c
      · rw [if_pos (by omega)]
      · rw [if_neg hbc] at h2
        by_cases hcb : c < b
        · rw [if_pos hcb] at h2; cases h2
        · rw [if_pos (by omega)]
    · rw [if_neg hab] at h1
      by_cases hba : b < a
      · rw [if_pos hba] at h1; cases h1
      · rw [if_neg hba] at h1
        have hab' : a = b := by omega
        subst hab'
        by_cases hbc : a < c
        · rw [if_pos hbc]
        · rw [if_neg hbc] at h2 ⊢
          by_cases hcb : c < a
          · rw [if_pos hcb] at h2; cases h2
          · rw [if_neg hcb] at h2 ⊢
            exact nameLt_trans h1 h2

theorem nameLt_total : ∀ {a b : Name}, nameLt a b = false → a ≠ b → nameLt b a = true
  | [], [], _, h => absurd rfl h
  | [], _ :: _, h, _ => by simp [nameLt] at h
  | _ :: _, [], _, _ => rfl
  | a :: as, b :: bs, h1, h2 => by
    simp only [nameLt] at h1 ⊢
    by_cases hab : a < b
    · rw [if_pos hab] at h1; cases h1
    · rw [if_neg hab] at h1
      by_cases hba : b < a
      · rw [if_pos hba]
      · rw [if_neg hba] at h1 ⊢
        rw [if_neg hab]
        have hab' : a = b := by omega
        subst hab'
        exact nameLt_total h1 (fun h => h2 (by rw [h]))

theorem nameLt_ne {a b : Name} (h : nameLt a b = true) : a ≠ b := by
  rintro rfl
  rw [nameLt_irrefl] at h
  cases h

theorem symbolsUpdate_keys (f : Symbol → Symbol) (name : Name) :
    ∀ (syms : List (Name × Symbol)), ∀ x ∈ symbolsUpdate f name syms,
      x.1 = name ∨ ∃ y ∈ syms, y.1 = x.1 := by
  intro syms
  induction syms with
  | nil =>
    intro x hx
    simp only [symbolsUpdate, List.mem_singleton] at hx
    exact Or.inl (by rw [hx])
  | cons hd rest ih =>
    obtain ⟨k, s⟩ := hd
    intro x hx
    simp only [symbolsUpdate] at hx
    split at hx
    · next hk =>
      rcases List.mem_cons.1 hx with hx | hx
      · exact Or.inl (by rw [hx, hk])
      · exact Or.inr ⟨x, List.mem_cons_of_mem _ hx, rfl⟩
    · split at hx
      · rcases List.mem_cons.1 hx with hx | hx
        · exact Or.inl (by rw [hx])
        · exact Or.inr ⟨x, hx, rfl⟩
      · rcases List.mem_cons.1 hx with hx | hx
        · exact Or.inr ⟨(k, s), List.mem_cons_self _ _, by rw [hx]⟩
        · rcases ih x hx with h | ⟨y, hy, hxy⟩
          · exact Or.inl h
          · exact Or.inr ⟨y, List.mem_cons_of_mem _ hy, hxy⟩

theorem symbolsUpdate_sorted (f : Symbol → Symbol) (name : Name) :
    ∀ (syms : List (Name × Symbol)), SymbolsSorted syms →
      SymbolsSorted (symbolsUpdate f name syms) := by
  intro syms
  induction syms with
  | nil => intro _; simp [symbolsUpdate, SymbolsSorted]
  | cons hd rest ih =>
    obtain ⟨k, s⟩ := hd
    intro h
    unfold SymbolsSorted at h ⊢
    rw [List.pairwise_cons] at h
    simp only [symbolsUpdate]
    split
    · exact List.pairwise_cons.2 ⟨h.1, h.2⟩
    · next hne =>
      split
      · next hlt =>
        refine List.pairwise_cons.2 ⟨?_, List.pairwise_cons.2 h⟩
        intro y hy
        rcases List.mem_cons.1 hy with hy | hy
        · rw [hy]; exact hlt
        · exact nameLt_trans hlt (h.1 y hy)
      · next hnlt =>
        refine List.pairwise_cons.2 ⟨?_, ih h.2⟩
        intro y hy
        rcases symbolsUpdate_keys f name rest y hy with hy | ⟨z, hz, hzy⟩
        · rw [hy]
          exact nameLt_total (by simpa using hnlt) hne
        · rw [← hzy]; exact h.1 z hz

theorem symbolsFind_eq_none {name : Name} : ∀ {syms : List (Name × Symbol)},
    (∀ y ∈ syms, y.1 ≠ name) → symbolsFind name syms = none := by
  intro syms
  induction syms with
  | nil => intro _; rfl
  | cons hd rest ih =>
    obtain ⟨k, s⟩ := hd
    intro h
    simp only [symbolsFind]
    rw [if_neg (fun hk => h (k, s) (List.mem_cons_self _ _) hk.symm)]
    exact ih (fun y hy => h y (List.mem_cons_of_mem _ hy))

/-- After `symbols[name]` is modified, the entry under `name` is the modified old
entry, or the modified default entry when there was none. -/
theorem symbolsFind_update_self (f : Symbol → Symbol) (name : Name) :
    ∀ (syms : List (Name × Symbol)), SymbolsSorted syms →
      symbolsFind name (symbolsUpdate f name syms) =
        some (f ((symbolsFind name syms).getD {})) := by
  intro syms
  induction syms with
  | nil => intro _; simp [symbolsUpdate, symbolsFind]
  | cons hd rest ih =>
    obtain ⟨k, s⟩ := hd
    intro h
    unfold SymbolsSorted at h
    rw [List.pairwise_cons] at h
    simp only [symbolsUpdate]
    split
    · next hk => simp [symbolsFind, hk]
    · next hne =>
      split
      · next hlt =>
        have hnone : symbolsFind name rest = none :=
          symbolsFind_eq_none (fun y hy => (nameLt_ne (nameLt_trans hlt (h.1 y hy))).symm)
        simp [symbolsFind, hne, hnone]
      · simp only [symbolsFind, if_neg hne]
        exact ih h.2

/-- A modification of `symbols[name]` leaves the entries under other names
alone. -/
theorem symbolsFind_update_ne (f : Symbol → Symbol) {name n : Name} (hn : n ≠ name) :
    ∀ (syms : List (Name × Symbol)),
      symbolsFind n (symbolsUpdate f name syms) = symbolsFind n syms := by
  intro syms
  induction syms with
  | nil => simp [symbolsUpdate, symbolsFind, hn]
  | cons hd rest ih =>
    obtain ⟨k, s⟩ := hd
    simp only [symbolsUpdate]
    split
    · next hk => simp [symbolsFind, ← hk, hn]
    · split
      · simp [symbolsFind, hn]
      · simp only [symbolsFind]
        split
        · rfl
        · exact ih

theorem symbolsFind_mem {name : Name} {s : Symbol} : ∀ {syms : List (Name × Symbol)},
    symbolsFind name syms = some s → (name, s) ∈ syms := by
  intro syms
  induction syms with
  | nil => intro h; cases h
  | cons hd rest ih =>
    obtain ⟨k, t⟩ := hd
    intro h
    simp only [symbolsFind] at h
    split at h
    · next hk =>
      cases h
      rw [hk]
      exact List.mem_cons_self _ _
    · exact List.mem_cons_of_mem _ (ih h)

theorem symbolsFind_of_mem {name : Name} {s : Symbol} : ∀ {syms : List (Name × Symbol)},
    SymbolsSorted syms → (name, s) ∈ syms → symbolsFind name syms = some s := by
  intro syms
  induction syms with
  | nil => intro _ h; cases h
  | cons hd rest ih =>
    obtain ⟨k, t⟩ := hd
    intro hs h
    unfold SymbolsSorted at hs
    rw [List.pairwise_cons] at hs
    simp only [symbolsFind]
    rcases List.mem_cons.1 h with h | h
    · cases h
      simp
    · have := nameLt_ne (hs.1 _ h)
      rw [if_neg (fun hk => this hk.symm)]
      exact ih hs.2 h

/-! ## C15: the linking section and the symbol table -/

theorem positionsFrom_append {α : Type} (p : α → Bool) (a : α) : ∀ (l : List α) (i : Nat),
    positionsFrom p i (l ++ [a]) =
      positionsFrom p i l ++ (if p a then [i + l.length] else []) := by
  intro l
  induction l with
  | nil => intro i; simp [positionsFrom]
  | cons b l ih =>
    intro i
    have e : i + 1 + l.length = i + (l.length + 1) := by omega
    rw [List.cons_append]
    simp only [positionsFrom, List.length_cons]
    split
    · rw [ih (i + 1), e]; rfl
    · rw [ih (i + 1), e]

theorem positionsFrom_mem {α : Type} (p : α → Bool) : ∀ (l : List α) (i e : Nat),
    e ∈ positionsFrom p i l ↔ ∃ k, ∃ h : k < l.length, e = i + k ∧ p (l.get ⟨k, h⟩) = true := by
  intro l
  induction l with
  | nil => intro i e; simp [positionsFrom]
  | cons b l ih =>
    intro i e
    simp only [positionsFrom]
    constructor
    · intro h
      split at h
      · next hb =>
        rcases List.mem_cons.1 h with h | h
        · exact ⟨0, by simp, by simpa using h, by simpa using hb⟩
        · obtain ⟨k, hk, he, hp⟩ := (ih (i + 1) e).1 h
          exact ⟨k + 1, by simpa using hk, by omega, by simpa using hp⟩
      · obtain ⟨k, hk, he, hp⟩ := (ih (i + 1) e).1 h
        exact ⟨k + 1, by simpa using hk, by omega, by simpa using hp⟩
    · rintro ⟨k, hk, he, hp⟩
      cases k with
      | zero =>
        have hb : p b = true := by simpa using hp
        rw [if_pos hb]
        exact List.mem_cons.2 (Or.inl (by omega))
      | succ k =>
        have hmem : e ∈ positionsFrom p (i + 1) l :=
          (ih (i + 1) e).2 ⟨k, by simpa using hk, by omega, by simpa using hp⟩
        split
        · exact List.mem_cons_of_mem _ hmem
        · exact hmem

theorem positionsFrom_sorted {α : Type} (p : α → Bool) : ∀ (l : List α) (i : Nat),
    (positionsFrom p i l).Pairwise (fun a b => a < b) := by
  intro l
  induction l with
  | nil => intro i; simp [positionsFrom]
  | cons b l ih =>
    intro i
    simp only [positionsFrom]
    split
    · refine List.pairwise_cons.2 ⟨?_, ih (i + 1)⟩
      intro e he
      obtain ⟨k, _, hk, _⟩ := (positionsFrom_mem p l (i + 1) e).1 he
      omega
    · exact ih (i + 1)

theorem getD_find_update (f : Symbol → Symbol) (name n : Name) (syms : List (Name × Symbol))
    (hs : SymbolsSorted syms) :
    (symbolsFind n (symbolsUpdate f name syms)).getD {} =
      if n = name then f ((symbolsFind name syms).getD {}) else (symbolsFind n syms).getD {} := by
  split
  · next h => subst h; rw [symbolsFind_update_self f n syms hs]; rfl
  · next h => rw [symbolsFind_update_ne f h syms]

theorem map_u32_positions_eq {l : List Nat} (h : ∀ e ∈ l, e < 4294967296) :
    l.map u32 = l := by
  induction l with
  | nil => rfl
  | cons a l ih =>
    simp only [List.map_cons]
    rw [ih (fun e he => h e (List.mem_cons_of_mem _ he))]
    have := h a (List.mem_cons_self _ _)
    simp only [u32]
    rw [Nat.mod_eq_of_lt this]

/-- An update that registers a new import under `name`. -/
theorem refsAgree_import {m : Module} (h0 : RefsAgree m) (name : Name) (imp : Import)
    (hname : imp.name = name) (m' : Module)
    (hsym : m'.symbols = symbolsUpdate
      (fun s => { s with imports := s.imports ++ [u32 m.imports.length] }) name m.symbols)
    (himp : m'.imports = m.imports ++ [imp]) (hexp : m'.exports = m.exports) :
    RefsAgree m' := by
  obtain ⟨hs, h⟩ := h0
  refine ⟨by rw [hsym]; exact symbolsUpdate_sorted _ _ _ hs, fun n => ?_⟩
  have hn := h n
  unfold exportRefs importRefs exportPositions importPositions at hn ⊢
  rw [hsym, himp, hexp, getD_find_update _ _ _ _ hs, positionsFrom_append]
  by_cases hnn : n = name
  · subst hnn
    rw [if_pos rfl]
    simp only [hname, beq_self_eq_true, if_true, List.map_append, List.map_cons, List.map_nil,
      Nat.zero_add]
    exact ⟨hn.1, by rw [hn.2]⟩
  · rw [if_neg hnn]
    have : (imp.name == n) = false := by
      simp only [beq_eq_false_iff_ne, ne_eq, hname]
      exact fun h => hnn h.symm
    simp only [this, Bool.false_eq_true, if_false, List.append_nil]
    exact hn

theorem refsAgree_export {m : Module} (h0 : RefsAgree m) (name : Name) (exp : Export)
    (hname : exp.name = name) (m' : Module)
    (hsym : m'.symbols = symbolsUpdate
      (fun s => { s with exports := s.exports ++ [u32 m.exports.length] }) name m.symbols)
    (hexp : m'.exports = m.exports ++ [exp]) (himp : m'.imports = m.imports) :
    RefsAgree m' := by
  obtain ⟨hs, h⟩ := h0
  refine ⟨by rw [hsym]; exact symbolsUpdate_sorted _ _ _ hs, fun n => ?_⟩
  have hn := h n
  unfold exportRefs importRefs exportPositions importPositions at hn ⊢
  rw [hsym, himp, hexp, getD_find_update _ _ _ _ hs, positionsFrom_append]
  by_cases hnn : n = name
  · subst hnn
    rw [if_pos rfl]
    simp only [hname, beq_self_eq_true, if_true, List.map_append, List.map_cons, List.map_nil,
      Nat.zero_add]
    exact ⟨by rw [hn.1], hn.2⟩
  · rw [if_neg hnn]
    have : (exp.name == n) = false := by
      simp only [beq_eq_false_iff_ne, ne_eq, hname]
      exact fun h => hnn h.symm
    simp only [this, Bool.false_eq_true, if_false, List.append_nil]
    exact hn

theorem preserves_refsAgree : Preserves (fun _ => True) RefsAgree := by
  refine Preserves.of_updates (fun _ _ h => h) (fun _ _ _ h _ => h) ?_ (fun _ _ _ h _ => h)
    (fun _ _ _ h _ => h) (fun _ _ _ h _ => h) (fun _ _ _ h => h) ?_ (fun _ _ _ h => h)
    (fun _ _ _ h => h) (fun _ _ _ h => h) ?_ (fun _ _ _ h => h)
  · intro _ i m p m' p' h0 h
    obtain ⟨name, kind, index, h⟩ := read_sec_import_entry_ok h
    rcases h with ⟨-, -, t, -, rfl⟩ | ⟨-, -, -, l, rfl⟩ | ⟨-, -, -, l, rfl⟩ | ⟨-, -, rfl⟩ <;>
      exact refsAgree_import h0 name _ rfl _ rfl rfl rfl
  · intro _ i m p m' p' h0 h
    rcases read_sec_export_entry_ok h with rfl | ⟨name, kind, index, rfl⟩
    · exact h0
    · exact refsAgree_export h0 name _ rfl _ rfl rfl rfl
  · intro _ m name flags h0
    obtain ⟨hs, h⟩ := h0
    refine ⟨symbolsUpdate_sorted _ _ _ hs, fun n => ?_⟩
    have hn := h n
    unfold exportRefs importRefs exportPositions importPositions at hn ⊢
    show ((symbolsFind n (symbolsUpdate _ name m.symbols)).getD {}).exports = _ ∧
      ((symbolsFind n (symbolsUpdate _ name m.symbols)).getD {}).imports = _
    rw [getD_find_update _ _ _ _ hs]
    split
    · next hnn => subst hnn; exact hn
    · exact hn

theorem positionsFrom_zero_mem {α : Type} (p : α → Bool) (l : List α) (e : Nat) :
    e ∈ positionsFrom p 0 l ↔ ∃ h : e < l.length, p (l.get ⟨e, h⟩) = true := by
  rw [positionsFrom_mem]
  constructor
  · rintro ⟨k, hk, he, hp⟩
    have : e = k := by omega
    subst this
    exact ⟨hk, hp⟩
  · rintro ⟨h, hp⟩
    exact ⟨e, h, by omega, hp⟩

/-- C19 (amended). In every accepted module the symbol table is a sorted map, and
for every name `n` the reference lists `symbols[n].exports` and
`symbols[n].imports` are the ascending lists of the positions of the exports and
of the imports named `n`, each position truncated to `uint32_t`; with at most
2^32 exports (imports) the export (import) reference lists are those position
lists themselves.  A position is listed exactly when it is in range and the
entry there has the name `n`. -/
theorem symbol_refs_agree (bin : List Nat) (m : Module) (h : read_module bin = .ok m) :
    SymbolsSorted m.symbols ∧
    (∀ n, exportRefs m n = (exportPositions m n).map u32 ∧
      importRefs m n = (importPositions m n).map u32) ∧
    (m.exports.length ≤ 4294967296 → ∀ n, exportRefs m n = exportPositions m n) ∧
    (m.imports.length ≤ 4294967296 → ∀ n, importRefs m n = importPositions m n) ∧
    (∀ n, (exportPositions m n).Pairwise (fun a b => a < b) ∧
      (importPositions m n).Pairwise (fun a b => a < b)) ∧
    (∀ n e, e ∈ exportPositions m n ↔
      ∃ h : e < m.exports.length, (m.exports.get ⟨e, h⟩).name = n) ∧
    (∀ n i, i ∈ importPositions m n ↔
      ∃ h : i < m.imports.length, (m.imports.get ⟨i, h⟩).name = n) := by
  have key : RefsAgree m := read_module_inv preserves_refsAgree
    ⟨List.Pairwise.nil, fun n => ⟨rfl, rfl⟩⟩ h
  have hexp : ∀ n e, e ∈ exportPositions m n ↔
      ∃ h : e < m.exports.length, (m.exports.get ⟨e, h⟩).name = n := by
    intro n e
    unfold exportPositions
    rw [positionsFrom_zero_mem]
    simp
  have himp : ∀ n i, i ∈ importPositions m n ↔
      ∃ h : i < m.imports.length, (m.imports.get ⟨i, h⟩).name = n := by
    intro n e
    unfold importPositions
    rw [positionsFrom_zero_mem]
    simp
  refine ⟨key.1, key.2, ?_, ?_, ?_, hexp, himp⟩
  · intro hlen n
    rw [(key.2 n).1]
    apply map_u32_positions_eq
    intro e he
    obtain ⟨h1, _⟩ := (hexp n e).1 he
    omega
  · intro hlen n
    rw [(key.2 n).2]
    apply map_u32_positions_eq
    intro e he
    obtain ⟨h1, _⟩ := (himp n e).1 he
    omega
  · intro n
    exact ⟨positionsFrom_sorted _ _ _, positionsFrom_sorted _ _ _⟩

theorem symbol_refs_agree_witness :
    ∃ m, read_module twoExports = .ok m ∧
      exportRefs m (strBytes "f") = [0, 1] ∧
      (∀ n, exportRefs m n = exportPositions m n) :=
  ⟨_, rfl, rfl, (symbol_refs_agree twoExports _ rfl).2.2.1 (by decide)⟩

/-! ## C17: the stack pointer global -/

theorem globalsAgree_other_import {m : Module} (h0 : GlobalsAgree m) (imp : Import)
    (hk : imp.kind ≠ external_global) (m' : Module)
    (himp : m'.imports = m.imports ++ [imp]) (hg : m'.globals = m.globals) :
    GlobalsAgree m' := by
  unfold GlobalsAgree
  rw [himp, hg]
  refine ⟨fun x hx hxk => ?_, fun i g hi hs => ?_⟩
  · rcases List.mem_append.1 hx with hx | hx
    · exact h0.1 x hx hxk
    · rw [List.mem_singleton.1 hx] at hxk
      exact absurd hxk hk
  · obtain ⟨x, hx, h⟩ := h0.2 i g hi hs
    exact ⟨x, List.mem_append_left _ hx, h⟩

theorem globalsAgree_local {m : Module} (h0 : GlobalsAgree m) (v : Nat) :
    GlobalsAgree { m with globals := m.globals ++ [{ isStack := false, initU32 := v }] } := by
  refine ⟨fun x hx hxk => ?_, fun i g hi hs => ?_⟩
  · obtain ⟨g, hg, h⟩ := h0.1 x hx hxk
    refine ⟨g, ?_, h⟩
    show (m.globals ++ [_])[x.index]? = some g
    rw [List.getElem?_append_left (List.getElem?_eq_some_iff.1 hg).1]
    exact hg
  · have hi' : (m.globals ++ [({ isStack := false, initU32 := v } : Global)])[i]? = some g := hi
    by_cases hlt : i < m.globals.length
    · rw [List.getElem?_append_left hlt] at hi'
      exact h0.2 i g hi' hs
    · rw [List.getElem?_append_right (by omega)] at hi'
      cases hj : i - m.globals.length with
      | zero =>
        rw [hj] at hi'
        simp only [List.getElem?_cons_zero, Option.some.injEq] at hi'
        rw [← hi'] at hs
        cases hs
      | succ j =>
        rw [hj] at hi'
        simp at hi'

theorem globalsAgree_import {m : Module} (h0 : GlobalsAgree m) (name : Name)
    (hlen : m.globals.length < 4294967296) :
    GlobalsAgree { m with
      imports := m.imports ++
        [{ name := name, kind := external_global, index := u32 m.globals.length }]
      globals := m.globals ++
        [{ isStack := name == strBytes "__stack_pointer", initU32 := 0 }] } := by
  have hu : u32 m.globals.length = m.globals.length := Nat.mod_eq_of_lt hlen
  rw [hu]
  refine ⟨fun x hx hxk => ?_, fun i g hi hs => ?_⟩
  · have hx' : x ∈ m.imports ++
        [({ name := name, kind := external_global, index := m.globals.length } : Import)] := hx
    rcases List.mem_append.1 hx' with hx' | hx'
    · obtain ⟨g, hg, h⟩ := h0.1 x hx' hxk
      refine ⟨g, ?_, h⟩
      show (m.globals ++ [_])[x.index]? = some g
      rw [List.getElem?_append_left (List.getElem?_eq_some_iff.1 hg).1]
      exact hg
    · rw [List.mem_singleton.1 hx']
      refine ⟨{ isStack := name == strBytes "__stack_pointer", initU32 := 0 }, ?_, rfl, ?_⟩
      · show (m.globals ++ [_])[m.globals.length]? = _
        rw [List.getElem?_append_right (Nat.le_refl _)]
        simp
      · simp
  · have hi' : (m.globals ++
        [({ isStack := name == strBytes "__stack_pointer", initU32 := 0 } : Global)])[i]? =
          some g := hi
    by_cases hlt : i < m.globals.length
    · rw [List.getElem?_append_left hlt] at hi'
      obtain ⟨x, hx, h⟩ := h0.2 i g hi' hs
      exact ⟨x, List.mem_append_left _ hx, h⟩
    · rw [List.getElem?_append_right (by omega)] at hi'
      cases hj : i - m.globals.length with
      | zero =>
        rw [hj] at hi'
        simp only [List.getElem?_cons_zero, Option.some.injEq] at hi'
        rw [← hi'] at hs
        refine ⟨_, List.mem_append_right _ (List.mem_singleton_self _), rfl, ?_, ?_⟩
        · show m.globals.length = i
          omega
        · simpa using hs
      | succ j =>
        rw [hj] at hi'
        simp at hi'

theorem preserves_globalsAgree :
    Preserves (fun _ => True)
      (fun m => m.globals.length ≤ 4294967296 → GlobalsAgree m) := by
  refine Preserves.of_updates (fun _ _ h => h) (fun _ _ _ h _ => h) ?_ (fun _ _ _ h _ => h)
    (fun _ _ _ h _ => h) (fun _ _ _ h _ => h) ?_ ?_ (fun _ _ _ h => h)
    (fun _ _ _ h => h) (fun _ _ _ h => h) (fun _ _ _ _ h => h) (fun _ _ _ h => h)
  · intro _ i m p m' p' h0 h
    obtain ⟨name, kind, index, h⟩ := read_sec_import_entry_ok h
    rcases h with ⟨hk, -, t, -, rfl⟩ | ⟨hk, -, -, l, rfl⟩ | ⟨hk, -, -, l, rfl⟩ | ⟨hk, hi, rfl⟩
    · intro hl
      exact globalsAgree_other_import (h0 hl) ⟨name, kind, index⟩
        (by show kind ≠ external_global; rw [hk]; decide) _ rfl rfl
    · intro hl
      exact globalsAgree_other_import (h0 hl) ⟨name, kind, index⟩
        (by show kind ≠ external_global; rw [hk]; decide) _ rfl rfl
    · intro hl
      exact globalsAgree_other_import (h0 hl) ⟨name, kind, index⟩
        (by show kind ≠ external_global; rw [hk]; decide) _ rfl rfl
    · intro hl
      have hl' : m.globals.length < 4294967296 := by
        simp only [List.length_append, List.length_singleton] at hl
        omega
      have := globalsAgree_import (h0 (by omega)) name hl'
      rw [hk, hi]
      exact ⟨this.1, this.2⟩
  · intro _ m v h0 hl
    have hl' : m.globals.length ≤ 4294967296 := by
      simp only [List.length_append, List.length_singleton] at hl
      omega
    exact globalsAgree_local (h0 hl') v
  · intro _ i m p m' p' h0 h
    rcases read_sec_export_entry_ok h with rfl | ⟨name, kind, index, rfl⟩ <;> exact h0

theorem preserves_globals_kept (g0 : List Global) :
    Preserves (fun _ => True) (fun m => g0 <+: m.globals) := by
  refine Preserves.of_updates (fun _ _ h => h) (fun _ _ _ h _ => h) ?_ (fun _ _ _ h _ => h)
    (fun _ _ _ h _ => h) (fun _ _ _ h _ => h) ?_ ?_ (fun _ _ _ h => h)
    (fun _ _ _ h => h) (fun _ _ _ h => h) (fun _ _ _ _ h => h) (fun _ _ _ h => h)
  · intro _ i m p m' p' h0 h
    obtain ⟨name, kind, index, h⟩ := read_sec_import_entry_ok h
    rcases h with ⟨-, -, t, -, rfl⟩ | ⟨-, -, -, l, rfl⟩ | ⟨-, -, -, l, rfl⟩ | ⟨-, -, rfl⟩
    · exact h0
    · exact h0
    · exact h0
    · exact h0.trans (List.prefix_append _ _)
  · intro _ m v h0
    exact h0.trans (List.prefix_append _ _)
  · intro _ i m p m' p' h0 h
    rcases read_sec_export_entry_ok h with rfl | ⟨name, kind, index, rfl⟩ <;> exact h0

theorem read_sec_global_entry_decoded {i : Nat} {m m' : Module} {pos pos' : Nat}
    (h : read_sec_global_entry i (m, pos) = .ok (m', pos')) :
    ∃ c, getInitExpr32 m.binary (pos + 2) = .ok (c, pos') ∧
      m' = { m with globals := m.globals ++ [{ isStack := false, initU32 := c }] } := by
  simp only [read_sec_global_entry, bind_eq_ok, check_eq_ok, pure_eq_ok, Prod.exists,
    Prod.mk.injEq] at h
  obtain ⟨vt, p1, h1, _, _, mu, p2, h2, c, p3, h3, hm, hp⟩ := h
  have e1 := (readByte_eq_ok.1 h1).2
  have e2 := (readByte_eq_ok.1 h2).2
  subst e1 e2 hp
  exact ⟨c, h3, hm.symm⟩

/-- C17 (amended). In every accepted module with at most 2^32 globals: global `g`
is marked as the stack pointer exactly when some import of kind global has index
`g` and the name `__stack_pointer`; every import of kind global points at a
global whose initial value is 0; and a global that no import of kind global
points at is not marked as the stack pointer.  An entry of a global section
appends a global that is not marked, with the constant that `getInitExpr32`
decodes from its initialiser, and no section changes a global already in the
list. -/
theorem stack_pointer_global :
    (∀ bin m, read_module bin = .ok m → m.globals.length ≤ 4294967296 →
      (∀ g (hg : g < m.globals.length), (m.globals.get ⟨g, hg⟩).isStack = true ↔
        ∃ imp ∈ m.imports, imp.kind = external_global ∧ imp.index = g ∧
          imp.name = strBytes "__stack_pointer") ∧
      (∀ imp ∈ m.imports, imp.kind = external_global →
        ∃ g, m.globals[imp.index]? = some g ∧ g.initU32 = 0) ∧
      (∀ g (hg : g < m.globals.length),
        (∀ imp ∈ m.imports, imp.kind = external_global → imp.index ≠ g) →
        (m.globals.get ⟨g, hg⟩).isStack = false)) ∧
    (∀ i m pos m' pos', read_sec_global_entry i (m, pos) = .ok (m', pos') →
      ∃ c, getInitExpr32 m.binary (pos + 2) = .ok (c, pos') ∧
        m' = { m with globals := m.globals ++ [{ isStack := false, initU32 := c }] }) ∧
    (∀ m pos m' pos', read_section m pos = .ok (m', pos') → m.globals <+: m'.globals) := by
  refine ⟨?_, fun i m pos m' pos' h => read_sec_global_entry_decoded h, ?_⟩
  · intro bin m h hlen
    have key : GlobalsAgree m := read_module_inv preserves_globalsAgree
      (fun _ => ⟨fun imp himp => (by cases himp), fun i g hi => (by cases hi)⟩) h hlen
    have hiff : ∀ g (hg : g < m.globals.length), (m.globals.get ⟨g, hg⟩).isStack = true ↔
        ∃ imp ∈ m.imports, imp.kind = external_global ∧ imp.index = g ∧
          imp.name = strBytes "__stack_pointer" := by
      intro g hg
      constructor
      · intro hs
        exact key.2 g _ (List.getElem?_eq_getElem hg) hs
      · rintro ⟨imp, himp, hk, hi, hn⟩
        obtain ⟨g', hg', -, hst⟩ := key.1 imp himp hk
        rw [hi, List.getElem?_eq_getElem hg] at hg'
        cases hg'
        exact hst.2 hn
    refine ⟨hiff, ?_, ?_⟩
    · intro imp himp hk
      obtain ⟨g, hg, h0, -⟩ := key.1 imp himp hk
      exact ⟨g, hg, h0⟩
    · intro g hg hno
      cases hs : (m.globals.get ⟨g, hg⟩).isStack with
      | false => rfl
      | true =>
        obtain ⟨imp, himp, hk, hi, -⟩ := (hiff g hg).1 hs
        exact absurd hi (hno imp himp hk)
  · intro m pos m' pos' h
    exact read_section_inv (preserves_globals_kept m.globals) (fun _ _ _ => trivial)
      (List.prefix_refl _) h

theorem stack_pointer_global_witness :
    ∃ m, read_module stackPointerModule = .ok m ∧
      m.globals = [{ isStack := true, initU32 := 0 }, { isStack := false, initU32 := 7 }] ∧
      (∀ g (hg : g < m.globals.length), (m.globals.get ⟨g, hg⟩).isStack = true ↔
        ∃ imp ∈ m.imports, imp.kind = external_global ∧ imp.index = g ∧
          imp.name = strBytes "__stack_pointer") :=
  ⟨_, rfl, rfl, (stack_pointer_global.1 stackPointerModule _ rfl (by decide)).1⟩

/-! ## C16: writes into the element array -/

theorem resize_length (v : List Element) (n : Nat) : (resize v n).length = n := by
  simp only [resize, List.length_append, List.length_take, List.length_replicate]
  omega

theorem resize_getElem_lt (v : List Element) (n k : Nat) (hk : k < v.length) (hn : v.length ≤ n) :
    (resize v n)[k]? = v[k]? := by
  simp only [resize]
  rw [List.take_of_length_le hn, List.getElem?_append_left hk]

theorem read_sec_elem_slot_in_range {o j : Nat} {m : Module} {pos f p : Nat}
    (h1 : readLeb m.binary pos = .ok (f, p)) (hf : f < m.functions.length)
    (hne : u32 (o + j) ≠ 4294967295) :
    ∃ m', read_sec_elem_slot o j (m, pos) = .ok (m', p) ∧
      m'.elements.length = max m.elements.length (u32 (o + j) + 1) ∧
      m'.elements[u32 (o + j)]? = some { valid := true, fIndex := f } ∧
      ∀ k, k ≠ u32 (o + j) → k < m.elements.length → m'.elements[k]? = m.elements[k]? := by
  have hlt : u32 (o + j) < 4294967296 := Nat.mod_lt _ (by decide)
  have hu : u32 (u32 (o + j) + 1) = u32 (o + j) + 1 := Nat.mod_eq_of_lt (by omega)
  have hd : decide (f < m.functions.length) = true := by simpa using hf
  by_cases hge : u32 (o + j) ≥ m.elements.length
  · have hin : u32 (o + j) < (resize m.elements (u32 (o + j) + 1)).length := by
      rw [resize_length]; omega
    refine ⟨{ m with
      elements := (resize m.elements (u32 (o + j) + 1)).set (u32 (o + j)) ⟨true, f⟩ },
      ?_, ?_, ?_, ?_⟩
    · simp only [read_sec_elem_slot, h1, check, hd, bind, Except.bind, if_pos hge, hu,
        ite_true]
      rw [if_pos hin]
      rfl
    · show ((resize m.elements (u32 (o + j) + 1)).set _ _).length = _
      rw [List.length_set, resize_length]
      omega
    · show ((resize m.elements (u32 (o + j) + 1)).set _ _)[_]? = _
      rw [List.getElem?_set_self hin]
    · intro k hk hkl
      show ((resize m.elements (u32 (o + j) + 1)).set _ _)[_]? = _
      rw [List.getElem?_set_ne (Ne.symm hk), resize_getElem_lt _ _ _ hkl (by omega)]
  · have hin : u32 (o + j) < m.elements.length := by omega
    refine ⟨{ m with elements := m.elements.set (u32 (o + j)) ⟨true, f⟩ }, ?_, ?_, ?_, ?_⟩
    · simp only [read_sec_elem_slot, h1, check, hd, bind, Except.bind, if_neg hge, ite_true]
      rw [if_pos hin]
      rfl
    · show (m.elements.set _ _).length = _
      rw [List.length_set]
      omega
    · show (m.elements.set _ _)[_]? = _
      rw [List.getElem?_set_self hin]
    · intro k hk hkl
      show (m.elements.set _ _)[_]? = _
      rw [List.getElem?_set_ne (Ne.symm hk)]

theorem read_sec_elem_slot_wrap {o j : Nat} {m : Module} {pos f p : Nat}
    (h1 : readLeb m.binary pos = .ok (f, p)) (hf : f < m.functions.length)
    (he : u32 (o + j) = 4294967295) (hlen : m.elements.length ≤ 4294967295) :
    read_sec_elem_slot o j (m, pos) = .error .oob := by
  have hd : decide (f < m.functions.length) = true := by simpa using hf
  have hge : 4294967295 ≥ m.elements.length := by omega
  have hz : u32 (4294967295 + 1) = 0 := by decide
  simp only [read_sec_elem_slot, h1, check, hd, bind, Except.bind, he, hz, if_pos hge,
    ite_true]
  have : ¬ (4294967295 < (resize m.elements 0).length) := by
    rw [resize_length]; omega
  rw [if_neg this]
  rfl

/-- C16 (failing input). A slot write whose index `offset + j`, a `uint32_t` sum,
is not 0xFFFFFFFF lands inside the array, grown to `index + 1` slots when it was
shorter: the slot then holds the function index just read, and the other slots
of the old array are unchanged.  At index 0xFFFFFFFF the size `eIndex + 1` wraps
to 0: an array of at most 0xFFFFFFFF slots is resized to no slot at all and the
store falls outside it.  The buffer `elemWrap`, one segment of one slot at base
offset 0xFFFFFFFF, runs into that store. -/
theorem elem_slot_write :
    (∀ o j m pos f p, readLeb m.binary pos = .ok (f, p) → f < m.functions.length →
      u32 (o + j) ≠ 4294967295 →
      ∃ m', read_sec_elem_slot o j (m, pos) = .ok (m', p) ∧
        m'.elements.length = max m.elements.length (u32 (o + j) + 1) ∧
        m'.elements[u32 (o + j)]? = some { valid := true, fIndex := f } ∧
        ∀ k, k ≠ u32 (o + j) → k < m.elements.length → m'.elements[k]? = m.elements[k]?) ∧
    (∀ o j m pos f p, readLeb m.binary pos = .ok (f, p) → f < m.functions.length →
      u32 (o + j) = 4294967295 → m.elements.length ≤ 4294967295 →
      read_sec_elem_slot o j (m, pos) = .error .oob) ∧
    read_sec_elem_slot 4294967295 0 (slotProbe, 0) = .error .oob ∧
    read_module elemWrap = .error .oob ∧
    read_module elemSparse = .error (.msg "hole in table at index 0") :=
  ⟨fun _ _ _ _ _ _ => read_sec_elem_slot_in_range, fun _ _ _ _ _ _ => read_sec_elem_slot_wrap,
    by decide, by decide, by decide⟩

theorem elem_slot_write_witness :
    (∃ m', read_sec_elem_slot 2 1 (slotProbe, 0) = .ok (m', 1) ∧
      m'.elements.length = max slotProbe.elements.length (u32 (2 + 1) + 1) ∧
      m'.elements[u32 (2 + 1)]? = some { valid := true, fIndex := 0 } ∧
      ∀ k, k ≠ u32 (2 + 1) → k < slotProbe.elements.length →
        m'.elements[k]? = slotProbe.elements[k]?) ∧
    read_sec_elem_slot 4294967295 0 (slotProbe, 0) = .error .oob :=
  ⟨elem_slot_write.1 2 1 slotProbe 0 0 1 (by decide) (by decide) (by decide),
   elem_slot_write.2.1 4294967295 0 slotProbe 0 0 1 (by decide) (by decide) (by decide)
     (by decide)⟩

/-! ## C12: the header check and the version field -/

theorem read_module_not_wasm (bin : List Nat)
    (h : bin.length < 8 ∨ bin.take 4 ≠ [0x00, 0x61, 0x73, 0x6d]) :
    read_module bin = .error (.msg "not a wasm file") := by
  have : (decide (bin.length ≥ 8) && bin.take 4 == [0x00, 0x61, 0x73, 0x6d]) = false := by
    rcases h with h | h
    · simp [h]
    · simp [h]
  simp only [read_module, this, check, bind, Except.bind]
  rfl

theorem drop_agree {b1 b2 : List Nat} (hA : AgreeFrom8 b1 b2) {pos : Nat} (hp : 8 ≤ pos) :
    b1.drop pos = b2.drop pos := by
  have : pos = 8 + (pos - 8) := by omega
  rw [this, ← List.drop_drop, ← List.drop_drop, hA.2]

theorem readByte_agree {b1 b2 : List Nat} (hA : AgreeFrom8 b1 b2) {pos : Nat} (hp : 8 ≤ pos) :
    readByte b2 pos = readByte b1 pos := by
  have h1 : b1[pos]? = (b1.drop pos)[0]? := by rw [List.getElem?_drop]; rfl
  have h2 : b2[pos]? = (b2.drop pos)[0]? := by rw [List.getElem?_drop]; rfl
  simp only [readByte, h1, h2, drop_agree hA hp]

theorem readLeb_agree {b1 b2 : List Nat} (hA : AgreeFrom8 b1 b2) {pos : Nat} (hp : 8 ≤ pos) :
    readLeb b2 pos = readLeb b1 pos := by
  simp only [readLeb, drop_agree hA hp]

theorem readStr_agree {b1 b2 : List Nat} (hA : AgreeFrom8 b1 b2) {pos : Nat} (hp : 8 ≤ pos) :
    readStr b2 pos = readStr b1 pos := by
  simp only [readStr, readLeb_agree hA hp]
  cases h : readLeb b1 pos with
  | error e => rfl
  | ok r =>
    obtain ⟨len, p⟩ := r
    have := readLeb_pos h
    simp only [bind, Except.bind, hA.1, drop_agree hA (show 8 ≤ p by omega)]

theorem getInitExpr32_agree {b1 b2 : List Nat} (hA : AgreeFrom8 b1 b2) {pos : Nat}
    (hp : 8 ≤ pos) : getInitExpr32 b2 pos = getInitExpr32 b1 pos := by
  simp only [getInitExpr32, readByte_agree hA hp]
  cases h : readByte b1 pos with
  | error e => rfl
  | ok r =>
    obtain ⟨op, p⟩ := r
    have := (readByte_eq_ok.1 h).2
    simp only [bind, Except.bind]
    cases check (op == 0x41) "init_expr is not i32.const" with
    | error e => rfl
    | ok u =>
      simp only [readLeb_agree hA (show 8 ≤ p by omega)]
      cases h2 : readLeb b1 p with
      | error e => rfl
      | ok r2 =>
        obtain ⟨v, q⟩ := r2
        have := readLeb_pos h2
        simp only [readByte_agree hA (show 8 ≤ q by omega)]

theorem read_resizable_limits_agree {b1 b2 : List Nat} (hA : AgreeFrom8 b1 b2) {pos : Nat}
    (hp : 8 ≤ pos) : read_resizable_limits b2 pos = read_resizable_limits b1 pos := by
  simp only [read_resizable_limits, readByte_agree hA hp]
  cases h : readByte b1 pos with
  | error e => rfl
  | ok r =>
    obtain ⟨b, p⟩ := r
    have := (readByte_eq_ok.1 h).2
    simp only [bind, Except.bind, readLeb_agree hA (show 8 ≤ p by omega)]
    cases h2 : readLeb b1 p with
    | error e => rfl
    | ok r2 =>
      obtain ⟨v, q⟩ := r2
      have := readLeb_pos h2
      simp only [readLeb_agree hA (show 8 ≤ q by omega)]

theorem read_resizable_limits_pos {binary : List Nat} {pos p : Nat} {l : ResizableLimits}
    (h : read_resizable_limits binary pos = .ok (l, p)) : pos ≤ p := by
  simp only [read_resizable_limits, bind_eq_ok, Prod.exists] at h
  obtain ⟨b, p1, h1, ini, p2, h2, h⟩ := h
  have := (readByte_eq_ok.1 h1).2
  have := readLeb_pos h2
  split at h
  · simp only [bind_eq_ok, pure_eq_ok, Prod.exists, Prod.mk.injEq] at h
    obtain ⟨_, p3, h3, _, rfl⟩ := h
    have := readLeb_pos h3
    omega
  · simp only [pure_eq_ok, Prod.mk.injEq] at h
    omega

theorem pushByte_loop_agree {b1 b2 : List Nat} (hA : AgreeFrom8 b1 b2) :
    ∀ (n i : Nat) (acc : List Nat) (pos : Nat), 8 ≤ pos →
      forLoop (pushByte b2) i n (acc, pos) = forLoop (pushByte b1) i n (acc, pos) := by
  intro n
  induction n with
  | zero => intro i acc pos _; rfl
  | succ n ih =>
    intro i acc pos hp
    simp only [forLoop, pushByte, readByte_agree hA hp]
    cases h : readByte b1 pos with
    | error e => rfl
    | ok r =>
      obtain ⟨b, p⟩ := r
      have := (readByte_eq_ok.1 h).2
      simp only [bind, Except.bind, pure, Except.pure]
      exact ih _ _ _ (by omega)

theorem pushByte_loop_pos {binary : List Nat} : ∀ (n i : Nat) (acc : List Nat) (pos : Nat)
    (l : List Nat) (p : Nat), forLoop (pushByte binary) i n (acc, pos) = .ok (l, p) →
    pos ≤ p := by
  intro n
  induction n with
  | zero =>
    intro i acc pos l p h
    simp only [forLoop, Except.ok.injEq, Prod.mk.injEq] at h
    omega
  | succ n ih =>
    intro i acc pos l p h
    simp only [forLoop] at h
    split at h
    · cases h
    · next s1 hb =>
      simp only [pushByte, bind_eq_ok, pure_eq_ok, Prod.exists] at hb
      obtain ⟨b, q, hq, rfl⟩ := hb
      have := (readByte_eq_ok.1 hq).2
      have := ih _ _ _ _ _ h
      omega

theorem localReader_forLoop {b1 b2 : List Nat}
    {body : Nat → Module × Nat → Except Err (Module × Nat)}
    (hb : ∀ i, LocalReader b1 b2 (body i)) :
    ∀ (n i : Nat), LocalReader b1 b2 (fun st => forLoop body i n st) := by
  intro n
  induction n with
  | zero =>
    intro i m pos hp hm
    exact ⟨rfl, fun m' pos' h => by
      simp only [WasmTools.forLoop, Except.ok.injEq, Prod.mk.injEq] at h
      exact ⟨by omega, by rw [← h.1]; exact hm⟩⟩
  | succ n ih =>
    intro i m pos hp hm
    obtain ⟨h1, h2⟩ := hb i m pos hp hm
    simp only [WasmTools.forLoop, h1]
    cases h : body i (m, pos) with
    | error e => exact ⟨rfl, fun m' pos' h' => by cases h'⟩
    | ok r =>
      obtain ⟨m1, p1⟩ := r
      obtain ⟨hp1, hm1⟩ := h2 m1 p1 h
      obtain ⟨h3, h4⟩ := ih (i + 1) m1 p1 (by omega) hm1
      refine ⟨h3, fun m' pos' h' => ?_⟩
      obtain ⟨hp2, hm2⟩ := h4 m' pos' h'
      exact ⟨by omega, hm2⟩

theorem local_type_entry {b1 b2 : List Nat} (hA : AgreeFrom8 b1 b2) (i : Nat) :
    LocalReader b1 b2 (read_sec_type_entry i) := by
  intro m pos hp hm
  subst hm
  simp only [read_sec_type_entry, withBinary, readByte_agree hA hp]
  cases h1 : readByte m.binary pos with
  | error e => exact ⟨rfl, fun _ _ h => by cases h⟩
  | ok r =>
    obtain ⟨form, p1⟩ := r
    have := (readByte_eq_ok.1 h1).2
    simp only [bind, Except.bind]
    cases hc : check (form == type_func) "invalid form in type" with
    | error e => exact ⟨rfl, fun _ _ h => by cases h⟩
    | ok u =>
      simp only [readLeb_agree hA (show 8 ≤ p1 by omega)]
      cases h2 : readLeb m.binary p1 with
      | error e => exact ⟨rfl, fun _ _ h => by cases h⟩
      | ok r =>
        obtain ⟨pc, p2⟩ := r
        have := readLeb_pos h2
        simp only [pushByte_loop_agree hA _ _ _ _ (show 8 ≤ p2 by omega)]
        cases h3 : forLoop (pushByte m.binary) 0 pc ([], p2) with
        | error e => exact ⟨rfl, fun _ _ h => by cases h⟩
        | ok r =>
          obtain ⟨args, p3⟩ := r
          have := pushByte_loop_pos _ _ _ _ _ _ h3
          simp only [readLeb_agree hA (show 8 ≤ p3 by omega)]
          cases h4 : readLeb m.binary p3 with
          | error e => exact ⟨rfl, fun _ _ h => by cases h⟩
          | ok r =>
            obtain ⟨rc, p4⟩ := r
            have := readLeb_pos h4
            simp only [pushByte_loop_agree hA _ _ _ _ (show 8 ≤ p4 by omega)]
            cases h5 : forLoop (pushByte m.binary) 0 rc ([], p4) with
            | error e => exact ⟨rfl, fun _ _ h => by cases h⟩
            | ok r =>
              obtain ⟨rets, p5⟩ := r
              have := pushByte_loop_pos _ _ _ _ _ _ h5
              simp only []
              cases hc2 : check (decide (rets.length ≤ 1)) "multiple return types" with
              | error e => exact ⟨rfl, fun _ _ h => by cases h⟩
              | ok u =>
                refine ⟨rfl, fun m' pos' h => ?_⟩
                simp only [pure, Except.pure, Except.ok.injEq, Prod.mk.injEq] at h
                obtain ⟨rfl, rfl⟩ := h
                exact ⟨by omega, rfl⟩

theorem local_function_entry {b1 b2 : List Nat} (hA : AgreeFrom8 b1 b2) (i : Nat) :
    LocalReader b1 b2 (read_sec_function_entry i) := by
  intro m pos hp hm
  subst hm
  simp only [read_sec_function_entry, withBinary, readLeb_agree hA hp]
  cases h1 : readLeb m.binary pos with
  | error e => exact ⟨rfl, fun _ _ h => by cases h⟩
  | ok r =>
    obtain ⟨t, p1⟩ := r
    have := readLeb_pos h1
    simp only [bind, Except.bind]
    cases hc : check (decide (t < m.functionTypes.length)) "function type doesn't exist" with
    | error e => exact ⟨rfl, fun _ _ h => by cases h⟩
    | ok u =>
      refine ⟨rfl, fun m' pos' h => ?_⟩
      simp only [pure, Except.pure, Except.ok.injEq, Prod.mk.injEq] at h
      obtain ⟨rfl, rfl⟩ := h
      exact ⟨by omega, rfl⟩

theorem local_global_entry {b1 b2 : List Nat} (hA : AgreeFrom8 b1 b2) (i : Nat) :
    LocalReader b1 b2 (read_sec_global_entry i) := by
  intro m pos hp hm
  subst hm
  simp only [read_sec_global_entry, withBinary, readByte_agree hA hp]
  cases h1 : readByte m.binary pos with
  | error e => exact ⟨rfl, fun _ _ h => by cases h⟩
  | ok r =>
    obtain ⟨vt, p1⟩ := r
    have := (readByte_eq_ok.1 h1).2
    simp only [bind, Except.bind]
    cases hc : check (vt == type_i32) "global is not i32" with
    | error e => exact ⟨rfl, fun _ _ h => by cases h⟩
    | ok u =>
      simp only [readByte_agree hA (show 8 ≤ p1 by omega)]
      cases h2 : readByte m.binary p1 with
      | error e => exact ⟨rfl, fun _ _ h => by cases h⟩
      | ok r =>
        obtain ⟨mu, p2⟩ := r
        have := (readByte_eq_ok.1 h2).2
        simp only [getInitExpr32_agree hA (show 8 ≤ p2 by omega)]
        cases h3 : getInitExpr32 m.binary p2 with
        | error e => exact ⟨rfl, fun _ _ h => by cases h⟩
        | ok r =>
          obtain ⟨v, p3⟩ := r
          have := getInitExpr32_pos h3
          refine ⟨rfl, fun m' pos' h => ?_⟩
          simp only [pure, Except.pure, Except.ok.injEq, Prod.mk.injEq] at h
          obtain ⟨rfl, rfl⟩ := h
          exact ⟨by omega, rfl⟩

theorem local_data_segment {b1 b2 : List Nat} (hA : AgreeFrom8 b1 b2) (i : Nat) :
    LocalReader b1 b2 (read_sec_data_segment i) := by
  intro m pos hp hm
  subst hm
  simp only [read_sec_data_segment, withBinary, readLeb_agree hA hp]
  cases h1 : readLeb m.binary pos with
  | error e => exact ⟨rfl, fun _ _ h => by cases h⟩
  | ok r =>
    obtain ⟨mi, p1⟩ := r
    have := readLeb_pos h1
    simp only [bind, Except.bind]
    cases hc : check (mi == 0) "data memory index not 0" with
    | error e => exact ⟨rfl, fun _ _ h => by cases h⟩
    | ok u =>
      simp only [getInitExpr32_agree hA (show 8 ≤ p1 by omega)]
      cases h2 : getInitExpr32 m.binary p1 with
      | error e => exact ⟨rfl, fun _ _ h => by cases h⟩
      | ok r =>
        obtain ⟨off, p2⟩ := r
        have := getInitExpr32_pos h2
        simp only [readLeb_agree hA (show 8 ≤ p2 by omega)]
        cases h3 : readLeb m.binary p2 with
        | error e => exact ⟨rfl, fun _ _ h => by cases h⟩
        | ok r =>
          obtain ⟨size, p3⟩ := r
          have := readLeb_pos h3
          refine ⟨rfl, fun m' pos' h => ?_⟩
          simp only [pure, Except.pure, Except.ok.injEq, Prod.mk.injEq] at h
          obtain ⟨rfl, rfl⟩ := h
          exact ⟨by omega, rfl⟩

theorem local_elem_slot {b1 b2 : List Nat} (hA : AgreeFrom8 b1 b2) (o j : Nat) :
    LocalReader b1 b2 (read_sec_elem_slot o j) := by
  intro m pos hp hm
  subst hm
  simp only [read_sec_elem_slot, withBinary, readLeb_agree hA hp]
  cases h1 : readLeb m.binary pos with
  | error e => exact ⟨rfl, fun _ _ h => by cases h⟩
  | ok r =>
    obtain ⟨f, p1⟩ := r
    have := readLeb_pos h1
    simp only [bind, Except.bind]
    cases hc : check (decide (f < m.functions.length)) "elem has invalid function index" with
    | error e => exact ⟨rfl, fun _ _ h => by cases h⟩
    | ok u =>
      simp only []
      by_cases hin : u32 (o + j) < (if u32 (o + j) ≥ m.elements.length
          then resize m.elements (u32 (u32 (o + j) + 1)) else m.elements).length
      · rw [if_pos hin, if_pos hin]
        refine ⟨rfl, fun m' pos' h => ?_⟩
        simp only [pure, Except.pure, Except.ok.injEq, Prod.mk.injEq] at h
        obtain ⟨rfl, rfl⟩ := h
        exact ⟨by omega, rfl⟩
      · rw [if_neg hin, if_neg hin]
        exact ⟨rfl, fun _ _ h => by cases h⟩

theorem local_linking_symbol {b1 b2 : List Nat} (hA : AgreeFrom8 b1 b2) (i : Nat) :
    LocalReader b1 b2 (read_linking_symbol i) := by
  intro m pos hp hm
  subst hm
  simp only [read_linking_symbol, withBinary, readStr_agree hA hp]
  cases h1 : readStr m.binary pos with
  | error e => exact ⟨rfl, fun _ _ h => by cases h⟩
  | ok r =>
    obtain ⟨name, p1⟩ := r
    have := readStr_pos h1
    simp only [bind, Except.bind, readLeb_agree hA (show 8 ≤ p1 by omega)]
    cases h2 : readLeb m.binary p1 with
    | error e => exact ⟨rfl, fun _ _ h => by cases h⟩
    | ok r =>
      obtain ⟨fl, p2⟩ := r
      have := readLeb_pos h2
      refine ⟨rfl, fun m' pos' h => ?_⟩
      simp only [pure, Except.pure, Except.ok.injEq, Prod.mk.injEq] at h
      obtain ⟨rfl, rfl⟩ := h
      exact ⟨by omega, rfl⟩

theorem local_linking_segment {b1 b2 : List Nat} (hA : AgreeFrom8 b1 b2) (i : Nat) :
    LocalReader b1 b2 (read_linking_segment i) := by
  intro m pos hp hm
  subst hm
  simp only [read_linking_segment, withBinary, readStr_agree hA hp]
  cases h1 : readStr m.binary pos with
  | error e => exact ⟨rfl, fun _ _ h => by cases h⟩
  | ok r =>
    obtain ⟨name, p1⟩ := r
    have := readStr_pos h1
    simp only [bind, Except.bind, readLeb_agree hA (show 8 ≤ p1 by omega)]
    cases h2 : readLeb m.binary p1 with
    | error e => exact ⟨rfl, fun _ _ h => by cases h⟩
    | ok r =>
      obtain ⟨al, p2⟩ := r
      have := readLeb_pos h2
      simp only [readLeb_agree hA (show 8 ≤ p2 by omega)]
      cases h3 : readLeb m.binary p2 with
      | error e => exact ⟨rfl, fun _ _ h => by cases h⟩
      | ok r =>
        obtain ⟨fl, p3⟩ := r
        have := readLeb_pos h3
        refine ⟨rfl, fun m' pos' h => ?_⟩
        simp only [pure, Except.pure, Except.ok.injEq, Prod.mk.injEq] at h
        obtain ⟨rfl, rfl⟩ := h
        exact ⟨by omega, rfl⟩

theorem local_import_entry {b1 b2 : List Nat} (hA : AgreeFrom8 b1 b2) (i : Nat) :
    LocalReader b1 b2 (read_sec_import_entry i) := by
  intro m pos hp hm
  subst hm
  simp only [read_sec_import_entry, withBinary, readStr_agree hA hp]
  cases h1 : readStr m.binary pos with
  | error e => exact ⟨rfl, fun _ _ h => by cases h⟩
  | ok r =>
    obtain ⟨mn, p1⟩ := r
    have := readStr_pos h1
    simp only [bind, Except.bind, readStr_agree hA (show 8 ≤ p1 by omega)]
    cases h2 : readStr m.binary p1 with
    | error e => exact ⟨rfl, fun _ _ h => by cases h⟩
    | ok r =>
      obtain ⟨fn, p2⟩ := r
      have := readStr_pos h2
      simp only [readByte_agree hA (show 8 ≤ p2 by omega)]
      cases h3 : readByte m.binary p2 with
      | error e => exact ⟨rfl, fun _ _ h => by cases h⟩
      | ok r =>
        obtain ⟨kind, p3⟩ := r
        have := (readByte_eq_ok.1 h3).2
        simp only []
        by_cases k0 : kind = external_function
        · simp only [if_pos k0, readLeb_agree hA (show 8 ≤ p3 by omega)]
          cases h4 : readLeb m.binary p3 with
          | error e => exact ⟨rfl, fun _ _ h => by cases h⟩
          | ok r =>
            obtain ⟨t, p4⟩ := r
            have := readLeb_pos h4
            simp only []
            cases hc : check (decide (t < m.functionTypes.length))
                "function type doesn't exist" with
            | error e => exact ⟨rfl, fun _ _ h => by cases h⟩
            | ok u =>
              refine ⟨rfl, fun m' pos' h => ?_⟩
              simp only [pure, Except.pure, Except.ok.injEq, Prod.mk.injEq] at h
              obtain ⟨rfl, rfl⟩ := h
              exact ⟨by omega, rfl⟩
        simp only [if_neg k0]
        by_cases k1 : kind = external_table
        · simp only [if_pos k1, readByte_agree hA (show 8 ≤ p3 by omega)]
          cases h4 : readByte m.binary p3 with
          | error e => exact ⟨rfl, fun _ _ h => by cases h⟩
          | ok r =>
            obtain ⟨et, p4⟩ := r
            have := (readByte_eq_ok.1 h4).2
            simp only []
            cases hc : check (et == type_anyfunc) "import table is not anyfunc" with
            | error e => exact ⟨rfl, fun _ _ h => by cases h⟩
            | ok u =>
              simp only []
              cases hc2 : check (m.tables.length == 0) "multiple tables" with
              | error e => exact ⟨rfl, fun _ _ h => by cases h⟩
              | ok u =>
                simp only [read_resizable_limits_agree hA (show 8 ≤ p4 by omega)]
                cases h5 : read_resizable_limits m.binary p4 with
                | error e => exact ⟨rfl, fun _ _ h => by cases h⟩
                | ok r =>
                  obtain ⟨l, p5⟩ := r
                  have := read_resizable_limits_pos h5
                  refine ⟨rfl, fun m' pos' h => ?_⟩
                  simp only [pure, Except.pure, Except.ok.injEq, Prod.mk.injEq] at h
                  obtain ⟨rfl, rfl⟩ := h
                  exact ⟨by omega, rfl⟩
        simp only [if_neg k1]
        by_cases k2 : kind = external_memory
        · simp only [if_pos k2]
          cases hc2 : check (m.memories.length == 0) "multiple memories" with
          | error e => exact ⟨rfl, fun _ _ h => by cases h⟩
          | ok u =>
            simp only [read_resizable_limits_agree hA (show 8 ≤ p3 by omega)]
            cases h5 : read_resizable_limits m.binary p3 with
            | error e => exact ⟨rfl, fun _ _ h => by cases h⟩
            | ok r =>
              obtain ⟨l, p5⟩ := r
              have := read_resizable_limits_pos h5
              refine ⟨rfl, fun m' pos' h => ?_⟩
              simp only [pure, Except.pure, Except.ok.injEq, Prod.mk.injEq] at h
              obtain ⟨rfl, rfl⟩ := h
              exact ⟨by omega, rfl⟩
        simp only [if_neg k2]
        by_cases k3 : kind = external_global
        · simp only [if_pos k3, readByte_agree hA (show 8 ≤ p3 by omega)]
          cases h4 : readByte m.binary p3 with
          | error e => exact ⟨rfl, fun _ _ h => by cases h⟩
          | ok r =>
            obtain ⟨vt, p4⟩ := r
            have := (readByte_eq_ok.1 h4).2
            simp only []
            cases hc : check (vt == type_i32) "imported global is not i32" with
            | error e => exact ⟨rfl, fun _ _ h => by cases h⟩
            | ok u =>
              simp only [readByte_agree hA (show 8 ≤ p4 by omega)]
              cases h5 : readByte m.binary p4 with
              | error e => exact ⟨rfl, fun _ _ h => by cases h⟩
              | ok r =>
                obtain ⟨mu, p5⟩ := r
                have := (readByte_eq_ok.1 h5).2
                refine ⟨rfl, fun m' pos' h => ?_⟩
                simp only [pure, Except.pure, Except.ok.injEq, Prod.mk.injEq] at h
                obtain ⟨rfl, rfl⟩ := h
                exact ⟨by omega, rfl⟩
        simp only [if_neg k3]
        exact ⟨rfl, fun _ _ h => by cases h⟩

theorem local_export_entry {b1 b2 : List Nat} (hA : AgreeFrom8 b1 b2) (i : Nat) :
    LocalReader b1 b2 (read_sec_export_entry i) := by
  intro m pos hp hm
  subst hm
  simp only [read_sec_export_entry, withBinary, readStr_agree hA hp]
  cases h1 : readStr m.binary pos with
  | error e => exact ⟨rfl, fun _ _ h => by cases h⟩
  | ok r =>
    obtain ⟨name, p1⟩ := r
    have := readStr_pos h1
    simp only [bind, Except.bind, readByte_agree hA (show 8 ≤ p1 by omega)]
    cases h2 : readByte m.binary p1 with
    | error e => exact ⟨rfl, fun _ _ h => by cases h⟩
    | ok r =>
      obtain ⟨kind, p2⟩ := r
      have := (readByte_eq_ok.1 h2).2
      simp only [readLeb_agree hA (show 8 ≤ p2 by omega)]
      cases h3 : readLeb m.binary p2 with
      | error e => exact ⟨rfl, fun _ _ h => by cases h⟩
      | ok r =>
        obtain ⟨index, p3⟩ := r
        have := readLeb_pos h3
        simp only []
        by_cases k0 : kind = external_function
        · simp only [if_pos k0]
          cases hc : check (decide (index ≥ m.numImportedFunctions) &&
              decide (index < m.functions.length)) "export has invalid function index" with
          | error e => exact ⟨rfl, fun _ _ h => by cases h⟩
          | ok u =>
            refine ⟨rfl, fun m' pos' h => ?_⟩
            simp only [pure, Except.pure, Except.ok.injEq, Prod.mk.injEq] at h
            obtain ⟨rfl, rfl⟩ := h
            exact ⟨by omega, rfl⟩
        simp only [if_neg k0]
        by_cases k1 : kind = external_global
        · simp only [if_pos k1]
          cases hc : check (decide (index ≥ m.numImportedGlobals) &&
              decide (index < m.globals.length)) "export has invalid global index" with
          | error e => exact ⟨rfl, fun _ _ h => by cases h⟩
          | ok u =>
            refine ⟨rfl, fun m' pos' h => ?_⟩
            simp only [pure, Except.pure, Except.ok.injEq, Prod.mk.injEq] at h
            obtain ⟨rfl, rfl⟩ := h
            exact ⟨by omega, rfl⟩
        simp only [if_neg k1]
        refine ⟨rfl, fun m' pos' h => ?_⟩
        simp only [pure, Except.pure, Except.ok.injEq, Prod.mk.injEq] at h
        obtain ⟨rfl, rfl⟩ := h
        exact ⟨by omega, rfl⟩

theorem local_reloc_entry {b1 b2 : List Nat} (hA : AgreeFrom8 b1 b2) (sid i : Nat) :
    LocalReader b1 b2 (read_reloc_entry sid i) := by
  intro m pos hp hm
  subst hm
  simp only [read_reloc_entry, withBinary, readLeb_agree hA hp]
  cases h1 : readLeb m.binary pos with
  | error e => exact ⟨rfl, fun _ _ h => by cases h⟩
  | ok r =>
    obtain ⟨type, p1⟩ := r
    have := readLeb_pos h1
    simp only [bind, Except.bind, readLeb_agree hA (show 8 ≤ p1 by omega)]
    cases h2 : readLeb m.binary p1 with
    | error e => exact ⟨rfl, fun _ _ h => by cases h⟩
    | ok r =>
      obtain ⟨off, p2⟩ := r
      have := readLeb_pos h2
      simp only [readLeb_agree hA (show 8 ≤ p2 by omega)]
      cases h3 : readLeb m.binary p2 with
      | error e => exact ⟨rfl, fun _ _ h => by cases h⟩
      | ok r =>
        obtain ⟨index, p3⟩ := r
        have := readLeb_pos h3
        simp only []
        by_cases k0 : type = r_webassembly_memory_addr_leb ∨
            type = r_webassembly_memory_addr_sleb ∨ type = r_webassembly_memory_addr_i32
        · simp only [if_pos k0, readLeb_agree hA (show 8 ≤ p3 by omega)]
          cases h4 : readLeb m.binary p3 with
          | error e => exact ⟨rfl, fun _ _ h => by cases h⟩
          | ok r =>
            obtain ⟨addend, p4⟩ := r
            have := readLeb_pos h4
            refine ⟨rfl, fun m' pos' h => ?_⟩
            simp only [pure, Except.pure, Except.ok.injEq, Prod.mk.injEq] at h
            obtain ⟨rfl, rfl⟩ := h
            exact ⟨by omega, rfl⟩
        · simp only [if_neg k0]
          refine ⟨rfl, fun m' pos' h => ?_⟩
          simp only [pure, Except.pure, Except.ok.injEq, Prod.mk.injEq] at h
          obtain ⟨rfl, rfl⟩ := h
          exact ⟨by omega, rfl⟩

theorem withBinary_binary (b : List Nat) (m : Module) : (withBinary b m).binary = b := rfl

theorem local_counted {b1 b2 : List Nat} (hA : AgreeFrom8 b1 b2)
    {body : Nat → Module × Nat → Except Err (Module × Nat)}
    (hb : ∀ i, LocalReader b1 b2 (body i)) (msg : String) (sEnd : Nat) :
    LocalReader b1 b2 (fun st => do
      let (count, pos) ← readLeb st.1.binary st.2
      let (module, pos) ← forLoop body 0 count (st.1, pos)
      check (pos == sEnd) msg
      pure (module, pos)) := by
  intro m pos hp hm
  subst hm
  simp only [withBinary_binary, readLeb_agree hA hp]
  cases h1 : readLeb m.binary pos with
  | error e => exact ⟨rfl, fun _ _ h => by cases h⟩
  | ok r =>
    obtain ⟨count, p1⟩ := r
    have := readLeb_pos h1
    obtain ⟨hl1, hl2⟩ := localReader_forLoop hb count 0 m p1 (by omega) rfl
    simp only [bind, Except.bind]
    simp only [] at hl1 hl2
    rw [hl1]
    cases h2 : forLoop body 0 count (m, p1) with
    | error e => exact ⟨rfl, fun _ _ h => by cases h⟩
    | ok r =>
      obtain ⟨m1, p2⟩ := r
      obtain ⟨hp2, hm2⟩ := hl2 m1 p2 h2
      simp only [liftBinary]
      cases hc : check (p2 == sEnd) msg with
      | error e => exact ⟨rfl, fun _ _ h => by cases h⟩
      | ok u =>
        refine ⟨rfl, fun m' pos' h => ?_⟩
        simp only [pure, Except.pure, Except.ok.injEq, Prod.mk.injEq] at h
        obtain ⟨rfl, rfl⟩ := h
        exact ⟨by omega, hm2⟩

theorem local_import {b1 b2 : List Nat} (hA : AgreeFrom8 b1 b2) (sEnd : Nat) :
    LocalReader b1 b2 (fun st => read_sec_import st.1 st.2 sEnd) :=
  local_counted hA (local_import_entry hA) _ sEnd

theorem local_function {b1 b2 : List Nat} (hA : AgreeFrom8 b1 b2) (sEnd : Nat) :
    LocalReader b1 b2 (fun st => read_sec_function st.1 st.2 sEnd) :=
  local_counted hA (local_function_entry hA) _ sEnd

theorem local_global {b1 b2 : List Nat} (hA : AgreeFrom8 b1 b2) (sEnd : Nat) :
    LocalReader b1 b2 (fun st => read_sec_global st.1 st.2 sEnd) :=
  local_counted hA (local_global_entry hA) _ sEnd

theorem local_export {b1 b2 : List Nat} (hA : AgreeFrom8 b1 b2) (sEnd : Nat) :
    LocalReader b1 b2 (fun st => read_sec_export st.1 st.2 sEnd) :=
  local_counted hA (local_export_entry hA) _ sEnd

theorem local_type {b1 b2 : List Nat} (hA : AgreeFrom8 b1 b2) (sEnd : Nat) :
    LocalReader b1 b2 (fun st => read_sec_type st.1 st.2 sEnd) := by
  intro m pos hp hm
  subst hm
  simp only [read_sec_type, withBinary_binary, readLeb_agree hA hp]
  cases h1 : readLeb m.binary pos with
  | error e => exact ⟨rfl, fun _ _ h => by cases h⟩
  | ok r =>
    obtain ⟨count, p1⟩ := r
    have := readLeb_pos h1
    obtain ⟨hl1, hl2⟩ := localReader_forLoop (local_type_entry hA) count 0 m p1 (by omega) rfl
    simp only [bind, Except.bind]
    simp only [] at hl1 hl2
    refine ⟨hl1, fun m' pos' h => ?_⟩
    obtain ⟨hp2, hm2⟩ := hl2 m' pos' h
    exact ⟨by omega, hm2⟩

theorem local_table {b1 b2 : List Nat} (hA : AgreeFrom8 b1 b2) (sEnd : Nat) :
    LocalReader b1 b2 (fun st => read_sec_table st.1 st.2 sEnd) := by
  intro m pos hp hm
  subst hm
  simp only [read_sec_table, withBinary, readByte_agree hA hp]
  cases h1 : readByte m.binary pos with
  | error e => exact ⟨rfl, fun _ _ h => by cases h⟩
  | ok r =>
    obtain ⟨et, p1⟩ := r
    have := (readByte_eq_ok.1 h1).2
    simp only [bind, Except.bind]
    cases hc : check (et == type_anyfunc) "import table is not anyfunc" with
    | error e => exact ⟨rfl, fun _ _ h => by cases h⟩
    | ok u =>
      simp only []
      cases hc2 : check (m.tables.length == 0) "multiple tables" with
      | error e => exact ⟨rfl, fun _ _ h => by cases h⟩
      | ok u =>
        simp only [read_resizable_limits_agree hA (show 8 ≤ p1 by omega)]
        cases h5 : read_resizable_limits m.binary p1 with
        | error e => exact ⟨rfl, fun _ _ h => by cases h⟩
        | ok r =>
          obtain ⟨l, p5⟩ := r
          have := read_resizable_limits_pos h5
          simp only []
          cases hc3 : check (p5 == sEnd) "table section malformed" with
          | error e => exact ⟨rfl, fun _ _ h => by cases h⟩
          | ok u =>
            refine ⟨rfl, fun m' pos' h => ?_⟩
            simp only [pure, Except.pure, Except.ok.injEq, Prod.mk.injEq] at h
            obtain ⟨rfl, rfl⟩ := h
            exact ⟨by omega, rfl⟩

theorem local_memory {b1 b2 : List Nat} (hA : AgreeFrom8 b1 b2) (sEnd : Nat) :
    LocalReader b1 b2 (fun st => read_sec_memory st.1 st.2 sEnd) := by
  intro m pos hp hm
  subst hm
  simp only [read_sec_memory, withBinary]
  cases hc2 : check (m.memories.length == 0) "multiple memories" with
  | error e => exact ⟨rfl, fun _ _ h => by cases h⟩
  | ok u =>
    simp only [bind, Except.bind, read_resizable_limits_agree hA hp]
    cases h5 : read_resizable_limits m.binary pos with
    | error e => exact ⟨rfl, fun _ _ h => by cases h⟩
    | ok r =>
      obtain ⟨l, p5⟩ := r
      have := read_resizable_limits_pos h5
      simp only []
      cases hc3 : check (p5 == sEnd) "memory section malformed" with
      | error e => exact ⟨rfl, fun _ _ h => by cases h⟩
      | ok u =>
        refine ⟨rfl, fun m' pos' h => ?_⟩
        simp only [pure, Except.pure, Except.ok.injEq, Prod.mk.injEq] at h
        obtain ⟨rfl, rfl⟩ := h
        exact ⟨by omega, rfl⟩

theorem local_elem_segment {b1 b2 : List Nat} (hA : AgreeFrom8 b1 b2) (i : Nat) :
    LocalReader b1 b2 (read_sec_elem_segment i) := by
  intro m pos hp hm
  subst hm
  simp only [read_sec_elem_segment, withBinary_binary, readLeb_agree hA hp]
  cases h1 : readLeb m.binary pos with
  | error e => exact ⟨rfl, fun _ _ h => by cases h⟩
  | ok r =>
    obtain ⟨ti, p1⟩ := r
    have := readLeb_pos h1
    simp only [bind, Except.bind]
    cases hc : check (ti == 0) "elem table index not 0" with
    | error e => exact ⟨rfl, fun _ _ h => by cases h⟩
    | ok u =>
      simp only [getInitExpr32_agree hA (show 8 ≤ p1 by omega)]
      cases h2 : getInitExpr32 m.binary p1 with
      | error e => exact ⟨rfl, fun _ _ h => by cases h⟩
      | ok r =>
        obtain ⟨off, p2⟩ := r
        have := getInitExpr32_pos h2
        simp only [readLeb_agree hA (show 8 ≤ p2 by omega)]
        cases h3 : readLeb m.binary p2 with
        | error e => exact ⟨rfl, fun _ _ h => by cases h⟩
        | ok r =>
          obtain ⟨num, p3⟩ := r
          have := readLeb_pos h3
          obtain ⟨hl1, hl2⟩ := localReader_forLoop (local_elem_slot hA off) num 0 m p3
            (by omega) rfl
          simp only [] at hl1 hl2 ⊢
          refine ⟨hl1, fun m' pos' h => ?_⟩
          obtain ⟨hp2, hm2⟩ := hl2 m' pos' h
          exact ⟨by omega, hm2⟩

theorem local_elem {b1 b2 : List Nat} (hA : AgreeFrom8 b1 b2) (sEnd : Nat) :
    LocalReader b1 b2 (fun st => read_sec_elem st.1 st.2 sEnd) := by
  intro m pos hp hm
  subst hm
  simp only [read_sec_elem, withBinary_binary, readLeb_agree hA hp]
  cases h1 : readLeb m.binary pos with
  | error e => exact ⟨rfl, fun _ _ h => by cases h⟩
  | ok r =>
    obtain ⟨count, p1⟩ := r
    have := readLeb_pos h1
    obtain ⟨hl1, hl2⟩ := localReader_forLoop (local_elem_segment hA) count 0 m p1 (by omega) rfl
    simp only [bind, Except.bind]
    simp only [] at hl1 hl2
    rw [hl1]
    cases h2 : forLoop read_sec_elem_segment 0 count (m, p1) with
    | error e => exact ⟨rfl, fun _ _ h => by cases h⟩
    | ok r =>
      obtain ⟨m1, p2⟩ := r
      obtain ⟨hp2, hm2⟩ := hl2 m1 p2 h2
      simp only [liftBinary, withBinary]
      cases hh : checkHoles m1.elements 0 with
      | error e => exact ⟨rfl, fun _ _ h => by cases h⟩
      | ok u =>
        simp only []
        cases hc : check (p2 == sEnd) "elem section malformed" with
        | error e => exact ⟨rfl, fun _ _ h => by cases h⟩
        | ok u =>
          refine ⟨rfl, fun m' pos' h => ?_⟩
          simp only [pure, Except.pure, Except.ok.injEq, Prod.mk.injEq] at h
          obtain ⟨rfl, rfl⟩ := h
          exact ⟨by omega, hm2⟩

theorem local_data {b1 b2 : List Nat} (hA : AgreeFrom8 b1 b2) (sEnd : Nat) :
    LocalReader b1 b2 (fun st => read_sec_data st.1 st.2 sEnd) := by
  intro m pos hp hm
  subst hm
  simp only [read_sec_data, withBinary_binary, readLeb_agree hA hp]
  cases h1 : readLeb m.binary pos with
  | error e => exact ⟨rfl, fun _ _ h => by cases h⟩
  | ok r =>
    obtain ⟨count, p1⟩ := r
    have := readLeb_pos h1
    obtain ⟨hl1, hl2⟩ := localReader_forLoop (local_data_segment hA) count 0 m p1 (by omega) rfl
    simp only [bind, Except.bind]
    simp only [] at hl1 hl2
    rw [hl1]
    cases h2 : forLoop read_sec_data_segment 0 count (m, p1) with
    | error e => exact ⟨rfl, fun _ _ h => by cases h⟩
    | ok r =>
      obtain ⟨m1, p2⟩ := r
      obtain ⟨hp2, hm2⟩ := hl2 m1 p2 h2
      simp only [liftBinary, withBinary]
      cases hh : checkContiguous m1.dataSegments 0 with
      | error e => exact ⟨rfl, fun _ _ h => by cases h⟩
      | ok u =>
        simp only []
        cases hc : check (p2 == sEnd) "data section malformed" with
        | error e => exact ⟨rfl, fun _ _ h => by cases h⟩
        | ok u =>
          refine ⟨rfl, fun m' pos' h => ?_⟩
          simp only [pure, Except.pure, Except.ok.injEq, Prod.mk.injEq] at h
          obtain ⟨rfl, rfl⟩ := h
          exact ⟨by omega, hm2⟩

theorem local_reloc {b1 b2 : List Nat} (hA : AgreeFrom8 b1 b2) (name : Name) (sEnd : Nat) :
    LocalReader b1 b2 (fun st => read_reloc st.1 name st.2 sEnd) := by
  intro m pos hp hm
  subst hm
  simp only [read_reloc, withBinary_binary, readLeb_agree hA hp]
  cases h1 : readLeb m.binary pos with
  | error e => exact ⟨rfl, fun _ _ h => by cases h⟩
  | ok r =>
    obtain ⟨sid, p1⟩ := r
    have := readLeb_pos h1
    simp only [bind, Except.bind]
    cases hc : check (sid == wasm_sec_code || sid == wasm_sec_data)
        "unsupported reloc section id" with
    | error e => exact ⟨rfl, fun _ _ h => by cases h⟩
    | ok u =>
      simp only [readLeb_agree hA (show 8 ≤ p1 by omega)]
      cases h2 : readLeb m.binary p1 with
      | error e => exact ⟨rfl, fun _ _ h => by cases h⟩
      | ok r =>
        obtain ⟨count, p2⟩ := r
        have := readLeb_pos h2
        obtain ⟨hl1, hl2⟩ := localReader_forLoop (local_reloc_entry hA sid) count 0 m p2
          (by omega) rfl
        simp only [] at hl1 hl2 ⊢
        rw [hl1]
        cases h3 : forLoop (read_reloc_entry sid) 0 count (m, p2) with
        | error e => exact ⟨rfl, fun _ _ h => by cases h⟩
        | ok r =>
          obtain ⟨m1, p3⟩ := r
          obtain ⟨hp3, hm3⟩ := hl2 m1 p3 h3
          simp only [liftBinary]
          cases hc2 : check (p3 == sEnd) "reloc section malformed" with
          | error e => exact ⟨rfl, fun _ _ h => by cases h⟩
          | ok u =>
            refine ⟨rfl, fun m' pos' h => ?_⟩
            simp only [pure, Except.pure, Except.ok.injEq, Prod.mk.injEq] at h
            obtain ⟨rfl, rfl⟩ := h
            exact ⟨by omega, hm3⟩

theorem local_linking_loop {b1 b2 : List Nat} (hA : AgreeFrom8 b1 b2) (sEnd : Nat) :
    ∀ (fuel : Nat), LocalReader b1 b2 (fun st => read_linking_loop sEnd fuel st.1 st.2) := by
  intro fuel
  induction fuel with
  | zero =>
    intro m pos hp hm
    simp only [read_linking_loop]
    by_cases hlt : pos < sEnd
    · simp only [if_pos hlt]
      exact ⟨rfl, fun _ _ h => by cases h⟩
    · simp only [if_neg hlt]
      refine ⟨rfl, fun m' pos' h => ?_⟩
      simp only [Except.ok.injEq, Prod.mk.injEq] at h
      obtain ⟨rfl, rfl⟩ := h
      exact ⟨Nat.le_refl _, hm⟩
  | succ fuel ih =>
    intro m pos hp hm
    subst hm
    simp only [read_linking_loop]
    by_cases hlt : pos < sEnd
    · simp only [if_pos hlt, withBinary_binary, readByte_agree hA hp]
      cases h1 : readByte m.binary pos with
      | error e => exact ⟨rfl, fun _ _ h => by cases h⟩
      | ok r =>
        obtain ⟨type, p1⟩ := r
        have := (readByte_eq_ok.1 h1).2
        simp only [bind, Except.bind, readLeb_agree hA (show 8 ≤ p1 by omega)]
        cases h2 : readLeb m.binary p1 with
        | error e => exact ⟨rfl, fun _ _ h => by cases h⟩
        | ok r =>
          obtain ⟨len, p2⟩ := r
          have := readLeb_pos h2
          simp only []
          by_cases k0 : type = wasm_symbol_info
          · simp only [if_pos k0, readLeb_agree hA (show 8 ≤ p2 by omega)]
            cases h3 : readLeb m.binary p2 with
            | error e => exact ⟨rfl, fun _ _ h => by cases h⟩
            | ok r =>
              obtain ⟨count, p3⟩ := r
              have := readLeb_pos h3
              obtain ⟨hl1, hl2⟩ := localReader_forLoop (local_linking_symbol hA) count 0 m p3
                (by omega) rfl
              simp only [] at hl1 hl2 ⊢
              rw [hl1]
              cases h4 : forLoop read_linking_symbol 0 count (m, p3) with
              | error e => exact ⟨rfl, fun _ _ h => by cases h⟩
              | ok r =>
                obtain ⟨m1, p4⟩ := r
                obtain ⟨hp4, hm4⟩ := hl2 m1 p4 h4
                obtain ⟨hi1, hi2⟩ := ih m1 p4 (by omega) hm4
                simp only [liftBinary] at hi1 hi2 ⊢
                refine ⟨hi1, fun m' pos' h => ?_⟩
                obtain ⟨hp5, hm5⟩ := hi2 m' pos' h
                exact ⟨by omega, hm5⟩
          simp only [if_neg k0]
          by_cases k1 : type = wasm_data_size
          · simp only [if_pos k1, readLeb_agree hA (show 8 ≤ p2 by omega)]
            cases h3 : readLeb m.binary p2 with
            | error e => exact ⟨rfl, fun _ _ h => by cases h⟩
            | ok r =>
              obtain ⟨d, p3⟩ := r
              have := readLeb_pos h3
              obtain ⟨hi1, hi2⟩ := ih { m with dataSize := d } p3 (by omega) rfl
              simp only [] at hi1 hi2 ⊢
              refine ⟨hi1, fun m' pos' h => ?_⟩
              obtain ⟨hp5, hm5⟩ := hi2 m' pos' h
              exact ⟨by omega, hm5⟩
          simp only [if_neg k1]
          by_cases k2 : type = wasm_segment_info
          · simp only [if_pos k2, readLeb_agree hA (show 8 ≤ p2 by omega)]
            cases h3 : readLeb m.binary p2 with
            | error e => exact ⟨rfl, fun _ _ h => by cases h⟩
            | ok r =>
              obtain ⟨count, p3⟩ := r
              have := readLeb_pos h3
              obtain ⟨hl1, hl2⟩ := localReader_forLoop (local_linking_segment hA) count 0 m p3
                (by omega) rfl
              simp only [] at hl1 hl2 ⊢
              rw [hl1]
              cases h4 : forLoop read_linking_segment 0 count (m, p3) with
              | error e => exact ⟨rfl, fun _ _ h => by cases h⟩
              | ok r =>
                obtain ⟨m1, p4⟩ := r
                obtain ⟨hp4, hm4⟩ := hl2 m1 p4 h4
                obtain ⟨hi1, hi2⟩ := ih m1 p4 (by omega) hm4
                simp only [liftBinary] at hi1 hi2 ⊢
                refine ⟨hi1, fun m' pos' h => ?_⟩
                obtain ⟨hp5, hm5⟩ := hi2 m' pos' h
                exact ⟨by omega, hm5⟩
          simp only [if_neg k2]
          exact ⟨rfl, fun _ _ h => by cases h⟩
    · simp only [if_neg hlt]
      refine ⟨rfl, fun m' pos' h => ?_⟩
      simp only [Except.ok.injEq, Prod.mk.injEq] at h
      obtain ⟨rfl, rfl⟩ := h
      exact ⟨Nat.le_refl _, rfl⟩

theorem local_linking {b1 b2 : List Nat} (hA : AgreeFrom8 b1 b2) (sEnd : Nat) :
    LocalReader b1 b2 (fun st => read_linking st.1 st.2 sEnd) := by
  intro m pos hp hm
  obtain ⟨hl1, hl2⟩ := local_linking_loop hA sEnd (sEnd - pos) m pos hp hm
  simp only [] at hl1 hl2
  simp only [read_linking]
  rw [hl1]
  cases h2 : read_linking_loop sEnd (sEnd - pos) m pos with
  | error e => exact ⟨rfl, fun _ _ h => by cases h⟩
  | ok r =>
    obtain ⟨m1, p2⟩ := r
    obtain ⟨hp2, hm2⟩ := hl2 m1 p2 h2
    simp only [liftBinary, withBinary, bind, Except.bind]
    cases hc : check (p2 == sEnd) "linking section malformed" with
    | error e => exact ⟨rfl, fun _ _ h => by cases h⟩
    | ok u =>
      simp only []
      cases hh : checkExported m1.symbols with
      | error e => exact ⟨rfl, fun _ _ h => by cases h⟩
      | ok u =>
        refine ⟨rfl, fun m' pos' h => ?_⟩
        simp only [pure, Except.pure, Except.ok.injEq, Prod.mk.injEq] at h
        obtain ⟨rfl, rfl⟩ := h
        exact ⟨by omega, hm2⟩

theorem local_standard {b1 b2 : List Nat} (hA : AgreeFrom8 b1 b2) (id sEnd : Nat) :
    LocalReader b1 b2 (fun st => read_standard id st.1 st.2 sEnd) := by
  intro m pos hp hm
  simp only [read_standard]
  by_cases h1 : id = wasm_sec_type
  · simp only [if_pos h1]; exact local_type hA sEnd m pos hp hm
  simp only [if_neg h1]
  by_cases h2 : id = wasm_sec_import
  · simp only [if_pos h2]; exact local_import hA sEnd m pos hp hm
  simp only [if_neg h2]
  by_cases h3 : id = wasm_sec_function
  · simp only [if_pos h3]; exact local_function hA sEnd m pos hp hm
  simp only [if_neg h3]
  by_cases h4 : id = wasm_sec_table
  · simp only [if_pos h4]; exact local_table hA sEnd m pos hp hm
  simp only [if_neg h4]
  by_cases h5 : id = wasm_sec_memory
  · simp only [if_pos h5]; exact local_memory hA sEnd m pos hp hm
  simp only [if_neg h5]
  by_cases h6 : id = wasm_sec_global
  · simp only [if_pos h6]; exact local_global hA sEnd m pos hp hm
  simp only [if_neg h6]
  by_cases h7 : id = wasm_sec_export
  · simp only [if_pos h7]; exact local_export hA sEnd m pos hp hm
  simp only [if_neg h7]
  by_cases h8 : id = wasm_sec_start
  · simp only [if_pos h8]
    exact ⟨rfl, fun _ _ h => by cases h⟩
  simp only [if_neg h8]
  by_cases h9 : id = wasm_sec_elem
  · simp only [if_pos h9]; exact local_elem hA sEnd m pos hp hm
  simp only [if_neg h9]
  by_cases h10 : id = wasm_sec_code
  · simp only [if_pos h10, read_sec_code]
    refine ⟨rfl, fun m' pos' h => ?_⟩
    simp only [pure, Except.pure, Except.ok.injEq, Prod.mk.injEq] at h
    obtain ⟨rfl, rfl⟩ := h
    exact ⟨Nat.le_refl _, hm⟩
  simp only [if_neg h10]
  by_cases h11 : id = wasm_sec_data
  · simp only [if_pos h11]; exact local_data hA sEnd m pos hp hm
  simp only [if_neg h11]
  exact ⟨rfl, fun _ _ h => by cases h⟩

theorem local_custom {b1 b2 : List Nat} (hA : AgreeFrom8 b1 b2) (sEnd : Nat) :
    LocalReader b1 b2 (fun st => read_custom st.1 st.2 sEnd) := by
  intro m pos hp hm
  have hm' := hm
  subst hm
  simp only [read_custom, withBinary_binary, readStr_agree hA hp]
  cases h1 : readStr m.binary pos with
  | error e => exact ⟨rfl, fun _ _ h => by cases h⟩
  | ok r =>
    obtain ⟨name, p1⟩ := r
    have := readStr_pos h1
    simp only [bind, Except.bind]
    by_cases k0 : (strBytes "reloc.").isPrefixOf name = true
    · simp only [if_pos k0]
      obtain ⟨hl1, hl2⟩ := local_reloc hA name sEnd m p1 (by omega) rfl
      refine ⟨hl1, fun m' pos' h => ?_⟩
      obtain ⟨hp2, hm2⟩ := hl2 m' pos' h
      exact ⟨by omega, hm2⟩
    simp only [if_neg k0]
    by_cases k1 : name = strBytes "linking"
    · simp only [if_pos k1]
      obtain ⟨hl1, hl2⟩ := local_linking hA sEnd m p1 (by omega) rfl
      refine ⟨hl1, fun m' pos' h => ?_⟩
      obtain ⟨hp2, hm2⟩ := hl2 m' pos' h
      exact ⟨by omega, hm2⟩
    simp only [if_neg k1]
    refine ⟨rfl, fun m' pos' h => ?_⟩
    simp only [pure, Except.pure, Except.ok.injEq, Prod.mk.injEq] at h
    obtain ⟨rfl, rfl⟩ := h
    exact ⟨by omega, rfl⟩

/-- One iteration of the driver loop treats two buffers that agree from byte 8
on alike. -/
theorem read_section_agree {b1 b2 : List Nat} (hA : AgreeFrom8 b1 b2) (m : Module)
    (pos : Nat) (hp : 8 ≤ pos) (hm : m.binary = b1) :
    read_section (withBinary b2 m) pos = liftBinary b2 (read_section m pos) := by
  subst hm
  simp only [read_section, withBinary_binary, readByte_agree hA hp]
  cases h1 : readByte m.binary pos with
  | error e => rfl
  | ok r =>
    obtain ⟨id, p1⟩ := r
    have := (readByte_eq_ok.1 h1).2
    simp only [bind, Except.bind]
    cases hc : check (decide (id < num_sections)) "invalid section id" with
    | error e => rfl
    | ok u =>
      simp only [readLeb_agree hA (show 8 ≤ p1 by omega)]
      cases h2 : readLeb m.binary p1 with
      | error e => rfl
      | ok r =>
        obtain ⟨len, p2⟩ := r
        have := readLeb_pos h2
        simp only [← hA.1]
        cases hc2 : check (decide (p2 + len ≤ m.binary.length))
            "section extends past file end" with
        | error e => rfl
        | ok u =>
          simp only []
          by_cases k0 : id ≠ 0
          · simp only [if_pos k0]
            have hl := (local_standard hA id (p2 + len)
              { m with sections := m.sections.set id ⟨true, p2, p2 + len⟩ } p2
              (by omega) rfl).1
            simp only [withBinary] at hl ⊢
            rw [hl]
            cases read_standard id
                { m with sections := m.sections.set id ⟨true, p2, p2 + len⟩ } p2 (p2 + len) with
            | error e => rfl
            | ok r => rfl
          · simp only [if_neg k0]
            have hl := (local_custom hA (p2 + len) m p2 (by omega) rfl).1
            simp only [] at hl
            rw [hl]
            cases read_custom m p2 (p2 + len) with
            | error e => rfl
            | ok r => rfl

theorem read_module_loop_agree {b1 b2 : List Nat} (hA : AgreeFrom8 b1 b2) :
    ∀ (fuel : Nat) (m : Module) (pos : Nat), 8 ≤ pos → m.binary = b1 →
      read_module_loop fuel (withBinary b2 m) pos =
        (read_module_loop fuel m pos).map (withBinary b2) := by
  intro fuel
  induction fuel with
  | zero =>
    intro m pos hp hm
    simp only [read_module_loop, withBinary_binary, hm, hA.1]
    split <;> rfl
  | succ fuel ih =>
    intro m pos hp hm
    simp only [read_module_loop, withBinary_binary, hm, ← hA.1]
    by_cases hne : pos ≠ b1.length
    · simp only [if_pos hne, read_section_agree hA m pos hp hm]
      cases h : read_section m pos with
      | error e => rfl
      | ok r =>
        obtain ⟨m1, p1⟩ := r
        have hp1 := read_section_pos h
        have hb1 := read_section_binary h
        simp only [liftBinary]
        exact ih m1 p1 (by omega) (by rw [hb1, hm])
    · simp only [if_neg hne]
      rfl

/-- Two buffers of the same length with the same magic number that agree from
byte 8 on have the same outcome, up to the buffer stored in the module. -/
theorem read_module_agree {b1 b2 : List Nat} (hA : AgreeFrom8 b1 b2)
    (hmagic : b1.take 4 = b2.take 4) :
    read_module b2 = (read_module b1).map (withBinary b2) := by
  simp only [read_module, ← hA.1, ← hmagic]
  cases hc : check (decide (b1.length ≥ 8) && b1.take 4 == [0x00, 0x61, 0x73, 0x6d])
      "not a wasm file" with
  | error e => rfl
  | ok u =>
    simp only [bind, Except.bind]
    have h8 : 8 ≤ b1.length := by
      simp only [check_eq_ok, Bool.and_eq_true, decide_eq_true_eq] at hc
      exact hc.1
    exact read_module_loop_agree hA b1.length { binary := b1 } 8 (Nat.le_refl _) rfl

/-- C12. A buffer shorter than eight bytes, or whose first four bytes are not the
magic number, fails with "not a wasm file".  Two buffers of the same length with
the same first four bytes that agree from byte 8 on, hence differ at most in
the version field, have the same outcome: the same error, or modules that
differ only in the buffer they hold. -/
theorem version_not_checked :
    (∀ bin, bin.length < 8 ∨ bin.take 4 ≠ [0x00, 0x61, 0x73, 0x6d] →
      read_module bin = .error (.msg "not a wasm file")) ∧
    (∀ b1 b2 : List Nat, b1.length = b2.length → b1.take 4 = b2.take 4 →
      b1.drop 8 = b2.drop 8 →
      read_module b2 = (read_module b1).map (withBinary b2)) :=
  ⟨read_module_not_wasm, fun _ _ hl hm hd => read_module_agree ⟨hl, hd⟩ hm⟩

theorem version_not_checked_witness :
    read_module [0x00, 0x61, 0x73] = .error (.msg "not a wasm file") ∧
    read_module [0x00, 0x61, 0x73, 0x6e, 1, 0, 0, 0] = .error (.msg "not a wasm file") ∧
    read_module versionTwo = (read_module exportThenLinking).map (withBinary versionTwo) :=
  ⟨version_not_checked.1 [0x00, 0x61, 0x73] (Or.inl (by decide)),
   version_not_checked.1 [0x00, 0x61, 0x73, 0x6e, 1, 0, 0, 0] (Or.inr (by decide)),
   version_not_checked.2 exportThenLinking versionTwo (by decide) (by decide) (by decide)⟩

/-! ## C17 and C19: a module with more than 2^32 globals

The indices stored in the import list and in the reference lists of the symbol
table are `uint32_t` values.  The buffer `manyGlobals` imports 2^32 + 1 globals;
its evaluation is symbolic, by induction on the number of repeated entries and
sections. -/

theorem repeatBytes_length (e : List Nat) : ∀ n, (repeatBytes e n).length = e.length * n
  | 0 => rfl
  | n + 1 => by
    simp only [repeatBytes, List.length_append, repeatBytes_length e n]
    rw [Nat.mul_succ]; omega

theorem drop_of_drop {l : List Nat} {pos : Nat} {pre rest : List Nat}
    (h : l.drop pos = pre ++ rest) : l.drop (pos + pre.length) = rest := by
  rw [← List.drop_drop, h, List.drop_left]

theorem drop_pos_le {l : List Nat} {pos : Nat} {pre rest : List Nat}
    (h : l.drop pos = pre ++ rest) (hne : pre ≠ []) : pos + pre.length ≤ l.length := by
  have h1 := congrArg List.length h
  simp only [List.length_drop, List.length_append] at h1
  have : 0 < pre.length := List.length_pos.2 hne
  omega

theorem readByte_of_drop {l : List Nat} {pos b : Nat} {rest : List Nat}
    (h : l.drop pos = b :: rest) : readByte l pos = .ok (b, pos + 1) := by
  have h1 : l[pos]? = (l.drop pos)[0]? := by rw [List.getElem?_drop]; rfl
  simp [readByte, h1, h]

theorem readLeb_of_drop_one {l : List Nat} {pos b : Nat} {rest : List Nat}
    (h : l.drop pos = b :: rest) (hb : b < 128) : readLeb l pos = .ok (b, pos + 1) := by
  have e1 : b &&& 0x80 = 0 := by
    have : ∀ b, b < 128 → b &&& 0x80 = 0 := by decide
    exact this b hb
  have e2 : 0 ||| u32 ((b &&& 0x7f) <<< 0) = b := by
    have : ∀ b, b < 128 → 0 ||| u32 ((b &&& 0x7f) <<< 0) = b := by decide
    exact this b hb
  simp only [readLeb, h, readLebFrom, e1, e2, if_true]

theorem readLeb_of_drop_five {l : List Nat} {pos a b c d e : Nat} {rest : List Nat}
    (h : l.drop pos = a :: b :: c :: d :: e :: rest)
    (ha : a &&& 0x80 ≠ 0) (hb : b &&& 0x80 ≠ 0) (hc : c &&& 0x80 ≠ 0) (hd : d &&& 0x80 ≠ 0)
    (he : e &&& 0x80 = 0) :
    readLeb l pos = .ok
      (((((0 ||| u32 ((a &&& 0x7f) <<< 0)) ||| u32 ((b &&& 0x7f) <<< 7)) |||
          u32 ((c &&& 0x7f) <<< 14)) ||| u32 ((d &&& 0x7f) <<< 21)) |||
        u32 ((e &&& 0x7f) <<< 28), pos + 5) := by
  simp only [readLeb, h, readLebFrom, if_neg ha, if_neg hb, if_neg hc, if_neg hd, he, if_true]

theorem readStr_of_drop {l : List Nat} {pos len : Nat} {name rest : List Nat}
    (h : l.drop pos = len :: (name ++ rest)) (hlen : len < 128) (hn : name.length = len) :
    readStr l pos = .ok (name, pos + 1 + len) := by
  have h1 := readLeb_of_drop_one h hlen
  have h2 : l.drop (pos + 1) = name ++ rest := drop_of_drop (show l.drop pos = [len] ++ _ from h)
  have h3 : pos + 1 + len ≤ l.length := by
    have := congrArg List.length h
    simp only [List.length_drop, List.length_cons, List.length_append] at this
    omega
  simp only [readStr, h1, bind, Except.bind, if_pos h3, h2, pure, Except.pure]
  rw [← hn, List.take_left]

theorem import_global_entry_eval {m : Module} {pos i : Nat} {rest : List Nat}
    (h : m.binary.drop pos = [0, 0, 3, 0x7f, 0] ++ rest) :
    read_sec_import_entry i (m, pos) = .ok (importGlobalStep [] m, pos + 5) := by
  have h0 : readStr m.binary pos = .ok ([], pos + 1 + 0) :=
    readStr_of_drop (show m.binary.drop pos = 0 :: ([] ++ (0 :: 3 :: 0x7f :: 0 :: rest)) from h)
      (by decide) rfl
  have d1 : m.binary.drop (pos + 1) = 0 :: 3 :: 0x7f :: 0 :: rest :=
    drop_of_drop (show m.binary.drop pos = [0] ++ _ from h)
  have h1 : readStr m.binary (pos + 1) = .ok ([], pos + 1 + 1 + 0) :=
    readStr_of_drop (show m.binary.drop (pos + 1) = 0 :: ([] ++ (3 :: 0x7f :: 0 :: rest)) from d1)
      (by decide) rfl
  have d2 : m.binary.drop (pos + 2) = 3 :: 0x7f :: 0 :: rest :=
    drop_of_drop (show m.binary.drop pos = [0, 0] ++ _ from h)
  have d3 : m.binary.drop (pos + 3) = 0x7f :: 0 :: rest :=
    drop_of_drop (show m.binary.drop pos = [0, 0, 3] ++ _ from h)
  have d4 : m.binary.drop (pos + 4) = 0 :: rest :=
    drop_of_drop (show m.binary.drop pos = [0, 0, 3, 0x7f] ++ _ from h)
  have h2 := readByte_of_drop d2
  have h3 := readByte_of_drop d3
  have h4 := readByte_of_drop d4
  simp only [Nat.add_zero] at h0 h1
  simp only [read_sec_import_entry, h0, h1, h2, h3, h4, bind, Except.bind,
    external_function, external_table, external_memory, external_global, check, type_i32,
    pure, Except.pure]
  rfl

theorem importGlobals_binary : ∀ (n : Nat) (m : Module), (importGlobals n m).binary = m.binary
  | 0, _ => rfl
  | n + 1, m => by rw [importGlobals, importGlobals_binary n]; rfl

theorem import_global_loop_eval : ∀ (n i : Nat) (m : Module) (pos : Nat) (rest : List Nat),
    m.binary.drop pos = repeatBytes [0, 0, 3, 0x7f, 0] n ++ rest →
    forLoop read_sec_import_entry i n (m, pos) = .ok (importGlobals n m, pos + 5 * n) := by
  intro n
  induction n with
  | zero => intro i m pos rest _; rfl
  | succ n ih =>
    intro i m pos rest h
    rw [repeatBytes, List.append_assoc] at h
    have hd := drop_of_drop h
    simp only [forLoop, import_global_entry_eval h]
    rw [ih (i + 1) (importGlobalStep [] m) (pos + 5) rest hd]
    rw [show pos + 5 + 5 * n = pos + 5 * (n + 1) by omega]
    rfl

theorem manyCount_bytes : 5 * manyCount = 2684354560 := by norm_num [manyCount]

theorem globalImportSection_length : globalImportSection.length = 2684354571 := by
  rw [globalImportSection, List.length_append, repeatBytes_length]
  show 11 + 5 * manyCount = 2684354571
  rw [manyCount_bytes]

theorem read_sec_import_eval (m r : Module) (pos sEnd count p0 : Nat)
    (h1 : readLeb m.binary pos = .ok (count, p0))
    (h2 : forLoop read_sec_import_entry 0 count (m, p0) = .ok (r, sEnd)) :
    read_sec_import m pos sEnd = .ok (r, sEnd) := by
  simp [read_sec_import, h1, h2, check, bind, Except.bind, pure, Except.pure]

theorem read_section_import_eval (m r : Module) (pos p1 len p2 : Nat)
    (h1 : readByte m.binary pos = .ok (wasm_sec_import, p1))
    (h2 : readLeb m.binary p1 = .ok (len, p2)) (hle : p2 + len ≤ m.binary.length)
    (h3 : read_sec_import
      { m with sections := m.sections.set wasm_sec_import ⟨true, p2, p2 + len⟩ } p2 (p2 + len) =
        .ok (r, p2 + len)) :
    read_section m pos = .ok (r, p2 + len) := by
  have hcheck : decide (p2 + len ≤ m.binary.length) = true := by simpa using hle
  simp only [read_section, h1, h2, bind, Except.bind, check, hcheck]
  simp [wasm_sec_import, num_sections, read_standard, wasm_sec_type, pure, Except.pure] at h3 ⊢
  rw [h3]

theorem global_import_section_eval (m : Module) (pos : Nat) (rest : List Nat)
    (h : m.binary.drop pos = globalImportSection ++ rest) :
    read_section m pos = .ok
      (importGlobals manyCount
        { m with
          sections := m.sections.set wasm_sec_import ⟨true, pos + 6, pos + 6 + 2684354565⟩ },
        pos + 6 + 2684354565) := by
  have hlen : pos + 6 + 2684354565 ≤ m.binary.length := by
    have := congrArg List.length h
    simp only [List.length_drop, List.length_append, globalImportSection_length] at this
    omega
  simp only [globalImportSection, List.cons_append, List.nil_append, List.append_assoc] at h
  have h0 := readByte_of_drop h
  have d1 := drop_of_drop (show m.binary.drop pos = [2] ++ _ from h)
  have h1 := readLeb_of_drop_five d1 (by decide) (by decide) (by decide) (by decide)
    (by decide)
  have d6 := drop_of_drop (show m.binary.drop pos = [2, 0x85, 0x80, 0x80, 0x80, 0x0a] ++ _ from h)
  have h6 := readLeb_of_drop_five d6 (by decide) (by decide) (by decide) (by decide)
    (by decide)
  have d11 := drop_of_drop (show m.binary.drop pos =
    [2, 0x85, 0x80, 0x80, 0x80, 0x0a, 0x80, 0x80, 0x80, 0x80, 0x02] ++ _ from h)
  have e1 : ((((0 ||| u32 ((0x85 &&& 0x7f) <<< 0)) ||| u32 ((0x80 &&& 0x7f) <<< 7)) |||
          u32 ((0x80 &&& 0x7f) <<< 14)) ||| u32 ((0x80 &&& 0x7f) <<< 21)) |||
        u32 ((0x0a &&& 0x7f) <<< 28) = 2684354565 := by decide
  have e6 : ((((0 ||| u32 ((0x80 &&& 0x7f) <<< 0)) ||| u32 ((0x80 &&& 0x7f) <<< 7)) |||
          u32 ((0x80 &&& 0x7f) <<< 14)) ||| u32 ((0x80 &&& 0x7f) <<< 21)) |||
        u32 ((0x02 &&& 0x7f) <<< 28) = manyCount := by decide
  rw [e1] at h1
  rw [e6] at h6
  have hl := import_global_loop_eval manyCount 0
    { m with sections := m.sections.set wasm_sec_import ⟨true, pos + 6, pos + 6 + 2684354565⟩ }
    (pos + 11) rest d11
  have hend : pos + 11 + 5 * manyCount = pos + 6 + 2684354565 := by
    have := manyCount_bytes
    omega
  rw [hend] at hl
  exact read_section_import_eval m _ pos (pos + 1) 2684354565 (pos + 6) h0 h1 hlen
    (read_sec_import_eval _ _ (pos + 6) _ manyCount (pos + 11) h6 hl)

theorem emptyNamed_step {n : Nat} {m : Module} (h : EmptyNamed n m) :
    EmptyNamed (n + 1) (importGlobalStep [] m) := by
  obtain ⟨hg, hi, h0, hs, hk⟩ := h
  refine ⟨?_, ?_, fun _ => ?_, symbolsUpdate_sorted _ _ _ hs, ?_⟩
  · show (m.globals ++ [_]).length = n + 1
    rw [List.length_append, hg]; rfl
  · show (m.imports ++ [_]).length = n + 1
    rw [List.length_append, hi]; rfl
  · show ((m.globals ++ [_])[0]?).map Global.isStack = some false ∧
      ((m.imports ++ [_])[0]?).map Import.name = some []
    by_cases hn : 0 < n
    · rw [List.getElem?_append_left (by omega), List.getElem?_append_left (by omega)]
      exact h0 hn
    · have hg0 : m.globals = [] := List.length_eq_zero.1 (by omega)
      have hi0 : m.imports = [] := List.length_eq_zero.1 (by omega)
      rw [hg0, hi0]
      exact ⟨by decide, rfl⟩
  · intro x hx
    rcases symbolsUpdate_keys _ _ _ x hx with h | ⟨y, hy, hxy⟩
    · exact h
    · rw [← hxy]; exact hk y hy

theorem emptyNamed_importGlobals : ∀ (k n : Nat) (m : Module), EmptyNamed n m →
    EmptyNamed (n + k) (importGlobals k m)
  | 0, _, _, h => h
  | k + 1, n, m, h => by
    have := emptyNamed_importGlobals k (n + 1) _ (emptyNamed_step h)
    rw [show n + (k + 1) = n + 1 + k by omega]
    exact this

theorem many_sections_eval : ∀ (j fuel : Nat) (m : Module) (pos n : Nat) (rest : List Nat),
    m.binary.drop pos = repeatBytes globalImportSection j ++ rest → EmptyNamed n m →
    ∃ m', read_module_loop (fuel + j) m pos =
        read_module_loop fuel m' (pos + j * 2684354571) ∧
      EmptyNamed (n + j * manyCount) m' ∧ m'.binary = m.binary := by
  intro j
  induction j with
  | zero =>
    intro fuel m pos n rest _ h0
    exact ⟨m, by simp, by simpa using h0, rfl⟩
  | succ j ih =>
    intro fuel m pos n rest h h0
    rw [repeatBytes, List.append_assoc] at h
    have hsec := global_import_section_eval m pos _ h
    have hd := drop_of_drop h
    rw [globalImportSection_length] at hd
    have hle := drop_pos_le h (by
      intro hnil
      have := congrArg List.length hnil
      rw [globalImportSection_length] at this
      cases this)
    rw [globalImportSection_length] at hle
    have hne : pos ≠ m.binary.length := by omega
    have hp : pos + 6 + 2684354565 = pos + 2684354571 := by omega
    rw [hp] at hsec
    have hstep := @read_module_loop_step (fuel + j) _ _ _ _ hne hsec
    have h1 : EmptyNamed (n + manyCount) (importGlobals manyCount
        { m with
          sections := (m.sections.set wasm_sec_import ⟨true, pos + 6, pos + 2684354571⟩) }) :=
      emptyNamed_importGlobals manyCount n _ h0
    obtain ⟨m', e1, e2, e3⟩ := ih fuel _ (pos + 2684354571) (n + manyCount) rest
      (by rw [importGlobals_binary]; exact hd) h1
    refine ⟨m', ?_, ?_, ?_⟩
    · rw [show fuel + (j + 1) = fuel + j + 1 by omega, hstep, e1]
      rw [show pos + 2684354571 + j * 2684354571 = pos + (j + 1) * 2684354571 by
        rw [Nat.succ_mul]; omega]
    · rw [show n + (j + 1) * manyCount = n + manyCount + j * manyCount by
        rw [Nat.succ_mul]; omega]
      exact e2
    · rw [e3, importGlobals_binary]

theorem stack_pointer_bytes : strBytes "__stack_pointer" =
    [0x5f, 0x5f, 0x73, 0x74, 0x61, 0x63, 0x6b, 0x5f, 0x70, 0x6f, 0x69, 0x6e, 0x74, 0x65, 0x72] := by
  decide

theorem import_stack_entry_eval {m : Module} {pos i : Nat} {rest : List Nat}
    (h : m.binary.drop pos = [0, 15] ++ (strBytes "__stack_pointer" ++ ([3, 0x7f, 0] ++ rest))) :
    read_sec_import_entry i (m, pos) =
      .ok (importGlobalStep (strBytes "__stack_pointer") m, pos + 20) := by
  have hl : (strBytes "__stack_pointer").length = 15 := by decide
  have h0 : readStr m.binary pos = .ok ([], pos + 1 + 0) :=
    readStr_of_drop (show m.binary.drop pos = 0 :: ([] ++ _) from h) (by decide) rfl
  have d1 := drop_of_drop (show m.binary.drop pos = [0] ++ _ from h)
  have h1 : readStr m.binary (pos + 1) = .ok (strBytes "__stack_pointer", pos + 1 + 1 + 15) :=
    readStr_of_drop d1 (by decide) hl
  have d2 : m.binary.drop (pos + 1 + 1) = strBytes "__stack_pointer" ++ ([3, 0x7f, 0] ++ rest) :=
    drop_of_drop (show m.binary.drop (pos + 1) = [15] ++ _ from d1)
  have d3 : m.binary.drop (pos + 1 + 1 + 15) = [3, 0x7f, 0] ++ rest := by
    have := drop_of_drop d2
    rw [hl] at this
    exact this
  have d4 := drop_of_drop (show m.binary.drop (pos + 1 + 1 + 15) = [3] ++ _ from d3)
  have d5 := drop_of_drop (show m.binary.drop (pos + 1 + 1 + 15) = [3, 0x7f] ++ _ from d3)
  have h2 := readByte_of_drop d3
  have h3 := readByte_of_drop d4
  have h4 := readByte_of_drop d5
  simp only [Nat.add_zero, List.length_cons, List.length_nil] at h0 h1 h2 h3 h4
  simp only [read_sec_import_entry, h0, h1, h2, h3, h4, bind, Except.bind,
    external_function, external_table, external_memory, external_global, check, type_i32,
    pure, Except.pure]
  rfl

theorem stack_import_section_eval (m : Module) (pos : Nat)
    (h : m.binary.drop pos = stackImportSection) :
    read_section m pos = .ok
      (importGlobalStep (strBytes "__stack_pointer")
        { m with sections := (m.sections.set wasm_sec_import ⟨true, pos + 2, pos + 2 + 21⟩) },
        pos + 2 + 21) := by
  have hlen : pos + 2 + 21 ≤ m.binary.length := by
    have := congrArg List.length h
    simp only [List.length_drop, stackImportSection, List.length_cons, List.length_nil] at this
    omega
  have h0 := readByte_of_drop (show m.binary.drop pos = 2 :: _ from h)
  have d1 := drop_of_drop (show m.binary.drop pos = [2] ++ _ from h)
  have h1 := readLeb_of_drop_one d1 (by decide)
  have d2 := drop_of_drop (show m.binary.drop pos = [2, 21] ++ _ from h)
  have h2 := readLeb_of_drop_one d2 (by decide)
  have d3 : m.binary.drop (pos + 3) = [0, 15] ++ (strBytes "__stack_pointer" ++
      ([3, 0x7f, 0] ++ [])) := by
    rw [stack_pointer_bytes]
    exact drop_of_drop (show m.binary.drop pos = [2, 21, 1] ++ _ from h)
  have h3 := @import_stack_entry_eval
    { m with sections := (m.sections.set wasm_sec_import ⟨true, pos + 2, pos + 2 + 21⟩) }
    (pos + 3) 0 [] d3
  simp only [List.length_cons, List.length_nil] at h1 h2
  have hl : forLoop read_sec_import_entry 0 1
      ({ m with sections := (m.sections.set wasm_sec_import ⟨true, pos + 2, pos + 2 + 21⟩) },
        pos + 2 + 1) = .ok
      (importGlobalStep (strBytes "__stack_pointer")
        { m with sections := (m.sections.set wasm_sec_import ⟨true, pos + 2, pos + 2 + 21⟩) },
        pos + 2 + 21) := by
    simp only [forLoop, show pos + 2 + 1 = pos + 3 from rfl, h3]
  exact read_section_import_eval m _ pos (pos + 1) 21 (pos + 2) h0 h1 hlen
    (read_sec_import_eval _ _ (pos + 2) _ 1 (pos + 2 + 1) h2 hl)

theorem manyGlobals_length : manyGlobals.length = 21474836599 := by
  rw [manyGlobals, List.length_append, List.length_append, repeatBytes_length,
    globalImportSection_length]
  rfl

/-- The buffer `manyGlobals` is accepted: the module returned is the result of
the import of `__stack_pointer` into a module with 2^32 globals imported under
the empty name. -/
theorem read_module_manyGlobals :
    ∃ m8, EmptyNamed 4294967296 m8 ∧
      read_module manyGlobals = .ok (importGlobalStep (strBytes "__stack_pointer") m8) := by
  have hmagic : manyGlobals.take 4 = [0x00, 0x61, 0x73, 0x6d] := by
    rw [manyGlobals, List.take_append_of_le_length (by decide)]
    rfl
  have hd : ({ binary := manyGlobals } : Module).binary.drop 8 =
      repeatBytes globalImportSection 8 ++ stackImportSection :=
    drop_of_drop (show manyGlobals.drop 0 = wasmHeader ++ _ from rfl)
  have h0 : EmptyNamed 0 { binary := manyGlobals } :=
    ⟨rfl, rfl, fun h => absurd h (Nat.lt_irrefl 0), List.Pairwise.nil,
      fun x hx => by cases hx⟩
  obtain ⟨m8, e1, e2, e3⟩ := many_sections_eval 8 21474836591 { binary := manyGlobals } 8 0
    stackImportSection hd h0
  have e3' : m8.binary = manyGlobals := e3
  have hd8 : m8.binary.drop (8 + 8 * 2684354571) = stackImportSection := by
    rw [e3']
    have := drop_of_drop (show ({ binary := manyGlobals } : Module).binary.drop 8 =
      repeatBytes globalImportSection 8 ++ (stackImportSection ++ []) by
        rw [List.append_nil]; exact hd)
    rw [repeatBytes_length, globalImportSection_length, List.append_nil] at this
    exact this
  have hsec := stack_import_section_eval m8 _ hd8
  have hne : 8 + 8 * 2684354571 ≠ m8.binary.length := by
    rw [e3', manyGlobals_length]; decide
  have hstep := @read_module_loop_step 21474836590 _ _ _ _ hne hsec
  have hcount : 0 + 8 * manyCount = 4294967296 := by norm_num [manyCount]
  rw [hcount] at e2
  refine ⟨{ m8 with
    sections := (m8.sections.set wasm_sec_import
      ⟨true, 8 + 8 * 2684354571 + 2, 8 + 8 * 2684354571 + 2 + 21⟩) }, e2, ?_⟩
  rw [read_module_eval manyGlobals (by rw [manyGlobals_length]; decide) hmagic,
    manyGlobals_length, show (21474836599 : Nat) = 21474836591 + 8 from rfl, e1, hstep]
  have hdone := read_module_loop_done 21474836590
    (importGlobalStep (strBytes "__stack_pointer")
      { m8 with
        sections := (m8.sections.set wasm_sec_import
          ⟨true, 8 + 8 * 2684354571 + 2, 8 + 8 * 2684354571 + 2 + 21⟩) })
  have hl : (importGlobalStep (strBytes "__stack_pointer")
      { m8 with
        sections := (m8.sections.set wasm_sec_import
          ⟨true, 8 + 8 * 2684354571 + 2, 8 + 8 * 2684354571 + 2 + 21⟩) }).binary.length =
      8 + 8 * 2684354571 + 2 + 21 := by
    show m8.binary.length = _
    rw [e3', manyGlobals_length]
  rw [hl] at hdone
  exact hdone

/-- C17 (counterexample). The buffer `manyGlobals` is accepted with 2^32 + 1
globals.  Its last import, of kind global and named `__stack_pointer`, gets the
index 2^32 truncated to `uint32_t`, which is 0, while global 0 is not marked as
the stack pointer. -/
theorem stack_pointer_wrap_counterexample :
    ∃ m, read_module manyGlobals = .ok m ∧ m.globals.length = 4294967297 ∧
      (m.globals[0]?).map Global.isStack = some false ∧
      ∃ imp ∈ m.imports, imp.kind = external_global ∧ imp.index = 0 ∧
        imp.name = strBytes "__stack_pointer" := by
  obtain ⟨m8, ⟨hg, hi, h0, hs, hk⟩, hread⟩ := read_module_manyGlobals
  refine ⟨_, hread, ?_, ?_, ?_⟩
  · show (m8.globals ++ [_]).length = _
    rw [List.length_append, hg]
    rfl
  · show ((m8.globals ++ [_])[0]?).map Global.isStack = some false
    rw [List.getElem?_append_left (by rw [hg]; decide)]
    exact (h0 (by decide)).1
  · refine ⟨⟨strBytes "__stack_pointer", external_global, u32 m8.globals.length⟩,
      List.mem_append_right _ (List.mem_singleton_self _), rfl, ?_, rfl⟩
    show u32 m8.globals.length = 0
    rw [hg]
    decide

/-- C19 (counterexample). In the module read from `manyGlobals` the import
reference list of `__stack_pointer` is `[0]`, while the import at position 0 has
the empty name: the import named `__stack_pointer` stands at position 2^32. -/
theorem symbol_refs_wrap_counterexample :
    ∃ m, read_module manyGlobals = .ok m ∧
      importRefs m (strBytes "__stack_pointer") = [0] ∧
      (m.imports[0]?).map Import.name = some [] ∧
      0 ∉ importPositions m (strBytes "__stack_pointer") := by
  obtain ⟨m8, ⟨hg, hi, h0, hs, hk⟩, hread⟩ := read_module_manyGlobals
  have hfirst : (((importGlobalStep (strBytes "__stack_pointer") m8).imports)[0]?).map
      Import.name = some [] := by
    show ((m8.imports ++ [_])[0]?).map Import.name = some []
    rw [List.getElem?_append_left (by rw [hi]; decide)]
    exact (h0 (by decide)).2
  refine ⟨_, hread, ?_, hfirst, ?_⟩
  · have hnone : symbolsFind (strBytes "__stack_pointer") m8.symbols = none :=
      symbolsFind_eq_none (fun y hy => by rw [hk y hy]; decide)
    show ((symbolsFind (strBytes "__stack_pointer")
      (symbolsUpdate _ (strBytes "__stack_pointer") m8.symbols)).getD {}).imports = [0]
    rw [symbolsFind_update_self _ _ _ hs, hnone]
    show [] ++ [u32 m8.imports.length] = [0]
    rw [hi]
    decide
  · intro hmem
    unfold importPositions at hmem
    obtain ⟨hlt, hp⟩ := (positionsFrom_zero_mem _ _ _).1 hmem
    rw [List.getElem?_eq_getElem hlt] at hfirst
    simp only [Option.map_some', Option.some.injEq] at hfirst
    simp only [List.get_eq_getElem, hfirst] at hp
    exact absurd hp (by decide)

/-! ## C21: relocation entries -/

theorem relocEntries_mem (binary : List Nat) (sid : Nat) : ∀ (n pos : Nat),
    ∀ r ∈ (relocEntries binary sid n pos).1, r.section_id = sid ∧
      (r.addend = 0 ∨ r.type = r_webassembly_memory_addr_leb ∨
        r.type = r_webassembly_memory_addr_sleb ∨ r.type = r_webassembly_memory_addr_i32) := by
  intro n
  induction n with
  | zero => intro pos r hr; simp [relocEntries] at hr
  | succ n ih =>
    intro pos r hr
    simp only [relocEntries] at hr
    split at hr
    · cases hr
    · split at hr
      · cases hr
      · split at hr
        · cases hr
        · split at hr
          · next hk =>
            split at hr
            · cases hr
            · rcases List.mem_cons.1 hr with hr | hr
              · subst hr; exact ⟨rfl, Or.inr hk⟩
              · exact ih _ r hr
          · rcases List.mem_cons.1 hr with hr | hr
            · subst hr; exact ⟨rfl, Or.inl rfl⟩
            · exact ih _ r hr

/-- The loop of `read_reloc` appends the entries listed in the buffer, in order,
one for each iteration. -/
theorem read_reloc_loop_entries (sid : Nat) : ∀ (n i : Nat) (m : Module) (p : Nat)
    (m' : Module) (p' : Nat), forLoop (read_reloc_entry sid) i n (m, p) = .ok (m', p') →
    (relocEntries m.binary sid n p).2 = p' ∧
    (relocEntries m.binary sid n p).1.length = n ∧
    m' = { m with relocs := m.relocs ++ (relocEntries m.binary sid n p).1 } := by
  intro n
  induction n with
  | zero =>
    intro i m p m' p' h
    simp only [forLoop, Except.ok.injEq, Prod.mk.injEq] at h
    simp [relocEntries, h.1, h.2]
  | succ n ih =>
    intro i m p m' p' h
    simp only [forLoop] at h
    split at h
    · cases h
    · next s1 hb =>
      obtain ⟨m1, q⟩ := s1
      simp only [read_reloc_entry, bind_eq_ok, Prod.exists] at hb
      obtain ⟨type, p1, h1, offset, p2, h2, index, p3, h3, hb⟩ := hb
      simp only [relocEntries, h1, h2, h3]
      split at hb
      · next hk =>
        simp only [bind_eq_ok, pure_eq_ok, Prod.exists, Prod.mk.injEq] at hb
        obtain ⟨addend, p4, h4, rfl, rfl⟩ := hb
        obtain ⟨e1, e2, e3⟩ := ih _ _ _ _ _ h
        simp only [if_pos hk, h4, List.length_cons]
        refine ⟨e1, by rw [e2], ?_⟩
        rw [e3]
        simp
      · next hk =>
        simp only [pure_eq_ok, Prod.mk.injEq] at hb
        obtain ⟨rfl, rfl⟩ := hb
        obtain ⟨e1, e2, e3⟩ := ih _ _ _ _ _ h
        simp only [if_neg hk, List.length_cons]
        refine ⟨e1, by rw [e2], ?_⟩
        rw [e3]
        simp

/-- The shape of a successful run of `read_reloc`. -/
theorem read_reloc_ok {m m' : Module} {name : Name} {pos sEnd pos' : Nat}
    (h : read_reloc m name pos sEnd = .ok (m', pos')) :
    ∃ sid p0 count p1, readLeb m.binary pos = .ok (sid, p0) ∧
      (sid = wasm_sec_code ∨ sid = wasm_sec_data) ∧
      readLeb m.binary p0 = .ok (count, p1) ∧
      (relocEntries m.binary sid count p1).1.length = count ∧
      (relocEntries m.binary sid count p1).2 = sEnd ∧ pos' = sEnd ∧
      m' = { m with relocs := m.relocs ++ (relocEntries m.binary sid count p1).1 } := by
  simp only [read_reloc, bind_eq_ok, check_eq_ok, pure_eq_ok, Prod.exists, Prod.mk.injEq,
    Bool.or_eq_true, beq_iff_eq] at h
  obtain ⟨sid, p0, h0, -, hsid, count, p1, h1, m1, p2, hl, -, hend, rfl, rfl⟩ := h
  obtain ⟨e1, e2, e3⟩ := read_reloc_loop_entries sid _ _ _ _ _ _ hl
  exact ⟨sid, p0, count, p1, h0, hsid, h1, e2, by rw [e1, hend], hend, e3⟩

theorem read_reloc_unsupported {m : Module} {name : Name} {pos sEnd sid p0 : Nat}
    (h0 : readLeb m.binary pos = .ok (sid, p0)) (h1 : sid ≠ wasm_sec_code)
    (h2 : sid ≠ wasm_sec_data) :
    read_reloc m name pos sEnd = .error (.msg "unsupported reloc section id") := by
  have : (sid == wasm_sec_code || sid == wasm_sec_data) = false := by
    simp [h1, h2]
  simp [read_reloc, h0, check, this, bind, Except.bind]

theorem preserves_relocsWellFormed :
    Preserves (fun id => id ≠ wasm_sec_custom) RelocsWellFormed := by
  refine Preserves.of_updates (fun _ _ h => h) (fun _ _ _ h _ => h) ?_ (fun _ _ _ h _ => h)
    (fun _ _ _ h _ => h) (fun _ _ _ h _ => h) (fun _ _ _ h => h) ?_ (fun _ _ _ h => h)
    (fun _ _ _ h => h) (fun h => absurd rfl h) (fun h => absurd rfl h)
    (fun h => absurd rfl h)
  · intro _ i m p m' p' h0 h
    obtain ⟨name, kind, index, h⟩ := read_sec_import_entry_ok h
    rcases h with ⟨-, -, t, -, rfl⟩ | ⟨-, -, -, l, rfl⟩ | ⟨-, -, -, l, rfl⟩ | ⟨-, -, rfl⟩ <;>
      exact h0
  · intro _ i m p m' p' h0 h
    rcases read_sec_export_entry_ok h with rfl | ⟨name, kind, index, rfl⟩ <;> exact h0

theorem read_section_relocs {m m' : Module} {pos pos' : Nat} (h0 : RelocsWellFormed m)
    (h : read_section m pos = .ok (m', pos')) : RelocsWellFormed m' := by
  obtain ⟨id, p1, len, p2, hp, -, -, -, -, -, h | h⟩ := read_section_ok h
  · exact read_standard_inv preserves_relocsWellFormed h.1
      (preserves_relocsWellFormed.sections m _ h0) h.2
  · have hc := h.2
    simp only [read_custom, bind_eq_ok, Prod.exists] at hc
    obtain ⟨name, p, -, hc⟩ := hc
    split at hc
    · obtain ⟨sid, q0, count, q1, -, hsid, -, -, -, -, rfl⟩ := read_reloc_ok hc
      intro r hr
      rcases List.mem_append.1 hr with hr | hr
      · exact h0 r hr
      · obtain ⟨e1, e2⟩ := relocEntries_mem _ _ _ _ r hr
        exact ⟨by rw [e1]; exact hsid, e2⟩
    split at hc
    · refine read_linking_inv RelocsWellFormed ?_ (fun _ _ h => h) h0 hc
      intro i a q a' q' ha hb
      obtain ⟨nm, fl, rfl⟩ := read_linking_symbol_ok hb
      exact ha
    · simp only [pure_eq_ok, Prod.mk.injEq] at hc
      exact hc.1 ▸ h0

/-- C21. Every relocation of an accepted module targets section 10 or 11 and has
addend 0 unless its kind is 3, 4 or 5.  An entry whose kind, offset and index
can be read is appended with the addend read right behind the index when the
kind is 3, 4 or 5, and with addend 0, reading nothing more, otherwise.  A run of
`read_reloc` that returns has read a target of 10 or 11 and a count, and has
appended exactly the entries listed in the buffer, in order, as many as the
count.  A target that can be read and is neither 10 nor 11 fails with
"unsupported reloc section id". -/
theorem reloc_entries :
    (∀ bin m, read_module bin = .ok m → ∀ r ∈ m.relocs,
      (r.section_id = wasm_sec_code ∨ r.section_id = wasm_sec_data) ∧
      (r.addend = 0 ∨ r.type = r_webassembly_memory_addr_leb ∨
        r.type = r_webassembly_memory_addr_sleb ∨ r.type = r_webassembly_memory_addr_i32)) ∧
    (∀ sid i m pos type p1 offset p2 index p3,
      readLeb m.binary pos = .ok (type, p1) → readLeb m.binary p1 = .ok (offset, p2) →
      readLeb m.binary p2 = .ok (index, p3) →
      (type = r_webassembly_memory_addr_leb ∨ type = r_webassembly_memory_addr_sleb ∨
          type = r_webassembly_memory_addr_i32 →
        ∀ addend p4, readLeb m.binary p3 = .ok (addend, p4) →
          read_reloc_entry sid i (m, pos) = .ok
            ({ m with relocs := m.relocs ++ [⟨sid, type, offset, index, addend⟩] }, p4)) ∧
      (¬ (type = r_webassembly_memory_addr_leb ∨ type = r_webassembly_memory_addr_sleb ∨
          type = r_webassembly_memory_addr_i32) →
        read_reloc_entry sid i (m, pos) = .ok
          ({ m with relocs := m.relocs ++ [⟨sid, type, offset, index, 0⟩] }, p3))) ∧
    (∀ m name pos sEnd m' pos', read_reloc m name pos sEnd = .ok (m', pos') →
      ∃ sid p0 count p1, readLeb m.binary pos = .ok (sid, p0) ∧
        (sid = wasm_sec_code ∨ sid = wasm_sec_data) ∧
        readLeb m.binary p0 = .ok (count, p1) ∧
        (relocEntries m.binary sid count p1).1.length = count ∧
        (relocEntries m.binary sid count p1).2 = sEnd ∧ pos' = sEnd ∧
        m' = { m with relocs := m.relocs ++ (relocEntries m.binary sid count p1).1 }) ∧
    (∀ m name pos sEnd sid p0, readLeb m.binary pos = .ok (sid, p0) →
      sid ≠ wasm_sec_code → sid ≠ wasm_sec_data →
      read_reloc m name pos sEnd = .error (.msg "unsupported reloc section id")) := by
  refine ⟨?_, ?_, fun m name pos sEnd m' pos' h => read_reloc_ok h,
    fun m name pos sEnd sid p0 => read_reloc_unsupported⟩
  · intro bin m h
    exact read_module_loop_inv_pos (fun x _ => RelocsWellFormed x)
      (fun a pos a' pos' hK hsec => read_section_relocs hK hsec)
      bin.length { binary := bin } 8 m (fun r hr => by cases hr) (read_module_ok h).2
  · intro sid i m pos type p1 offset p2 index p3 h1 h2 h3
    refine ⟨fun hk addend p4 h4 => ?_, fun hk => ?_⟩
    · simp only [read_reloc_entry, h1, h2, h3, h4, bind, Except.bind, if_pos hk]
      rfl
    · simp only [read_reloc_entry, h1, h2, h3, bind, Except.bind, if_neg hk]
      rfl

theorem reloc_entries_witness :
    (∃ m, read_module relocModule = .ok m ∧
      m.relocs = [⟨11, 4, 1, 2, 3⟩] ∧
      ∀ r ∈ m.relocs, (r.section_id = wasm_sec_code ∨ r.section_id = wasm_sec_data) ∧
        (r.addend = 0 ∨ r.type = r_webassembly_memory_addr_leb ∨
          r.type = r_webassembly_memory_addr_sleb ∨
          r.type = r_webassembly_memory_addr_i32)) ∧
    read_reloc_entry 10 0 (relocProbe, 2) = .ok
      ({ relocProbe with relocs := [⟨10, 0, 1, 2, 0⟩] }, 5) ∧
    read_reloc_entry 10 1 (relocProbe, 5) = .ok
      ({ relocProbe with relocs := [⟨10, 3, 4, 5, 6⟩] }, 9) ∧
    (∃ sid p0 count p1, readLeb relocProbe.binary 0 = .ok (sid, p0) ∧
      (sid = wasm_sec_code ∨ sid = wasm_sec_data) ∧
      readLeb relocProbe.binary p0 = .ok (count, p1) ∧
      (relocEntries relocProbe.binary sid count p1).1.length = count ∧
      (relocEntries relocProbe.binary sid count p1).2 = 9 ∧ 9 = 9 ∧
      ({ relocProbe with relocs := [⟨10, 0, 1, 2, 0⟩, ⟨10, 3, 4, 5, 6⟩] } : Module) =
        { relocProbe with
          relocs := relocProbe.relocs ++ (relocEntries relocProbe.binary sid count p1).1 }) ∧
    read_reloc relocTargetProbe [] 0 9 = .error (.msg "unsupported reloc section id") :=
  ⟨⟨_, rfl, rfl, reloc_entries.1 relocModule _ rfl⟩,
   (reloc_entries.2.1 10 0 relocProbe 2 0 3 1 4 2 5 (by decide) (by decide) (by decide)).2
     (by decide),
   (reloc_entries.2.1 10 1 relocProbe 5 3 6 4 7 5 8 (by decide) (by decide) (by decide)).1
     (by decide) 6 9 (by decide),
   reloc_entries.2.2.1 relocProbe [] 0 9
     { relocProbe with relocs := [⟨10, 0, 1, 2, 0⟩, ⟨10, 3, 4, 5, 6⟩] } 9 (by decide),
   reloc_entries.2.2.2 relocTargetProbe [] 0 9 7 1 (by decide) (by decide) (by decide)⟩

/-! ## C22: the constant initialiser -/

theorem readLebFrom_error (l : List Nat) : ∀ (pos result shift : Nat) (e : Err),
    readLebFrom l pos result shift = .error e → e = .oob := by
  induction l with
  | nil => intro pos result shift e h; simp only [readLebFrom] at h; cases h; rfl
  | cons b rest ih =>
    intro pos result shift e h
    simp only [readLebFrom] at h
    split at h
    · cases h
    · exact ih _ _ _ _ h

theorem readLeb_error {binary : List Nat} {pos : Nat} {e : Err}
    (h : readLeb binary pos = .error e) : e = .oob :=
  readLebFrom_error _ _ _ _ e h

/-- The outcome of `getInitExpr32` in each of the six situations it can meet. -/
theorem getInitExpr32_cases (binary : List Nat) (pos : Nat) :
    (binary[pos]? = none ∧ getInitExpr32 binary pos = .error .oob) ∨
    (∃ b, binary[pos]? = some b ∧ b ≠ 0x41 ∧
      getInitExpr32 binary pos = .error (.msg "init_expr is not i32.const")) ∨
    (binary[pos]? = some 0x41 ∧ readLeb binary (pos + 1) = .error .oob ∧
      getInitExpr32 binary pos = .error .oob) ∨
    (binary[pos]? = some 0x41 ∧ ∃ v q, readLeb binary (pos + 1) = .ok (v, q) ∧
      binary[q]? = none ∧ getInitExpr32 binary pos = .error .oob) ∨
    (binary[pos]? = some 0x41 ∧ ∃ v q b, readLeb binary (pos + 1) = .ok (v, q) ∧
      binary[q]? = some b ∧ b ≠ 0x0b ∧
      getInitExpr32 binary pos = .error (.msg "init_expr missing end")) ∨
    (binary[pos]? = some 0x41 ∧ ∃ v q, readLeb binary (pos + 1) = .ok (v, q) ∧
      binary[q]? = some 0x0b ∧ getInitExpr32 binary pos = .ok (v, q + 1)) := by
  cases hb : binary[pos]? with
  | none =>
    refine Or.inl ⟨rfl, ?_⟩
    simp [getInitExpr32, readByte, hb, bind, Except.bind]
  | some b =>
    by_cases hop : b = 0x41
    · subst hop
      cases hl : readLeb binary (pos + 1) with
      | error e =>
        have := readLeb_error hl
        subst this
        refine Or.inr (Or.inr (Or.inl ⟨rfl, rfl, ?_⟩))
        simp [getInitExpr32, readByte, hb, hl, check, bind, Except.bind]
      | ok r =>
        obtain ⟨v, q⟩ := r
        cases hq : binary[q]? with
        | none =>
          refine Or.inr (Or.inr (Or.inr (Or.inl ⟨rfl, v, q, rfl, hq, ?_⟩)))
          simp [getInitExpr32, readByte, hb, hl, hq, check, bind, Except.bind]
        | some c =>
          by_cases hc : c = 0x0b
          · subst hc
            refine Or.inr (Or.inr (Or.inr (Or.inr (Or.inr ⟨rfl, v, q, rfl, hq, ?_⟩))))
            simp [getInitExpr32, readByte, hb, hl, hq, check, bind, Except.bind, pure,
              Except.pure]
          · refine Or.inr (Or.inr (Or.inr (Or.inr (Or.inl ⟨rfl, v, q, c, rfl, hq, hc, ?_⟩))))
            simp [getInitExpr32, readByte, hb, hl, hq, check, bind, Except.bind, hc]
    · refine Or.inr (Or.inl ⟨b, rfl, hop, ?_⟩)
      simp [getInitExpr32, readByte, hb, check, bind, Except.bind, hop]

/-- C22 (counterexample). At the in-range position 0 of a buffer that ends right
behind the opcode 0x41, inside the constant, or right behind the constant,
`getInitExpr32` neither returns nor throws one of its two messages: it reads
past the end of the buffer. -/
theorem getInitExpr32_truncated_counterexample :
    getInitExpr32 [0x41] 0 = .error .oob ∧
    getInitExpr32 [0x41, 0x80] 0 = .error .oob ∧
    getInitExpr32 [0x41, 7] 0 = .error .oob := by
  decide

/-- C22 (amended). `getInitExpr32` returns exactly when the byte at `pos` is 0x41,
the constant behind it can be decoded, and the byte behind the constant is
0x0b; it then returns the constant and moves the cursor by the width of the
constant plus 2.  It throws "init_expr is not i32.const" exactly when there is
a byte at `pos` other than 0x41, and "init_expr missing end" exactly when the
byte at `pos` is 0x41, the constant can be decoded and a byte other than 0x0b
follows it.  It reads past the end of the buffer exactly when there is no byte
at `pos`, or the byte is 0x41 and the buffer ends inside or right behind the
constant.  There is no other outcome. -/
theorem getInitExpr32_spec (binary : List Nat) (pos : Nat) :
    (∀ v p, getInitExpr32 binary pos = .ok (v, p) ↔
      binary[pos]? = some 0x41 ∧ ∃ q, readLeb binary (pos + 1) = .ok (v, q) ∧
        binary[q]? = some 0x0b ∧ p = pos + (q - (pos + 1)) + 2) ∧
    (getInitExpr32 binary pos = .error (.msg "init_expr is not i32.const") ↔
      ∃ b, binary[pos]? = some b ∧ b ≠ 0x41) ∧
    (getInitExpr32 binary pos = .error (.msg "init_expr missing end") ↔
      binary[pos]? = some 0x41 ∧ ∃ v q b, readLeb binary (pos + 1) = .ok (v, q) ∧
        binary[q]? = some b ∧ b ≠ 0x0b) ∧
    (getInitExpr32 binary pos = .error .oob ↔
      binary[pos]? = none ∨
      (binary[pos]? = some 0x41 ∧ (readLeb binary (pos + 1) = .error .oob ∨
        ∃ v q, readLeb binary (pos + 1) = .ok (v, q) ∧ binary[q]? = none))) ∧
    (∀ e, getInitExpr32 binary pos = .error e →
      e = .oob ∨ e = .msg "init_expr is not i32.const" ∨ e = .msg "init_expr missing end") := by
  have hw : ∀ {v q : Nat}, readLeb binary (pos + 1) = .ok (v, q) →
      q + 1 = pos + (q - (pos + 1)) + 2 := by
    intro v q h
    have := readLeb_pos h
    omega
  rcases getInitExpr32_cases binary pos with
    ⟨h0, hr⟩ | ⟨b, h0, hb, hr⟩ | ⟨h0, h1, hr⟩ | ⟨h0, v0, q0, h1, h2, hr⟩ |
    ⟨h0, v0, q0, b, h1, h2, hb, hr⟩ | ⟨h0, v0, q0, h1, h2, hr⟩
  · refine ⟨fun v p => ?_, ?_, ?_, ?_, ?_⟩
    · rw [hr, h0]; simp
    · rw [hr, h0]; simp
    · rw [hr, h0]; simp
    · rw [hr, h0]; simp
    · intro e he; rw [hr] at he; cases he; exact Or.inl rfl
  · refine ⟨fun v p => ?_, ?_, ?_, ?_, ?_⟩
    · rw [hr, h0]; simp [hb]
    · rw [hr, h0]; simp [hb]
    · rw [hr, h0]; simp [hb]
    · rw [hr, h0]; simp [hb]
    · intro e he; rw [hr] at he; cases he; exact Or.inr (Or.inl rfl)
  · refine ⟨fun v p => ?_, ?_, ?_, ?_, ?_⟩
    · rw [hr, h0, h1]; simp
    · rw [hr, h0]; simp
    · rw [hr, h0, h1]; simp
    · rw [hr, h0, h1]; simp
    · intro e he; rw [hr] at he; cases he; exact Or.inl rfl
  · refine ⟨fun v p => ?_, ?_, ?_, ?_, ?_⟩
    · rw [hr, h0, h1]
      constructor
      · intro h; cases h
      · rintro ⟨-, q, hq, hq2, -⟩
        simp only [Except.ok.injEq, Prod.mk.injEq] at hq
        obtain ⟨-, rfl⟩ := hq
        rw [h2] at hq2; cases hq2
    · rw [hr, h0]; simp
    · rw [hr, h0, h1]
      constructor
      · intro h; cases h
      · rintro ⟨-, v, q, b, hq, hq2, -⟩
        simp only [Except.ok.injEq, Prod.mk.injEq] at hq
        obtain ⟨-, rfl⟩ := hq
        rw [h2] at hq2; cases hq2
    · rw [hr, h0, h1]
      simp only [true_iff]
      exact Or.inr ⟨trivial, Or.inr ⟨v0, q0, rfl, h2⟩⟩
    · intro e he; rw [hr] at he; cases he; exact Or.inl rfl
  · refine ⟨fun v p => ?_, ?_, ?_, ?_, ?_⟩
    · rw [hr, h0, h1]
      constructor
      · intro h; cases h
      · rintro ⟨-, q, hq, hq2, -⟩
        simp only [Except.ok.injEq, Prod.mk.injEq] at hq
        obtain ⟨-, rfl⟩ := hq
        rw [h2] at hq2
        exact absurd (Option.some.inj hq2) hb
    · rw [hr, h0]; simp
    · rw [hr, h0, h1]
      simp only [true_iff]
      exact ⟨trivial, v0, q0, b, rfl, h2, hb⟩
    · rw [hr, h0, h1]
      constructor
      · intro h; cases h
      · rintro (h | ⟨-, h | ⟨v, q, hq, hq2⟩⟩)
        · cases h
        · cases h
        · simp only [Except.ok.injEq, Prod.mk.injEq] at hq
          obtain ⟨-, rfl⟩ := hq
          rw [h2] at hq2; cases hq2
    · intro e he; rw [hr] at he; cases he; exact Or.inr (Or.inr rfl)
  · refine ⟨fun v p => ?_, ?_, ?_, ?_, ?_⟩
    · rw [hr, h0, h1]
      constructor
      · intro h
        simp only [Except.ok.injEq, Prod.mk.injEq] at h
        obtain ⟨rfl, rfl⟩ := h
        exact ⟨rfl, q0, rfl, h2, hw h1⟩
      · rintro ⟨-, q, hq, -, hp⟩
        simp only [Except.ok.injEq, Prod.mk.injEq] at hq
        obtain ⟨rfl, rfl⟩ := hq
        rw [hp, ← hw h1]
    · rw [hr, h0]; simp
    · rw [hr, h0, h1]
      constructor
      · intro h; cases h
      · rintro ⟨-, v, q, b, hq, hq2, hb⟩
        simp only [Except.ok.injEq, Prod.mk.injEq] at hq
        obtain ⟨-, rfl⟩ := hq
        rw [h2] at hq2
        exact absurd (Option.some.inj hq2).symm hb
    · rw [hr, h0, h1]
      constructor
      · intro h; cases h
      · rintro (h | ⟨-, h | ⟨v, q, hq, hq2⟩⟩)
        · cases h
        · cases h
        · simp only [Except.ok.injEq, Prod.mk.injEq] at hq
          obtain ⟨-, rfl⟩ := hq
          rw [h2] at hq2; cases hq2
    · intro e he; rw [hr] at he; cases he

theorem getInitExpr32_spec_witness :
    getInitExpr32 [0x41, 0x85, 0x01, 0x0b] 0 = .ok (133, 4) ∧
    getInitExpr32 [0x23, 0x00, 0x0b] 0 = .error (.msg "init_expr is not i32.const") ∧
    getInitExpr32 [0x41, 0x07, 0x41] 0 = .error (.msg "init_expr missing end") ∧
    getInitExpr32 [0x41, 0x07] 0 = .error .oob :=
  ⟨((getInitExpr32_spec [0x41, 0x85, 0x01, 0x0b] 0).1 133 4).2
      ⟨by decide, 3, by decide, by decide, by decide⟩,
   (getInitExpr32_spec [0x23, 0x00, 0x0b] 0).2.1.2 ⟨0x23, by decide, by decide⟩,
   (getInitExpr32_spec [0x41, 0x07, 0x41] 0).2.2.1.2
      ⟨by decide, 7, 2, 0x41, by decide, by decide, by decide⟩,
   (getInitExpr32_spec [0x41, 0x07] 0).2.2.2.1.2
      (Or.inr ⟨by decide, Or.inr ⟨7, 2, by decide, by decide⟩⟩)⟩

end WasmTools
